import Mathlib

/-!
# DTO (DSA Transparent Offload): a shallow embedding of `dto.c`

The library interposes `memset`, `memcpy`, `memmove` and `memcmp` and offloads
large requests to a data-streaming accelerator.  This file embeds the hot path
of `src/dto.c` (submitter, waiter, tuner, splitter and the four entry points)
and its probing of work queues (the registry, the device groups and the two
probing routines) as pure state-passing functions and proves properties of
them.

Modelling conventions
* Memory is a map from addresses to byte values; addresses are natural numbers
  and address arithmetic is assumed not to wrap.
* `cpu_size_fraction` is a `double` in the source that is initialized to a
  multiple of `0.01` and stepped by `0.01`.  The hot path carries its nominal
  number of hundredths `h`, and `x * cpu_size_fraction` converted to an integer
  is `x * h / 100`.  The arithmetic that the tuner performs on the `double`
  itself is embedded separately, in the section on binary64 arithmetic.
* The accelerator and the enqueue instruction are the environment: their
  behaviour for the `i`-th descriptor of a run is given by a value of `Hw`.
* The `do ... while` loops take a fuel argument and return `none` when the fuel
  is exhausted before the loop exits.
* Sizes and counters are natural numbers; a conversion to `uint32_t` is
  `% 2 ^ 32`, to `uint8_t` `% 256`, and the 64-bit tuner counters wrap at
  `2 ^ 64`.
-/

namespace DTO

/-! ## Constants of `dto.c` and of `<linux/idxd.h>` -/

def ENQCMD_MAX_RETRIES : Nat := 3
def DTO_DEFAULT_MIN_SIZE : Nat := 8192

/-- Values of `enum return_code`. -/
def SUCCESS : Nat := 0
def RETRIES : Nat := 1
def PAGE_FAULT : Nat := 2
def FAIL_OTHERS : Nat := 3

/-- Completion status values of `<linux/idxd.h>` (`enum dsa_completion_status`). -/
def DSA_COMP_SUCCESS : Nat := 1
def DSA_COMP_PAGE_FAULT_NOBOF : Nat := 3
def DSA_COMP_STATUS_MASK : Nat := 0x7f

/-- Values of `enum wait_options`. -/
def WAIT_BUSYPOLL : Nat := 0
def WAIT_UMWAIT : Nat := 1
def WAIT_YIELD : Nat := 2

/-- Auto tune heuristics magic numbers; the fractions are in hundredths. -/
def DESCS_PER_RUN : Nat := 0xF0
def NUM_DESCS : Nat := 16
def MIN_AVG_YIELD_WAITS : Nat := 1
def MAX_AVG_YIELD_WAITS : Nat := 2
def MIN_AVG_POLL_WAITS : Nat := 5
def MAX_AVG_POLL_WAITS : Nat := 20
def MAX_CPU_SIZE_FRACTION : Nat := 90
def CSF_STEP_INCREMENT : Nat := 1
def CSF_STEP_DECREMENT : Nat := 1
def MAX_DSA_MIN_SIZE : Nat := 65536
def MIN_DSA_MIN_SIZE : Nat := 6144
def DMS_STEP_INCREMENT : Nat := 1024
def DMS_STEP_DECREMENT : Nat := 1024

/-! ## Memory -/

/-- Byte-addressed memory: the byte stored at each address. -/
abbrev Mem := Nat → Nat

/-- The value `(uint8_t) c` of an `int c`. -/
def byteOf (c : Int) : Nat := (c % 256).toNat

/-- Memory after `len` bytes from address `a` have been set to the byte `b`. -/
def fill (m : Mem) (a len b : Nat) : Mem :=
  fun x => if a ≤ x ∧ x < a + len then b else m x

/-- Memory after `len` bytes have been moved from `s` to `d` with the semantics
of `memmove`: the destination receives what the source held beforehand. -/
def move (m : Mem) (d s len : Nat) : Mem :=
  fun x => if d ≤ x ∧ x < d + len then m (s + (x - d)) else m x

/-- Offset of the first byte at which `a[i..i+k)` and `b[i..i+k)` differ. -/
def firstDiff (m : Mem) (a b : Nat) : Nat → Nat → Option Nat
  | _, 0 => none
  | i, k + 1 => if m (a + i) ≠ m (b + i) then some i else firstDiff m a b (i + 1) k

/-! ## Descriptors, completion records, work queues -/

inductive Opcode
  | NOOP
  | MEMMOVE
  | MEMFILL
  | COMPARE
  deriving DecidableEq, Repr

/-- The fields of `struct dsa_hw_desc` that `dto.c` writes.  `pattern` holds the
byte that `dto_memset` replicates into all eight bytes of the fill pattern. -/
structure Desc where
  opcode : Opcode
  src_addr : Nat
  src2_addr : Nat
  dst_addr : Nat
  xfer_size : Nat
  pattern : Nat
  deriving DecidableEq

/-- The fields of `struct dsa_completion_record` that `dto.c` reads. -/
structure Comp where
  status : Nat
  bytes_completed : Nat
  result : Nat
  deriving DecidableEq

/-- The field of `struct dto_wq` that the splitter reads. -/
structure dto_wq where
  max_transfer_size : Nat
  deriving DecidableEq

/-- What the environment does with one descriptor: the retry flag returned by
each `enqcmd` attempt, how often the waiter polls before the completion record
is written, and the status, byte count and direction the device reports. -/
structure Hw where
  retry : Nat → Bool
  waits : Nat
  status : Nat
  bytes_completed : Nat
  result : Nat

/-- Observable actions of the library, in the order they happen.  `completed`
is the return of the wait for descriptor `d`, with the number of bytes the
waiter credits and the result byte of the completion record. -/
inductive Event
  | get_wq (buf : Nat)
  | enqcmd (d : Desc) (retry : Bool)
  | completed (d : Desc) (credited : Nat) (result : Nat)
  | orig_memset (s : Nat) (c : Int) (n : Nat)
  | orig_memcpy (dest src n : Nat)
  | orig_memmove (dest src n : Nat)
  | orig_memcmp (s1 s2 n : Nat)
  deriving DecidableEq

/-! ## State -/

/-- The process-wide tuning state: the two knobs and the tuner accumulators. -/
structure Knobs where
  dsa_min_size : Nat
  cpu_size_fraction : Nat
  auto_adjust_knobs : Nat
  min_avg_waits : Nat
  max_avg_waits : Nat
  num_descs : Nat
  adjust_num_descs : Nat
  adjust_num_waits : Nat
  deriving DecidableEq

/-- Process memory, process-wide variables and the calling thread's variables.
`wait_method` holds a value of `enum wait_options`.  `result` is the `int result` of the entry point that the splitter writes
through its pointer argument; `ndesc` counts the descriptors handed to the
environment, `trace` records the observable actions and `enq_status` the status
byte of the thread's completion record as it stood at each `enqcmd` attempt. -/
structure World where
  mem : Mem
  dto_initialized : Nat
  dto_initializing : Nat
  use_std_lib_calls : Nat
  fork_handler_registered : Nat
  wait_method : Nat
  g : Knobs
  thr_desc : Desc
  thr_comp : Comp
  thr_bytes_completed : Nat
  result : Nat
  ndesc : Nat
  trace : List Event
  enq_status : List Nat

def World.log (w : World) (e : Event) : World :=
  { w with trace := w.trace ++ [e] }

/-- One `enqcmd` attempt with the thread's descriptor: the attempt is logged
together with the status byte the completion record holds at that moment. -/
def World.enq (w : World) (retry : Bool) : World :=
  { w.log (.enqcmd w.thr_desc retry) with enq_status := w.enq_status ++ [w.thr_comp.status] }

/-! ## The accelerator -/

/-- Number of bytes a device reports for a descriptor that did not complete:
never more than the descriptor's transfer size. -/
def devBytes (h : Hw) (d : Desc) : Nat := min h.bytes_completed d.xfer_size

/-- Memory after the device has processed descriptor `d`.  A successful fill or
move covers the whole range.  A descriptor that stops early has processed
`devBytes h d` bytes: the first ones, or for a move that the device runs
backwards (`result ≠ 0`) the last ones. -/
def deviceMem (h : Hw) (d : Desc) (m : Mem) : Mem :=
  match d.opcode with
  | .MEMFILL =>
    if h.status = DSA_COMP_SUCCESS then fill m d.dst_addr d.xfer_size d.pattern
    else fill m d.dst_addr (devBytes h d) d.pattern
  | .MEMMOVE =>
    if h.status = DSA_COMP_SUCCESS then move m d.dst_addr d.src_addr d.xfer_size
    else if h.result = 0 then move m d.dst_addr d.src_addr (devBytes h d)
    else move m (d.dst_addr + (d.xfer_size - devBytes h d))
      (d.src_addr + (d.xfer_size - devBytes h d)) (devBytes h d)
  | .COMPARE => m
  | .NOOP => m

/-- Completion record the device writes for descriptor `d`.  A compare that
completes reports in `result` whether the ranges differ and in
`bytes_completed` the offset of the first difference. -/
def deviceComp (h : Hw) (d : Desc) (m : Mem) : Comp :=
  match d.opcode with
  | .MEMFILL => ⟨h.status, devBytes h d, 0⟩
  | .MEMMOVE => ⟨h.status, devBytes h d, if h.status = DSA_COMP_SUCCESS then 0 else h.result⟩
  | .COMPARE =>
    if h.status = DSA_COMP_SUCCESS then
      match firstDiff m d.src_addr d.src2_addr 0 d.xfer_size with
      | none => ⟨h.status, d.xfer_size, 0⟩
      | some k => ⟨h.status, k, 1⟩
    else ⟨h.status, devBytes h d, 0⟩
  | .NOOP => ⟨h.status, 0, 0⟩

/-! ## Tuner, waiter, submitter -/

/-- `dsa_wait_and_adjust`, the part that touches the tuning state, with the
fraction in nominal hundredths; `waits` is the number of times the completion
byte was found to be zero.  The average `adjust_num_waits / temp` is compared
with the bounds by cross-multiplying.  `Binary64.dsa_wait_and_adjust` is the
same function with the arithmetic of the `double`s. -/
def dsa_wait_and_adjust (waits : Nat) (g : Knobs) : Knobs :=
  let g1 := { g with num_descs := (g.num_descs + 1) % 2 ^ 64 }
  if g1.num_descs &&& DESCS_PER_RUN ≠ DESCS_PER_RUN then g1
  else
    let g2 := { g1 with
      adjust_num_descs := (g1.adjust_num_descs + 1) % 2 ^ 64
      adjust_num_waits := (g1.adjust_num_waits + waits) % 2 ^ 64 }
    if NUM_DESCS ≤ g2.adjust_num_descs then
      let temp := g2.adjust_num_descs
      if temp ≠ 0 then
        let total := g2.adjust_num_waits
        let g3 := { g2 with adjust_num_descs := 0, adjust_num_waits := 0 }
        if g3.max_avg_waits * temp < total then
          if g3.cpu_size_fraction < MAX_CPU_SIZE_FRACTION then
            { g3 with cpu_size_fraction := g3.cpu_size_fraction + CSF_STEP_INCREMENT }
          else if g3.dsa_min_size < MAX_DSA_MIN_SIZE then
            { g3 with dsa_min_size := g3.dsa_min_size + DMS_STEP_INCREMENT }
          else g3
        else if total < g3.min_avg_waits * temp then
          if CSF_STEP_DECREMENT ≤ g3.cpu_size_fraction then
            { g3 with cpu_size_fraction := g3.cpu_size_fraction - CSF_STEP_DECREMENT }
          else if MIN_DSA_MIN_SIZE < g3.dsa_min_size then
            { g3 with dsa_min_size := g3.dsa_min_size - DMS_STEP_DECREMENT }
          else g3
        else g3
      else g2
    else g2

/-- The choice between `dsa_wait_and_adjust` and `dsa_wait_no_adjust`; only the
former changes state. -/
def wait_for_completion (waits : Nat) (w : World) : World :=
  if w.g.auto_adjust_knobs ≠ 0 then { w with g := dsa_wait_and_adjust waits w.g } else w

/-- The wait for the completion record followed by the classification of the
status byte, shared by `dsa_wait` and `dsa_execute`.  By the time the wait
returns the device has processed the descriptor and written the record. -/
def wait_and_classify (h : Hw) (w : World) : World :=
  let d := w.thr_desc
  let w1 := { w with mem := deviceMem h d w.mem, thr_comp := deviceComp h d w.mem }
  let w2 := wait_for_completion h.waits w1
  if w2.thr_comp.status = DSA_COMP_SUCCESS then
    ({ w2 with thr_bytes_completed := w2.thr_bytes_completed + d.xfer_size,
               result := SUCCESS }).log (.completed d d.xfer_size w2.thr_comp.result)
  else if w2.thr_comp.status &&& DSA_COMP_STATUS_MASK = DSA_COMP_PAGE_FAULT_NOBOF then
    ({ w2 with thr_bytes_completed := w2.thr_bytes_completed + w2.thr_comp.bytes_completed,
               result := PAGE_FAULT }).log
      (.completed d w2.thr_comp.bytes_completed w2.thr_comp.result)
  else
    ({ w2 with result := FAIL_OTHERS }).log (.completed d 0 w2.thr_comp.result)

/-- `dsa_wait`. -/
def dsa_wait (h : Hw) (w : World) : World := wait_and_classify h w

/-- The `for` loop of `dsa_submit`: attempt `r` with `k` attempts left. -/
def dsa_submit_loop (h : Hw) : Nat → Nat → World → World
  | _, 0, w => { w with result := RETRIES }
  | r, k + 1, w =>
    let w1 := w.enq (h.retry r)
    if h.retry r = false then { w1 with result := SUCCESS }
    else dsa_submit_loop h (r + 1) k w1

/-- `dsa_submit`. -/
def dsa_submit (h : Hw) (w : World) : World :=
  dsa_submit_loop h 0 ENQCMD_MAX_RETRIES w

/-- The `for` loop of `dsa_execute`. -/
def dsa_execute_loop (h : Hw) : Nat → Nat → World → World
  | _, 0, w => { w with result := RETRIES }
  | r, k + 1, w =>
    let w1 := w.enq (h.retry r)
    if h.retry r = false then wait_and_classify h w1
    else dsa_execute_loop h (r + 1) k w1

/-- `dsa_execute`: clear the completion byte, submit and wait. -/
def dsa_execute (h : Hw) (w : World) : World :=
  dsa_execute_loop h 0 ENQCMD_MAX_RETRIES
    { w with thr_comp := { w.thr_comp with status := 0 } }

/-! ## The original C library routines -/

def orig_memset (s : Nat) (c : Int) (n : Nat) (w : World) : World :=
  ({ w with mem := fill w.mem s n (byteOf c) }).log (.orig_memset s c n)

/-- The C library `memcpy`, with the contract it has on ranges that do not
overlap. -/
def orig_memcpy (dest src n : Nat) (w : World) : World :=
  ({ w with mem := move w.mem dest src n }).log (.orig_memcpy dest src n)

def orig_memmove (dest src n : Nat) (w : World) : World :=
  ({ w with mem := move w.mem dest src n }).log (.orig_memmove dest src n)

/-- Difference of the first pair of differing bytes, `0` when there is none. -/
def cmpBytes (m : Mem) (s1 s2 n : Nat) : Int :=
  match firstDiff m s1 s2 0 n with
  | none => 0
  | some k => (m (s1 + k) : Int) - (m (s2 + k) : Int)

/-- The C library `memcmp` together with its return value. -/
def orig_memcmp (s1 s2 n : Nat) (w : World) : Int × World :=
  (cmpBytes w.mem s1 s2 n, w.log (.orig_memcmp s1 s2 n))

/-! ## `get_wq` -/

/-- `get_wq`: the selected work queue `wq` is an input of the splitter; the
selection is recorded. -/
def get_wq (buf : Nat) (w : World) : World := w.log (.get_wq buf)

/-! ## `dto_memset` and `memset` -/

/-- Body of the `do ... while` loop of `dto_memset` with `n` bytes left. -/
def dto_memset_chunk (h : Hw) (s : Nat) (c : Int) (threshold fraction_snapshot n : Nat)
    (w : World) : World :=
  let len := if n ≤ threshold then n else threshold
  let cpu_size := len * fraction_snapshot / 100
  let dsa_size := len - cpu_size
  let w1 := { w with
    thr_desc := { w.thr_desc with
      dst_addr := s + cpu_size + w.thr_bytes_completed
      xfer_size := dsa_size % 2 ^ 32 }
    thr_comp := { w.thr_comp with status := 0 } }
  let w2 := dsa_submit h w1
  let w3 := if w2.result = SUCCESS then
      let w2a := if cpu_size ≠ 0 then
          let w2b := orig_memset (s + w2.thr_bytes_completed) c cpu_size w2
          { w2b with thr_bytes_completed := w2b.thr_bytes_completed + cpu_size }
        else w2
      dsa_wait h w2a
    else w2
  { w3 with ndesc := w3.ndesc + 1 }

/-- The `do ... while` loop of `dto_memset`. -/
def dto_memset_loop (hw : Nat → Hw) (s : Nat) (c : Int) (threshold fraction_snapshot : Nat) :
    Nat → Nat → World → Option World
  | 0, _, _ => none
  | fuel + 1, n, w =>
    let len := if n ≤ threshold then n else threshold
    let w1 := dto_memset_chunk (hw w.ndesc) s c threshold fraction_snapshot n w
    if w1.result ≠ SUCCESS then some w1
    else if w1.g.dsa_min_size ≤ n - len then
      dto_memset_loop hw s c threshold fraction_snapshot fuel (n - len) w1
    else some w1

/-- `dto_memset`. -/
def dto_memset (hw : Nat → Hw) (wq : dto_wq) (fuel : Nat) (s : Nat) (c : Int) (n : Nat)
    (w : World) : Option World :=
  let w0 := get_wq s w
  let w0 := { w0 with thr_desc := { w0.thr_desc with opcode := .MEMFILL, pattern := byteOf c } }
  let cpu_size := n * w0.g.cpu_size_fraction / 100
  let dsa_size := n - cpu_size
  let w0 := { w0 with thr_bytes_completed := 0 }
  if dsa_size ≤ wq.max_transfer_size then
    let h := hw w0.ndesc
    let w1 := { w0 with
      thr_desc := { w0.thr_desc with dst_addr := s + cpu_size, xfer_size := dsa_size % 2 ^ 32 }
      thr_comp := { w0.thr_comp with status := 0 } }
    let w2 := dsa_submit h w1
    let w3 := if w2.result = SUCCESS then
        let w2a := if cpu_size ≠ 0 then
            let w2b := orig_memset s c cpu_size w2
            { w2b with thr_bytes_completed := cpu_size }
          else w2
        dsa_wait h w2a
      else w2
    some { w3 with ndesc := w3.ndesc + 1 }
  else
    let fraction_snapshot := w0.g.cpu_size_fraction
    let threshold := (wq.max_transfer_size * 100 / (100 - fraction_snapshot)) % 2 ^ 32
    dto_memset_loop hw s c threshold fraction_snapshot fuel n w0

/-- The CPU-only test `USE_ORIG_FUNC(n)`. -/
def USE_ORIG_FUNC (w : World) (n : Nat) : Bool :=
  decide (w.use_std_lib_calls = 1) || decide (n < w.g.dsa_min_size)

/-- The loop of `dto_internal_memset`: `k` bytes left, starting at index `i`. -/
def dto_internal_memset_loop (s1 : Nat) (b : Nat) : Nat → Nat → Mem → Mem
  | _, 0, m => m
  | i, k + 1, m =>
    dto_internal_memset_loop s1 b (i + 1) k (fun x => if x = s1 + i then b else m x)

/-- `dto_internal_memset`. -/
def dto_internal_memset (s1 : Nat) (c : Int) (n : Nat) (w : World) : Nat × World :=
  (s1, { w with mem := dto_internal_memset_loop s1 (byteOf c) 0 n w.mem })

/-- The interposed `memset`; returns the returned pointer and the final state. -/
def memset (hw : Nat → Hw) (wq : dto_wq) (fuel : Nat) (s1 : Nat) (c : Int) (n : Nat)
    (w : World) : Option (Nat × World) :=
  let ret := s1
  let use_orig_func := USE_ORIG_FUNC w n
  if w.dto_initialized = 0 then some (dto_internal_memset s1 c n w)
  else if use_orig_func = false then
    match dto_memset hw wq fuel s1 c n { w with result := 0 } with
    | none => none
    | some w1 =>
      if w1.thr_bytes_completed ≠ n then
        some (ret, orig_memset (s1 + w1.thr_bytes_completed) c (n - w1.thr_bytes_completed) w1)
      else some (ret, w1)
  else some (ret, orig_memset s1 c n w)

/-! ## `dto_memcpymove`, `memcpy` and `memmove` -/

/-- `is_overlapping_buffers`. -/
def is_overlapping_buffers (dest src n : Nat) : Bool :=
  if dest + n < src ∨ src + n < dest then false else true

/-- The CPU routine the splitter runs on a chunk's first bytes: `orig_memcpy`
for `memcpy`, `orig_memmove` for `memmove`. -/
def orig_copy (is_memcpy : Bool) (dest src n : Nat) (w : World) : World :=
  if is_memcpy then orig_memcpy dest src n w else orig_memmove dest src n w

/-- Body of the `do ... while` loop of `dto_memcpymove` with `n` bytes left.
The CPU share is computed from the current `cpu_size_fraction`. -/
def dto_memcpymove_chunk (h : Hw) (dest src : Nat) (is_memcpy : Bool) (threshold n : Nat)
    (w : World) : World :=
  let len := if n ≤ threshold then n else threshold
  let cpu_size :=
    if (!is_memcpy && is_overlapping_buffers dest src len) = true then 0
    else len * w.g.cpu_size_fraction / 100
  let dsa_size := len - cpu_size
  let w1 := { w with
    thr_desc := { w.thr_desc with
      src_addr := src + cpu_size + w.thr_bytes_completed
      dst_addr := dest + cpu_size + w.thr_bytes_completed
      xfer_size := dsa_size % 2 ^ 32 }
    thr_comp := { w.thr_comp with status := 0 } }
  let w2 := dsa_submit h w1
  let w3 := if w2.result = SUCCESS then
      let w2a := if cpu_size ≠ 0 then
          let w2b := orig_copy is_memcpy (dest + w2.thr_bytes_completed)
            (src + w2.thr_bytes_completed) cpu_size w2
          { w2b with thr_bytes_completed := w2b.thr_bytes_completed + cpu_size }
        else w2
      dsa_wait h w2a
    else w2
  { w3 with ndesc := w3.ndesc + 1 }

/-- The `do ... while` loop of `dto_memcpymove`. -/
def dto_memcpymove_loop (hw : Nat → Hw) (dest src : Nat) (is_memcpy : Bool) (threshold : Nat) :
    Nat → Nat → World → Option World
  | 0, _, _ => none
  | fuel + 1, n, w =>
    let len := if n ≤ threshold then n else threshold
    let w1 := dto_memcpymove_chunk (hw w.ndesc) dest src is_memcpy threshold n w
    if w1.result ≠ SUCCESS then some w1
    else if w1.g.dsa_min_size ≤ n - len then
      dto_memcpymove_loop hw dest src is_memcpy threshold fuel (n - len) w1
    else some w1

/-- `dto_memcpymove`. -/
def dto_memcpymove (hw : Nat → Hw) (wq : dto_wq) (fuel : Nat) (dest src n : Nat)
    (is_memcpy : Bool) (w : World) : Option World :=
  let w0 := get_wq dest w
  let w0 := { w0 with thr_desc := { w0.thr_desc with opcode := .MEMMOVE } }
  let cpu_size :=
    if (!is_memcpy && is_overlapping_buffers dest src n) = true then 0
    else n * w0.g.cpu_size_fraction / 100
  let dsa_size := n - cpu_size
  let w0 := { w0 with thr_bytes_completed := 0 }
  if dsa_size ≤ wq.max_transfer_size then
    let h := hw w0.ndesc
    let w1 := { w0 with
      thr_desc := { w0.thr_desc with
        src_addr := src + cpu_size
        dst_addr := dest + cpu_size
        xfer_size := dsa_size % 2 ^ 32 }
      thr_comp := { w0.thr_comp with status := 0 } }
    let w2 := dsa_submit h w1
    let w3 := if w2.result = SUCCESS then
        let w2a := if cpu_size ≠ 0 then
            let w2b := orig_copy is_memcpy dest src cpu_size w2
            { w2b with thr_bytes_completed := w2b.thr_bytes_completed + cpu_size }
          else w2
        dsa_wait h w2a
      else w2
    some { w3 with ndesc := w3.ndesc + 1 }
  else
    let fraction_snapshot := w0.g.cpu_size_fraction
    let threshold := (wq.max_transfer_size * 100 / (100 - fraction_snapshot)) % 2 ^ 32
    dto_memcpymove_loop hw dest src is_memcpy threshold fuel n w0

/-- The forward loop of `dto_internal_memcpymove`: index `i`, `k` iterations
left. -/
def dto_internal_copy_up (d s : Nat) : Nat → Nat → Mem → Mem
  | _, 0, m => m
  | i, k + 1, m =>
    dto_internal_copy_up d s (i + 1) k (fun x => if x = d + i then m (s + i) else m x)

/-- The backward loop of `dto_internal_memcpymove`; the argument is `i + 1`,
the loop ends when `i` has become negative. -/
def dto_internal_copy_down (d s : Nat) : Nat → Mem → Mem
  | 0, m => m
  | i + 1, m =>
    dto_internal_copy_down d s i (fun x => if x = d + i then m (s + i) else m x)

/-- The value of a 64-bit pattern read as `ssize_t`. -/
def to_ssize (v : Nat) : Int := if v < 2 ^ 63 then (v : Int) else (v : Int) - 2 ^ 64

/-- `dto_internal_memcpymove`.  The backward loop starts at
`i = (ssize_t)(n - 1)`, the subtraction being done in `size_t`; the forward
loop runs while `i < n`, which for `n ≤ SSIZE_MAX` is `n` iterations. -/
def dto_internal_memcpymove (dest src n : Nat) (w : World) : Nat × World :=
  if dest ≤ src then
    (dest, { w with mem := dto_internal_copy_up dest src 0 n w.mem })
  else
    let i := to_ssize ((n + 2 ^ 64 - 1) % 2 ^ 64)
    (dest, { w with mem := dto_internal_copy_down dest src (i + 1).toNat w.mem })

/-- Continuation of `memcpy` and `memmove` after the splitter has returned
state `w1`: finish what is left with the original routine. -/
def finish_copy (is_memcpy : Bool) (dest src n : Nat) (w1 : World) : World :=
  if w1.thr_bytes_completed ≠ n then
    let n1 := n - w1.thr_bytes_completed
    if w1.thr_comp.result = 0 then
      orig_copy is_memcpy (dest + w1.thr_bytes_completed) (src + w1.thr_bytes_completed) n1 w1
    else orig_copy is_memcpy dest src n1 w1
  else w1

/-- The interposed `memcpy`. -/
def memcpy (hw : Nat → Hw) (wq : dto_wq) (fuel : Nat) (dest src n : Nat)
    (w : World) : Option (Nat × World) :=
  let ret := dest
  let use_orig_func := USE_ORIG_FUNC w n
  if w.dto_initialized = 0 then some (dto_internal_memcpymove dest src n w)
  else if use_orig_func = false then
    match dto_memcpymove hw wq fuel dest src n true { w with result := 0 } with
    | none => none
    | some w1 => some (ret, finish_copy true dest src n w1)
  else some (ret, orig_memcpy dest src n w)

/-- The interposed `memmove`. -/
def memmove (hw : Nat → Hw) (wq : dto_wq) (fuel : Nat) (dest src n : Nat)
    (w : World) : Option (Nat × World) :=
  let ret := dest
  let use_orig_func := USE_ORIG_FUNC w n
  if w.dto_initialized = 0 then some (dto_internal_memcpymove dest src n w)
  else if use_orig_func = false then
    match dto_memcpymove hw wq fuel dest src n false { w with result := 0 } with
    | none => none
    | some w1 => some (ret, finish_copy false dest src n w1)
  else some (ret, orig_memmove dest src n w)

/-! ## `dto_memcmp` and `memcmp` -/

/-- The `do ... while` loop of `dto_memcmp`. -/
def dto_memcmp_loop (hw : Nat → Hw) (wq : dto_wq) (s1 s2 : Nat) :
    Nat → Nat → World → Option World
  | 0, _, _ => none
  | fuel + 1, n, w =>
    let len := if n ≤ wq.max_transfer_size then n else wq.max_transfer_size
    let w1 := { w with
      thr_desc := { w.thr_desc with
        src_addr := s1 + w.thr_bytes_completed
        src2_addr := s2 + w.thr_bytes_completed
        xfer_size := len % 2 ^ 32 } }
    let w2 := dsa_execute (hw w.ndesc) w1
    let w3 := { w2 with ndesc := w2.ndesc + 1 }
    if w3.result ≠ SUCCESS ∨ w3.thr_comp.result ≠ 0 then some w3
    else if w3.g.dsa_min_size ≤ n - len then dto_memcmp_loop hw wq s1 s2 fuel (n - len) w3
    else some w3

/-- `dto_memcmp`; returns `cmp_result` and the final state. -/
def dto_memcmp (hw : Nat → Hw) (wq : dto_wq) (fuel : Nat) (s1 s2 n : Nat)
    (w : World) : Option (Int × World) :=
  let w0 := get_wq s2 w
  let orig_n := n
  let w0 := { w0 with
    thr_desc := { w0.thr_desc with opcode := .COMPARE }
    thr_comp := { w0.thr_comp with result := 0 }
    thr_bytes_completed := 0 }
  let r :=
    if n ≤ wq.max_transfer_size then
      let w1 := { w0 with
        thr_desc := { w0.thr_desc with src_addr := s1, src2_addr := s2, xfer_size := n % 2 ^ 32 } }
      let w2 := dsa_execute (hw w0.ndesc) w1
      some { w2 with ndesc := w2.ndesc + 1 }
    else dto_memcmp_loop hw wq s1 s2 fuel n w0
  match r with
  | none => none
  | some w3 =>
    if w3.thr_comp.result ≠ 0 then
      let t1 := s1 + w3.thr_bytes_completed
      let t2 := s2 + w3.thr_bytes_completed
      some ((w3.mem t1 : Int) - (w3.mem t2 : Int), { w3 with thr_bytes_completed := orig_n })
    else some (0, w3)

/-- The loop of `dto_internal_memcmp`: index `i`, `k` iterations left. -/
def dto_internal_memcmp_loop (m : Mem) (s1 s2 : Nat) : Nat → Nat → Int
  | _, 0 => 0
  | i, k + 1 =>
    if m (s1 + i) ≠ m (s2 + i) then (m (s1 + i) : Int) - (m (s2 + i) : Int)
    else dto_internal_memcmp_loop m s1 s2 (i + 1) k

/-- `dto_internal_memcmp`. -/
def dto_internal_memcmp (s1 s2 n : Nat) (w : World) : Int × World :=
  (dto_internal_memcmp_loop w.mem s1 s2 0 n, w)

/-- The interposed `memcmp`. -/
def memcmp (hw : Nat → Hw) (wq : dto_wq) (fuel : Nat) (s1 s2 n : Nat)
    (w : World) : Option (Int × World) :=
  let use_orig_func := USE_ORIG_FUNC w n
  if w.dto_initialized = 0 then some (dto_internal_memcmp s1 s2 n w)
  else if use_orig_func = false then
    match dto_memcmp hw wq fuel s1 s2 n { w with result := 0 } with
    | none => none
    | some (ret, w1) =>
      if w1.thr_bytes_completed ≠ n then
        some (orig_memcmp (s1 + w1.thr_bytes_completed) (s2 + w1.thr_bytes_completed)
          (n - w1.thr_bytes_completed) w1)
      else some (ret, w1)
  else some (orig_memcmp s1 s2 n w)

/-! ## Initialization -/

/-- A value returned by `strtod`: the number `num / den`. -/
structure Dbl where
  num : Int
  den : Nat
  deriving DecidableEq

/-- What `init_dto` reads from its environment.  A numeric variable is given by
the value its conversion routine returns and by whether the routine set
`errno`; `probe_ok` tells whether probing found a usable work queue. -/
structure Env where
  DTO_USESTDC_CALLS : Option (Nat × Bool)
  DTO_MIN_BYTES : Option (Nat × Bool)
  DTO_CPU_SIZE_FRACTION : Option (Dbl × Bool)
  DTO_AUTO_ADJUST_KNOBS : Option (Nat × Bool)
  DTO_WAIT_METHOD : Option String
  umwait_support : Bool
  pthread_atfork_ok : Bool
  probe_ok : Bool

/-- Number of hundredths that `init_dto` keeps of `DTO_CPU_SIZE_FRACTION`: the
value is replaced by `0.0` when it is invalid, then multiplied by `100` and
truncated. -/
def parse_cpu_size_fraction (x : Dbl) (err : Bool) : Nat :=
  if err = true ∨ x.num < 0 ∨ (x.den : Int) ≤ x.num then 0
  else (100 * x.num / (x.den : Int)).toNat

/-- `dsa_init`: choice of the waiting method, then probing.  Returns whether
probing failed. -/
def dsa_init (env : Env) (w : World) : Bool × World :=
  let w1 := match env.DTO_WAIT_METHOD with
    | none => w
    | some str =>
      if str.startsWith "busypoll" then
        { w with wait_method := WAIT_BUSYPOLL,
                 g := { w.g with min_avg_waits := MIN_AVG_POLL_WAITS,
                                 max_avg_waits := MAX_AVG_POLL_WAITS } }
      else if str.startsWith "umwait" then
        if env.umwait_support then
          { w with wait_method := WAIT_UMWAIT,
                   g := { w.g with min_avg_waits := MIN_AVG_POLL_WAITS,
                                   max_avg_waits := MAX_AVG_POLL_WAITS } }
        else w
      else w
  (!env.probe_ok, w1)

/-- `init_dto`: the block that reads `DTO_USESTDC_CALLS` into the `uint8_t`
flag. -/
def init_usestdc (env : Env) (w : World) : World :=
  match env.DTO_USESTDC_CALLS with
  | none => w
  | some (v, err) =>
    let u := if err then 0 else v % 256
    { w with use_std_lib_calls := if u ≠ 0 then 1 else 0 }

/-- `init_dto`: registration of the fork handler. -/
def init_fork_handler (env : Env) (w : World) : World :=
  if w.fork_handler_registered = 0 then
    if env.pthread_atfork_ok then { w with fork_handler_registered := 1 }
    else { w with use_std_lib_calls := 1 }
  else w

/-- `init_dto`: the block that reads `DTO_MIN_BYTES`. -/
def init_min_bytes (env : Env) (w : World) : World :=
  match env.DTO_MIN_BYTES with
  | none => w
  | some (v, err) =>
    { w with g := { w.g with dsa_min_size := if err then DTO_DEFAULT_MIN_SIZE else v } }

/-- `init_dto`: the block that reads `DTO_CPU_SIZE_FRACTION`. -/
def init_cpu_size_fraction (env : Env) (w : World) : World :=
  match env.DTO_CPU_SIZE_FRACTION with
  | none => w
  | some (x, err) =>
    { w with g := { w.g with cpu_size_fraction := parse_cpu_size_fraction x err } }

/-- `init_dto`: the block that reads `DTO_AUTO_ADJUST_KNOBS` into the `uint8_t`
flag. -/
def init_auto_adjust (env : Env) (w : World) : World :=
  match env.DTO_AUTO_ADJUST_KNOBS with
  | none => w
  | some (v, err) =>
    let u := if err then 1 else v % 256
    { w with g := { w.g with auto_adjust_knobs := if u ≠ 0 then 1 else 0 } }

/-- `init_dto`: the block "initialize DSA", entered when `use_std_lib_calls` is
not set. -/
def init_dsa (env : Env) (w : World) : World :=
  if w.use_std_lib_calls = 0 then
    let r := dsa_init env (init_auto_adjust env (init_cpu_size_fraction env (init_min_bytes env w)))
    if r.1 = true then { r.2 with use_std_lib_calls := 1 } else r.2
  else w

/-- `init_dto`, the part that sets the gating flags and the tuning knobs. -/
def init_dto (env : Env) (w : World) : World :=
  if w.dto_initializing = 0 then
    let w1 := init_usestdc env { w with dto_initializing := 1 }
    let w2 := init_fork_handler env w1
    let w3 := init_dsa env w2
    { w3 with dto_initialized := 1 }
  else w

/-- The state a process starts in: the static initializers of `dto.c`. -/
def World.static (m : Mem) : World :=
  { mem := m
    dto_initialized := 0
    dto_initializing := 0
    use_std_lib_calls := 0
    fork_handler_registered := 0
    wait_method := WAIT_YIELD
    g := { dsa_min_size := DTO_DEFAULT_MIN_SIZE
           cpu_size_fraction := 0
           auto_adjust_knobs := 1
           min_avg_waits := MIN_AVG_YIELD_WAITS
           max_avg_waits := MAX_AVG_YIELD_WAITS
           num_descs := 0
           adjust_num_descs := 0
           adjust_num_waits := 0 }
    thr_desc := ⟨.NOOP, 0, 0, 0, 0, 0⟩
    thr_comp := ⟨0, 0, 0⟩
    thr_bytes_completed := 0
    result := 0
    ndesc := 0
    trace := []
    enq_status := [] }

/-- States reachable after initialization with environment `env` followed by
any number of waits, each of which may run the tuner. -/
inductive Reachable (env : Env) : World → Prop
  | init (m : Mem) : Reachable env (init_dto env (World.static m))
  | wait (w : World) (waits : Nat) : Reachable env w →
      Reachable env (wait_for_completion waits w)

/-! ## The work-queue registry and probing

Probing fills the array `wqs[]`, the counter `num_wqs` and, when NUMA awareness
is on, the table `devices[]` of device groups.  The arrays are maps from
indices to values: an index at or beyond the declared length stands for the
memory behind the array, and every index at which an element of `wqs[]` or of a
group's `wqs[]` is written is recorded.  A pointer to a `struct dto_device` is
the position of the object among the allocated ones, a pointer `&wqs[i]` is the
index `i`.  `calloc` is taken to succeed.  The platform (the
accelerator-configuration library and the files under `/sys/bus/dsa/devices`) is
the environment: it answers every query the same way each time it is asked,
and `open` and `openat` fail once the process holds `fd_limit` descriptors. -/

def MAX_WQS : Nat := 32
def MAX_NUMA_NODES : Nat := 32
def EINVAL : Int := 22
def ENOTSUP : Int := 95

/-- Values of `enum numa_aware`. -/
def NA_NONE : Nat := 0
def NA_LAST_ENTRY : Nat := 3

/-- The map `f` with the value at `i` replaced by `v`. -/
def upd {α : Type} (f : Nat → α) (i : Nat) (v : α) : Nat → α :=
  fun x => if x = i then v else f x

/-- A work queue as the accelerator-configuration library presents it: whether
its state is enabled, its type user and its mode shared, its size and transfer
limit, the return value of `accfg_wq_get_user_dev_path`, and whether opening
the device file and mapping the portal succeed. -/
structure AccfgWq where
  state_enabled : Bool
  type_user : Bool
  mode_shared : Bool
  size : Nat
  max_transfer_size : Nat
  user_dev_path_rc : Int
  open_ok : Bool
  mmap_ok : Bool
  deriving DecidableEq

/-- A device as the accelerator-configuration library presents it, with its
work queues in the order of `accfg_wq_foreach`. -/
structure AccfgDevice where
  devname : List Char
  state_enabled : Bool
  id : Int
  numa_node : Nat
  gen_cap : Nat
  wqs : List AccfgWq
  deriving DecidableEq

/-- The accelerator-configuration library: the return value of `accfg_new`,
the error number of a failed `open` or `mmap`, and the devices in the order of
`accfg_device_foreach`. -/
structure Accfg where
  new_rc : Int
  errno : Int
  devices : List AccfgDevice
  deriving DecidableEq

/-- The value of a `struct accfg_wq *`: the device the work queue belongs to,
its position among the work queues of that device, and the work queue. -/
structure AccfgWqRef where
  dev_id : Int
  index : Nat
  wq : AccfgWq
  deriving DecidableEq

/-- An element of the array `wqs[]`: the fields of `struct dto_wq` that probing
writes. -/
structure wq_entry where
  acc_wq : Option AccfgWqRef
  wq_path : List Char
  dsa_gencap : Nat
  wq_size : Nat
  max_transfer_size : Nat
  deriving DecidableEq

/-- `struct dto_device`: a slot of `wqs` holds the index `i` of the element
`&wqs[i]` it points to. -/
structure dto_device where
  wqs : Nat → Option Nat
  num_wqs : Nat
  next_wq : Nat

/-- The files of `/sys/bus/dsa/devices` and `/dev/dsa` that
`dsa_init_from_wq_list` reads.  A device is given by the number in its
directory name, a work queue by its name in the list.  A numeric attribute is
`none` when `dto_get_param_ullong` reports an error, and the junk value stored
in that case is not represented; `mode` is empty when the attribute cannot be
read.  `errno` is the error number of a failed `open`. -/
structure Sysfs where
  fd_limit : Nat
  errno : Int
  dsa_dir : Int → Bool
  gen_cap : Int → Option Nat
  numa_node : Int → Option Nat
  wq_dir : List Char → Bool
  max_transfer_size : List Char → Option Nat
  mode : List Char → List Char
  size : List Char → Option Nat
  dev_open : List Char → Bool
  mmap_ok : List Char → Bool

/-- The process-wide state that probing reads and writes: `wqs[]`, `num_wqs`,
`next_wq`, `is_numa_aware`, `devices[]`, the `struct dto_device` objects
allocated so far and the pointers passed to `free`, the number of file
descriptors the process holds, and the indices at which elements of `wqs[]`
(`wqs_writes`) and of a group's `wqs[]` (`group_writes`) were written. -/
structure Registry where
  wqs : Nat → wq_entry
  num_wqs : Nat
  next_wq : Nat
  is_numa_aware : Nat
  devices : Nat → Option Nat
  heap : List dto_device
  freed : List Nat
  open_fds : Nat
  wqs_writes : List Nat
  group_writes : List Nat

/-- The registry a process starts with: the static initializers of `dto.c`. -/
def Registry.static : Registry :=
  { wqs := fun _ => ⟨none, [], 0, 0, 0⟩
    num_wqs := 0
    next_wq := 0
    is_numa_aware := NA_NONE
    devices := fun _ => none
    heap := []
    freed := []
    open_fds := 0
    wqs_writes := []
    group_writes := [] }

/-- `get_dto_device`. -/
def get_dto_device (dev_numa_node : Nat) (r : Registry) : Option Nat × Registry :=
  match r.devices dev_numa_node with
  | none =>
    let dev := r.heap.length
    (some dev, { r with heap := r.heap ++ [⟨fun _ => none, 0, 0⟩],
                        devices := upd r.devices dev_numa_node (some dev) })
  | some dev => (some dev, r)

/-- The loop of `correct_devices_list`: index `i`, `k` iterations left, `dev`
the last group seen. -/
def correct_devices_list_loop : Nat → Nat → Option Nat → (Nat → Option Nat) → (Nat → Option Nat)
  | _, 0, _, devices => devices
  | i, k + 1, dev, devices =>
    match devices i with
    | some p => correct_devices_list_loop (i + 1) k (some p) devices
    | none => correct_devices_list_loop (i + 1) k dev (upd devices i dev)

/-- `correct_devices_list`. -/
def correct_devices_list (r : Registry) : Registry :=
  { r with devices := correct_devices_list_loop 0 MAX_NUMA_NODES none r.devices }

/-- The loop of `cleanup_devices`: index `i`, `k` iterations left, `dev` the
last pointer seen. -/
def cleanup_devices_loop : Nat → Nat → Option Nat → Registry → Registry
  | _, 0, _, r => r
  | i, k + 1, dev, r =>
    let r1 := if r.devices i ≠ dev then
        match r.devices i with
        | some p => { r with freed := r.freed ++ [p] }
        | none => r
      else r
    let dev1 := if r.devices i ≠ dev then r.devices i else dev
    cleanup_devices_loop (i + 1) k dev1 { r1 with devices := upd r1.devices i none }

/-- `cleanup_devices`. -/
def cleanup_devices (r : Registry) : Registry :=
  cleanup_devices_loop 0 MAX_NUMA_NODES none r

/-- The statement `dev->wqs[dev->num_wqs++] = &wqs[num_wqs]` under its guard
`dev != NULL && dev->num_wqs < MAX_WQS`. -/
def group_add (dev : Option Nat) (r : Registry) : Registry :=
  match dev with
  | none => r
  | some p =>
    match r.heap.get? p with
    | none => r
    | some d =>
      if d.num_wqs < MAX_WQS then
        { r with
          heap := r.heap.set p
            { d with wqs := upd d.wqs d.num_wqs (some r.num_wqs),
                     num_wqs := (d.num_wqs + 1) % 256 }
          group_writes := r.group_writes ++ [d.num_wqs] }
      else r

/-! ### Full enumeration: `dsa_init_from_accfg` -/

/-- The loop `accfg_wq_foreach` of `dsa_init_from_accfg` over the work queues of
`device`, the next of which has position `k`; `used_devids` is the local array
of that name and `dev` the device group of `device`. -/
def accfg_wq_foreach (device : AccfgDevice) (dev : Option Nat) :
    Nat → List AccfgWq → Registry × (Nat → Int) → Registry × (Nat → Int)
  | _, [], s => s
  | k, wq :: rest, (r, used_devids) =>
    if wq.state_enabled = false then accfg_wq_foreach device dev (k + 1) rest (r, used_devids)
    else if wq.type_user = false then accfg_wq_foreach device dev (k + 1) rest (r, used_devids)
    else if wq.mode_shared = false then accfg_wq_foreach device dev (k + 1) rest (r, used_devids)
    else
      let r1 := { r with
        wqs := upd r.wqs r.num_wqs
          { r.wqs r.num_wqs with
            wq_size := wq.size
            max_transfer_size := wq.max_transfer_size % 2 ^ 32
            acc_wq := some ⟨device.id, k, wq⟩
            dsa_gencap := device.gen_cap }
        wqs_writes := r.wqs_writes ++ [r.num_wqs] }
      let used1 := upd used_devids r.num_wqs device.id
      let r2 := if r1.is_numa_aware ≠ 0 then group_add dev r1 else r1
      let r3 := { r2 with num_wqs := (r2.num_wqs + 1) % 256 }
      accfg_wq_foreach device dev (k + 1) rest (r3, used1)

/-- The loop `accfg_device_foreach` of `dsa_init_from_accfg`. -/
def accfg_device_foreach : List AccfgDevice → Registry × (Nat → Int) → Registry × (Nat → Int)
  | [], s => s
  | device :: rest, (r, used_devids) =>
    if device.devname.take 3 ≠ ['d', 's', 'a'] then accfg_device_foreach rest (r, used_devids)
    else if device.state_enabled = false then accfg_device_foreach rest (r, used_devids)
    else if (List.range r.num_wqs).any (fun i => decide (device.id = used_devids i)) = true then
      accfg_device_foreach rest (r, used_devids)
    else
      let p := if r.is_numa_aware ≠ 0 then get_dto_device device.numa_node r else (none, r)
      let s := accfg_wq_foreach device p.1 0 device.wqs (p.2, used_devids)
      if s.1.num_wqs = MAX_WQS then s else accfg_device_foreach rest s

/-- The loop of `dsa_init_from_accfg` that opens and maps the registered work
queues: index `i`, `k` iterations left.  Returns the error code of the first
failure; a null `acc_wq` is treated as a failure of
`accfg_wq_get_user_dev_path`. -/
def accfg_open_loop (acc : Accfg) : Nat → Nat → Registry → Option Int × Registry
  | _, 0, r => (none, r)
  | i, k + 1, r =>
    match (r.wqs i).acc_wq with
    | none => (some (-EINVAL), r)
    | some a =>
      if a.wq.user_dev_path_rc ≠ 0 then (some a.wq.user_dev_path_rc, r)
      else if a.wq.open_ok = false then (some (-acc.errno), r)
      else if a.wq.mmap_ok = false then (some (-acc.errno), r)
      else accfg_open_loop acc (i + 1) k r

/-- `dsa_init_from_accfg`; returns the return value and the final state. -/
def dsa_init_from_accfg (acc : Accfg) (r : Registry) : Int × Registry :=
  let r0 := { r with wqs := fun i => if i < MAX_WQS then { r.wqs i with acc_wq := none }
                                    else r.wqs i }
  let used_devids : Nat → Int := fun _ => -1
  if acc.new_rc < 0 then (acc.new_rc, r0)
  else
    let r1 := { r0 with num_wqs := 0 }
    let s := accfg_device_foreach acc.devices (r1, used_devids)
    let r2 := s.1
    if r2.num_wqs = 0 then (-EINVAL, r2)
    else
      match accfg_open_loop acc 0 r2.num_wqs r2 with
      | (some rc, r3) => (rc, cleanup_devices { r3 with num_wqs := 0 })
      | (none, r3) =>
        (0, if r3.is_numa_aware ≠ 0 then correct_devices_list r3 else r3)

/-! ### Explicit list: `dsa_init_from_wq_list` -/

/-- `strtok(s, ";")` on the characters `s` not yet consumed: the next token and
what follows its delimiter, or `none` when no token is left. -/
def strtok (s : List Char) : Option (List Char) × List Char :=
  let s1 := s.dropWhile (fun c => decide (c = ';'))
  if s1 = [] then (none, [])
  else (some (s1.takeWhile (fun c => decide (c ≠ ';'))),
        (s1.dropWhile (fun c => decide (c ≠ ';'))).drop 1)

/-- Value of a string of decimal digits. -/
def digits_value (ds : List Char) : Nat :=
  ds.foldl (fun v c => 10 * v + (c.toNat - 48)) 0

/-- The conversion `%d` of `sscanf`: white space, an optional sign and at least
one digit.  Returns the value and the rest of the input. -/
def scan_int (s : List Char) : Option (Int × List Char) :=
  let s1 := s.dropWhile (fun c => decide (c = ' ' ∨ (9 ≤ c.toNat ∧ c.toNat ≤ 13)))
  let neg := decide (s1.head? = some '-')
  let s2 := if s1.head? = some '-' ∨ s1.head? = some '+' then s1.drop 1 else s1
  let ds := s2.takeWhile (fun c => decide (48 ≤ c.toNat ∧ c.toNat ≤ 57))
  if ds = [] then none
  else some (if neg then -(digits_value ds : Int) else (digits_value ds : Int),
             s2.dropWhile (fun c => decide (48 ≤ c.toNat ∧ c.toNat ≤ 57)))

/-- `sscanf(wq, "wq%d.%d", &dsa_id, &wq_id)` when it returns 2. -/
def scan_wq (wq : List Char) : Option (Int × Int) :=
  match wq with
  | 'w' :: 'q' :: s =>
    match scan_int s with
    | some (dsa_id, '.' :: s2) =>
      match scan_int s2 with
      | some (wq_id, _) => some (dsa_id, wq_id)
      | none => none
    | _ => none
  | _ => none

/-- How one iteration of the loop of `dsa_init_from_wq_list` ends: at
`wq = strtok(NULL, ";")`, at the `continue`, at the `break`, or at
`goto fail_wq` with a return code. -/
inductive Step
  | next
  | again
  | stop
  | fail (rc : Int)
  deriving DecidableEq

/-- `dto_get_param_ullong`: the attribute is read through a descriptor of its
own, which is closed again. -/
def dto_get_param_ullong (sys : Sysfs) (r : Registry) (v : Option Nat) : Option Nat :=
  if r.open_fds < sys.fd_limit then v else none

/-- `dto_get_param_string`: empty when the attribute cannot be opened. -/
def dto_get_param_string (sys : Sysfs) (r : Registry) (v : List Char) : List Char :=
  if r.open_fds < sys.fd_limit then v else []

/-- The body of the loop of `dsa_init_from_wq_list` for the list entry `wq`. -/
def wq_list_entry (sys : Sysfs) (wq : List Char) (r : Registry) : Step × Registry :=
  match scan_wq wq with
  | none => (.fail (-EINVAL), r)
  | some (dsa_id, _) =>
    if ¬ (r.open_fds < sys.fd_limit ∧ sys.dsa_dir dsa_id = true) then (.fail (-sys.errno), r)
    else
      let r1 := { r with open_fds := r.open_fds + 1 }
      match dto_get_param_ullong sys r1 (sys.gen_cap dsa_id) with
      | none => (.fail (-sys.errno),
          { r1 with open_fds := r1.open_fds - 1, wqs_writes := r1.wqs_writes ++ [r1.num_wqs] })
      | some gen_cap =>
        let r2 := { r1 with
          wqs := upd r1.wqs r1.num_wqs { r1.wqs r1.num_wqs with dsa_gencap := gen_cap }
          wqs_writes := r1.wqs_writes ++ [r1.num_wqs] }
        match dto_get_param_ullong sys r2 (sys.numa_node dsa_id) with
        | none => (.fail (-sys.errno), { r2 with open_fds := r2.open_fds - 1 })
        | some dev_numa_node =>
          let r3 := { r2 with open_fds := r2.open_fds - 1 }
          if ¬ (r3.open_fds < sys.fd_limit ∧ sys.wq_dir wq = true) then (.fail (-sys.errno), r3)
          else
            let r4 := { r3 with open_fds := r3.open_fds + 1 }
            match dto_get_param_ullong sys r4 (sys.max_transfer_size wq) with
            | none => (.fail (-sys.errno),
                { r4 with open_fds := r4.open_fds - 1,
                          wqs_writes := r4.wqs_writes ++ [r4.num_wqs] })
            | some mts =>
              let r5 := { r4 with
                wqs := upd r4.wqs r4.num_wqs
                  { r4.wqs r4.num_wqs with max_transfer_size := mts % 2 ^ 32 }
                wqs_writes := r4.wqs_writes ++ [r4.num_wqs] }
              let wq_mode := dto_get_param_string sys r5 (sys.mode wq)
              if wq_mode = [] then (.fail (-ENOTSUP), { r5 with open_fds := r5.open_fds - 1 })
              else if wq_mode ≠ ['s', 'h', 'a', 'r', 'e', 'd'] then (.again, r5)
              else
                let size := dto_get_param_ullong sys r5 (sys.size wq)
                let r6 := { r5 with open_fds := r5.open_fds - 1,
                                    wqs_writes := r5.wqs_writes ++ [r5.num_wqs] }
                match size with
                | none => (.fail (-sys.errno), r6)
                | some wq_size =>
                  let r7 := { r6 with
                    wqs := upd r6.wqs r6.num_wqs
                      { r6.wqs r6.num_wqs with
                        wq_size := wq_size
                        wq_path := ['/', 'd', 'e', 'v', '/', 'd', 's', 'a', '/'] ++ wq } }
                  if ¬ (r7.open_fds < sys.fd_limit ∧ sys.dev_open wq = true) then
                    (.fail (-sys.errno), r7)
                  else if sys.mmap_ok wq = false then (.fail (-sys.errno), r7)
                  else
                    let r8 := if r7.is_numa_aware ≠ 0 then
                        let p := get_dto_device dev_numa_node r7
                        group_add p.1 p.2
                      else r7
                    let r9 := { r8 with num_wqs := (r8.num_wqs + 1) % 256 }
                    if r9.num_wqs = MAX_WQS then (.stop, r9) else (.next, r9)

/-- The `while (wq != NULL)` loop of `dsa_init_from_wq_list`: `wq` is the
current entry and `rest` what `strtok` has not consumed.  Returns the code with
which the loop went to `fail_wq`, if it did. -/
def dsa_init_from_wq_list_loop (sys : Sysfs) :
    Nat → Option (List Char) → List Char → Registry → Option (Option Int × Registry)
  | _, none, _, r => some (none, r)
  | 0, some _, _, _ => none
  | fuel + 1, some wq, rest, r =>
    match wq_list_entry sys wq r with
    | (.fail rc, r1) => some (some rc, r1)
    | (.stop, r1) => some (none, r1)
    | (.again, r1) => dsa_init_from_wq_list_loop sys fuel (some wq) rest r1
    | (.next, r1) => dsa_init_from_wq_list_loop sys fuel (strtok rest).1 (strtok rest).2 r1

/-- `dsa_init_from_wq_list`; returns the return value and the final state. -/
def dsa_init_from_wq_list (sys : Sysfs) (fuel : Nat) (wq_list : List Char) (r : Registry) :
    Option (Int × Registry) :=
  let r0 := { r with num_wqs := 0 }
  match dsa_init_from_wq_list_loop sys fuel (strtok wq_list).1 (strtok wq_list).2 r0 with
  | none => none
  | some (some rc, r1) => some (rc, cleanup_devices { r1 with num_wqs := 0 })
  | some (none, r1) =>
    if r1.num_wqs = 0 then some (-EINVAL, r1)
    else some (0, if r1.is_numa_aware ≠ 0 then correct_devices_list r1 else r1)

/-! ### `dsa_init`, `init_dto` and `child` on the registry -/

/-- What initialization reads about the platform and from the environment
variables that concern the registry. -/
structure Platform where
  numa_available : Bool
  DTO_IS_NUMA_AWARE : Option (Nat × Bool)
  DTO_WQ_LIST : Option (List Char)
  accfg : Accfg
  sysfs : Sysfs

/-- The end of `dsa_init`: the choice between the two probing routines.  The
list is copied into a buffer of 256 bytes. -/
def dsa_init_probe (p : Platform) (fuel : Nat) (r : Registry) : Option (Int × Registry) :=
  match p.DTO_WQ_LIST with
  | none => some (dsa_init_from_accfg p.accfg r)
  | some env_str => dsa_init_from_wq_list p.sysfs fuel (env_str.take 255) r

/-- What `init_dto` does to the registry when `use_std_lib_calls` is not set: it
reads `DTO_IS_NUMA_AWARE` and calls `dsa_init`.  Returns the return value of
`dsa_init`. -/
def init_dto_probe (p : Platform) (fuel : Nat) (r : Registry) : Option (Int × Registry) :=
  let r1 := if p.numa_available then
      match p.DTO_IS_NUMA_AWARE with
      | none => r
      | some (v, err) =>
        { r with is_numa_aware :=
            if err = true ∨ NA_LAST_ENTRY ≤ v % 2 ^ 32 then NA_NONE else v % 2 ^ 32 }
    else r
  dsa_init_probe p fuel r1

/-- `child`, the handler that `fork` runs in the child process, on the
registry.  The child starts with a copy of the parent's memory, so with the
parent's registry `r`; the handler clears `dto_initializing` and
`dto_initialized`, which lets `init_dto` run once more, and calls it. -/
def child (p : Platform) (fuel : Nat) (r : Registry) : Option (Int × Registry) :=
  init_dto_probe p fuel r

/-! ### Selection of a work queue: `get_wq` on the registry -/

/-- `get_wq`, the selection itself: `numa_node` is what `get_numa_node(buf)`
returns.  The result is the index `i` of the selected element `&wqs[i]`, or
`none` when `num_wqs` is zero and the remainder is undefined.  Both cursors are
`atomic_uchar`: the post-increment stores the value modulo 256. -/
def Registry.get_wq (numa_node : Int) (r : Registry) : Option Nat × Registry :=
  let s : Option Nat × Registry :=
    if r.is_numa_aware ≠ 0 then
      if 0 ≤ numa_node ∧ numa_node < (MAX_NUMA_NODES : Int) then
        match r.devices numa_node.toNat with
        | none => (none, r)
        | some p =>
          match r.heap.get? p with
          | none => (none, r)
          | some d =>
            if 0 < d.num_wqs then
              (d.wqs (d.next_wq % d.num_wqs),
                { r with heap := r.heap.set p { d with next_wq := (d.next_wq + 1) % 256 } })
            else (none, r)
      else (none, r)
    else (none, r)
  match s.1 with
  | some wq => (some wq, s.2)
  | none =>
    if s.2.num_wqs = 0 then (none, s.2)
    else (some (s.2.next_wq % s.2.num_wqs), { s.2 with next_wq := (s.2.next_wq + 1) % 256 })

/-! ## The tuner in binary64 arithmetic

`cpu_size_fraction`, `min_avg_waits`, `max_avg_waits` and the local variable
`avg_num_waits` of `dsa_wait_and_adjust` have type `double`.  The hot path above
carries the fraction as its nominal number of hundredths.  This section embeds
`dsa_wait_and_adjust` with the arithmetic of the `double`s themselves: a finite
binary64 value is represented by the rational number it denotes, and an
operation of the machine is the exact operation followed by `nearest`, the
rounding to the nearest binary64 value with ties to even.  The operands of the
tuner are counters below `2 ^ 64`, their quotient and a fraction that is only
raised while it is below `0.9`, so no operation overflows. -/

namespace Binary64

/-- The integer nearest to `q`; of two equally near integers the even one. -/
def round_half_even (q : ℚ) : ℤ :=
  if q - ⌊q⌋ < 1 / 2 then ⌊q⌋
  else if 1 / 2 < q - ⌊q⌋ then ⌊q⌋ + 1
  else if ⌊q⌋ % 2 = 0 then ⌊q⌋ else ⌊q⌋ + 1

/-- The binary64 value nearest to `x`, ties to even: the multiple of `2 ^ e`
nearest to `x`, where `e` is the exponent of the last of the 53 significant
bits of `x` and at least `-1074`, the exponent of the least subnormal value.
This is the result of an operation of the machine whose exact result is `x`,
and the value of a decimal literal `x`. -/
def nearest (x : ℚ) : ℚ :=
  if x = 0 then 0
  else round_half_even (x / 2 ^ max (Int.log 2 |x| - 52) (-1074)) *
    2 ^ max (Int.log 2 |x| - 52) (-1074)

/-- The `double` constants among the auto tune heuristics magic numbers. -/
def MIN_AVG_YIELD_WAITS : ℚ := nearest 1
def MAX_AVG_YIELD_WAITS : ℚ := nearest 2
def MIN_AVG_POLL_WAITS : ℚ := nearest 5
def MAX_AVG_POLL_WAITS : ℚ := nearest 20
def MAX_CPU_SIZE_FRACTION : ℚ := nearest (9 / 10)
def CSF_STEP_INCREMENT : ℚ := nearest (1 / 100)
def CSF_STEP_DECREMENT : ℚ := nearest (1 / 100)

/-- The variables that `dsa_wait_and_adjust` reads and writes: the two knobs,
the bounds on the average and the three 64-bit counters. -/
structure Knobs where
  dsa_min_size : Nat
  cpu_size_fraction : ℚ
  min_avg_waits : ℚ
  max_avg_waits : ℚ
  num_descs : Nat
  adjust_num_descs : Nat
  adjust_num_waits : Nat
  deriving DecidableEq

/-- `dsa_wait_and_adjust`, the part that touches the tuning state; `waits` is
the number of times the completion byte was found to be zero.  The counters are
converted to `double` and divided, the quotient is compared with the bounds,
and the fraction is compared with, raised by and lowered by `double`
constants. -/
def dsa_wait_and_adjust (waits : Nat) (g : Knobs) : Knobs :=
  let g1 := { g with num_descs := (g.num_descs + 1) % 2 ^ 64 }
  if g1.num_descs &&& DESCS_PER_RUN ≠ DESCS_PER_RUN then g1
  else
    let g2 := { g1 with
      adjust_num_descs := (g1.adjust_num_descs + 1) % 2 ^ 64
      adjust_num_waits := (g1.adjust_num_waits + waits) % 2 ^ 64 }
    if NUM_DESCS ≤ g2.adjust_num_descs then
      let temp : Nat := g2.adjust_num_descs
      if temp ≠ 0 then
        let avg_num_waits : ℚ :=
          nearest (nearest (g2.adjust_num_waits : ℚ) / nearest (temp : ℚ))
        let g3 := { g2 with adjust_num_descs := 0, adjust_num_waits := 0 }
        if g3.max_avg_waits < avg_num_waits then
          if g3.cpu_size_fraction < MAX_CPU_SIZE_FRACTION then
            { g3 with cpu_size_fraction := nearest (g3.cpu_size_fraction + CSF_STEP_INCREMENT) }
          else if g3.dsa_min_size < MAX_DSA_MIN_SIZE then
            { g3 with dsa_min_size := g3.dsa_min_size + DMS_STEP_INCREMENT }
          else g3
        else if avg_num_waits < g3.min_avg_waits then
          if CSF_STEP_DECREMENT ≤ g3.cpu_size_fraction then
            { g3 with cpu_size_fraction := nearest (g3.cpu_size_fraction - CSF_STEP_DECREMENT) }
          else if MIN_DSA_MIN_SIZE < g3.dsa_min_size then
            { g3 with dsa_min_size := g3.dsa_min_size - DMS_STEP_DECREMENT }
          else g3
        else g3
      else g2
    else g2

/-- The value of the local variable `avg_num_waits` when the tuner fires on a
descriptor that had `waits` waits in state `g`. -/
def avg_num_waits (waits : Nat) (g : Knobs) : ℚ :=
  nearest (nearest (((g.adjust_num_waits + waits) % 2 ^ 64 : Nat) : ℚ) /
    nearest (((g.adjust_num_descs + 1) % 2 ^ 64 : Nat) : ℚ))

/-- The tuning state of a process with the default waiting method in which the
fraction is `fraction`, `num_descs` descriptors have been counted and the
accumulators hold `descs` sampled descriptors with `waits` waits. -/
def knobs_at (fraction : ℚ) (num_descs descs waits : Nat) : Knobs :=
  { dsa_min_size := DTO_DEFAULT_MIN_SIZE
    cpu_size_fraction := fraction
    min_avg_waits := MIN_AVG_YIELD_WAITS
    max_avg_waits := MAX_AVG_YIELD_WAITS
    num_descs := num_descs
    adjust_num_descs := descs
    adjust_num_waits := waits }

end Binary64

/-! ## Auxiliary definitions used in the statements and proofs -/

/-- Events logged by the `enqcmd` attempts of one submission. -/
def enq_events (h : Hw) (d : Desc) : Nat → Nat → List Event
  | _, 0 => []
  | r, k + 1 =>
    Event.enqcmd d (h.retry r) :: (if h.retry r = false then [] else enq_events h d (r + 1) k)

/-- Number of `enqcmd` attempts of one submission. -/
def enq_count (h : Hw) : Nat → Nat → Nat
  | _, 0 => 0
  | r, k + 1 => if h.retry r = false then 1 else enq_count h (r + 1) k + 1

/-- Return code of a submission. -/
def enq_result (h : Hw) : Nat → Nat → Nat
  | _, 0 => RETRIES
  | r, k + 1 => if h.retry r = false then SUCCESS else enq_result h (r + 1) k

/-- Return code of the waiter for the status the device reports. -/
def wait_result (h : Hw) : Nat :=
  if h.status = DSA_COMP_SUCCESS then SUCCESS
  else if h.status &&& DSA_COMP_STATUS_MASK = DSA_COMP_PAGE_FAULT_NOBOF then PAGE_FAULT
  else FAIL_OTHERS

/-- Bytes the waiter adds to `thr_bytes_completed`. -/
def wait_credit (h : Hw) (d : Desc) (m : Mem) : Nat :=
  if h.status = DSA_COMP_SUCCESS then d.xfer_size
  else if h.status &&& DSA_COMP_STATUS_MASK = DSA_COMP_PAGE_FAULT_NOBOF then
    (deviceComp h d m).bytes_completed
  else 0

/-- The tuning state after a wait. -/
def tune (waits : Nat) (g : Knobs) : Knobs :=
  if g.auto_adjust_knobs ≠ 0 then dsa_wait_and_adjust waits g else g

/-- The `p` bytes from `s` all hold `b`. -/
def Filled (m : Mem) (s p b : Nat) : Prop := ∀ x, s ≤ x → x < s + p → m x = b

/-- Memories `m` and `m0` agree outside `[s, s + n)`. -/
def SameOutside (m m0 : Mem) (s n : Nat) : Prop := ∀ x, ¬ (s ≤ x ∧ x < s + n) → m x = m0 x

/-- Invariant of `dto_memset`: with `p` bytes accounted for, these bytes are
filled and nothing outside the target range has changed. -/
def FillInv (s N b : Nat) (m0 m : Mem) (p : Nat) : Prop :=
  p ≤ N ∧ Filled m s p b ∧ SameOutside m m0 s N

/-- Number of bytes the device has processed when the wait returns, for a
descriptor of `x` bytes. -/
def dev_len (h : Hw) (x : Nat) : Nat :=
  if h.status = DSA_COMP_SUCCESS then x else min h.bytes_completed x

/-- Number of bytes the waiter credits for a fill or move descriptor of `x`
bytes. -/
def credit (h : Hw) (x : Nat) : Nat :=
  if h.status = DSA_COMP_SUCCESS then x
  else if h.status &&& DSA_COMP_STATUS_MASK = DSA_COMP_PAGE_FAULT_NOBOF then min h.bytes_completed x
  else 0

/-- State after the sequence shared by all code sites of the splitter: clear the
status byte, submit descriptor `d`, run the CPU share of `cpu` bytes (which
leaves memory `m1` and logs `ev`), wait. -/
def chunk_result (h : Hw) (w : World) (d : Desc) (cpu : Nat) (m1 : Mem) (ev : List Event) :
    World :=
  if enq_result h 0 ENQCMD_MAX_RETRIES = SUCCESS then
    { w with
      mem := deviceMem h d m1
      thr_desc := d
      thr_comp := deviceComp h d m1
      g := tune h.waits w.g
      thr_bytes_completed := w.thr_bytes_completed + cpu + wait_credit h d m1
      result := wait_result h
      ndesc := w.ndesc + 1
      trace := w.trace ++ enq_events h d 0 ENQCMD_MAX_RETRIES ++ ev ++
        [Event.completed d (wait_credit h d m1) (deviceComp h d m1).result]
      enq_status := w.enq_status ++ List.replicate (enq_count h 0 ENQCMD_MAX_RETRIES) 0 }
  else
    { w with
      thr_desc := d
      thr_comp := { w.thr_comp with status := 0 }
      result := RETRIES
      ndesc := w.ndesc + 1
      trace := w.trace ++ enq_events h d 0 ENQCMD_MAX_RETRIES
      enq_status := w.enq_status ++ List.replicate (enq_count h 0 ENQCMD_MAX_RETRIES) 0 }

/-- Events logged by the CPU share of a copy or move chunk. -/
def copy_events (is_memcpy : Bool) (dest src cpu : Nat) : List Event :=
  if cpu ≠ 0 then
    [if is_memcpy then Event.orig_memcpy dest src cpu else Event.orig_memmove dest src cpu]
  else []

/-- The CPU share of a chunk of `len` bytes in `dto_memcpymove`. -/
def copy_cpu_size (is_memcpy : Bool) (dest src len f : Nat) : Nat :=
  if (!is_memcpy && is_overlapping_buffers dest src len) = true then 0 else len * f / 100

/-- State in which `dto_memset` starts its first descriptor. -/
def memset_start (s : Nat) (c : Int) (w : World) : World :=
  { w with
    thr_desc := { w.thr_desc with opcode := .MEMFILL, pattern := byteOf c }
    thr_bytes_completed := 0
    trace := w.trace ++ [Event.get_wq s] }

/-- State in which `dto_memcpymove` starts its first descriptor. -/
def copy_start (dest : Nat) (w : World) : World :=
  { w with
    thr_desc := { w.thr_desc with opcode := .MEMMOVE }
    thr_bytes_completed := 0
    trace := w.trace ++ [Event.get_wq dest] }

/-- The length of the chunk the splitter takes from `n` remaining bytes. -/
def chunk_len (n threshold : Nat) : Nat := if n ≤ threshold then n else threshold

/-- The largest value of `ssize_t`. -/
def SSIZE_MAX : Nat := 2 ^ 63 - 1

/-- Memory in which the bytes with index `j` and above, up to `n`, have been
moved from `s` to `d`. -/
def move_tail (m : Mem) (d s j n : Nat) : Mem :=
  fun x => if d + j ≤ x ∧ x < d + n then m (s + (x - d)) else m x

/-- An accelerator that accepts every descriptor at once and completes it
successfully. -/
def hw_success : Nat → Hw :=
  fun _ => { retry := fun _ => false, waits := 0, status := DSA_COMP_SUCCESS,
             bytes_completed := 0, result := 0 }

/-- An accelerator whose first descriptor stops at a page fault after `k` bytes
and whose later descriptors succeed. -/
def hw_page_fault (k : Nat) : Nat → Hw :=
  fun i => { retry := fun _ => false, waits := 0,
             status := if i = 0 then DSA_COMP_PAGE_FAULT_NOBOF else DSA_COMP_SUCCESS,
             bytes_completed := k, result := 0 }

/-- An environment in which no variable is set and probing succeeds. -/
def env_default : Env :=
  { DTO_USESTDC_CALLS := none, DTO_MIN_BYTES := none, DTO_CPU_SIZE_FRACTION := none,
    DTO_AUTO_ADJUST_KNOBS := none, DTO_WAIT_METHOD := none, umwait_support := false,
    pthread_atfork_ok := true, probe_ok := true }

/-- The state after initialization with the default configuration, with
memory `m`. -/
def world_default (m : Mem) : World := init_dto env_default (World.static m)

/-- Final state of a run, or the initial state if the run did not return. -/
def final_world {α : Type} (r : Option (α × World)) (w : World) : World :=
  match r with
  | some p => p.2
  | none => w

/-- Invariant of a copy between ranges that do not overlap: with `p` bytes
accounted for, the first `p` destination bytes hold what the source held at
the start and nothing outside the destination range has changed. -/
def CopyInv (dest src N : Nat) (m0 m : Mem) (p : Nat) : Prop :=
  p ≤ N ∧ (∀ i, i < p → m (dest + i) = m0 (src + i)) ∧ SameOutside m m0 dest N

/-- The device reports every partial move as done from the start of the
buffers. -/
def ForwardDevice (hw : Nat → Hw) : Prop := ∀ i, (hw i).result = 0

/-- What the copy splitter maintains between chunks on ranges that do not
overlap. -/
def CopyState (dest src N : Nat) (m0 : Mem) (w : World) : Prop :=
  w.thr_desc.opcode = .MEMMOVE ∧ w.g.cpu_size_fraction ≤ 100 ∧
  CopyInv dest src N m0 w.mem w.thr_bytes_completed ∧
  (w.thr_bytes_completed = 0 ∨ w.thr_comp.result = 0)

/-- What a call leaves in place of the state `w0` it started from: the gating
flags, a fraction below one and a positive minimum offload size. -/
def Stable (w0 w : World) : Prop :=
  w.dto_initialized = w0.dto_initialized ∧ w.use_std_lib_calls = w0.use_std_lib_calls ∧
  (w0.g.cpu_size_fraction < 100 → w.g.cpu_size_fraction < 100) ∧
  (1 ≤ w0.g.dsa_min_size → 1 ≤ w.g.dsa_min_size)

/-- Descriptor of a compare chunk of `len` bytes. -/
def compare_desc (s1 s2 len : Nat) (w : World) : Desc :=
  ⟨w.thr_desc.opcode, s1 + w.thr_bytes_completed, s2 + w.thr_bytes_completed,
    w.thr_desc.dst_addr, len % 2 ^ 32, w.thr_desc.pattern⟩

/-- State after one iteration of the loop of `dto_memcmp` with `n` bytes left. -/
def dto_memcmp_chunk (h : Hw) (wq : dto_wq) (s1 s2 n : Nat) (w : World) : World :=
  chunk_result h w (compare_desc s1 s2 (chunk_len n wq.max_transfer_size) w) 0 w.mem []

/-- The `n`-byte ranges at `s1` and `s2` hold the same bytes. -/
def EqualRanges (m : Mem) (s1 s2 n : Nat) : Prop := ∀ i, i < n → m (s1 + i) = m (s2 + i)

/-- State in which `dto_memcmp` starts its first descriptor. -/
def compare_start (s2 : Nat) (w : World) : World :=
  { w with
    thr_desc := { w.thr_desc with opcode := .COMPARE }
    thr_comp := { w.thr_comp with result := 0 }
    thr_bytes_completed := 0
    trace := w.trace ++ [Event.get_wq s2] }

/-- What `dto_memcmp` maintains between chunks when the ranges are equal. -/
def CompareState (m0 : Mem) (N : Nat) (w : World) : Prop :=
  w.thr_desc.opcode = .COMPARE ∧ w.mem = m0 ∧ w.thr_bytes_completed ≤ N ∧ w.thr_comp.result = 0

/-- The range the specification gives for the two knobs. -/
@[reducible] def KnobsInRange (g : Knobs) : Prop :=
  g.cpu_size_fraction ≤ MAX_CPU_SIZE_FRACTION ∧ MIN_DSA_MIN_SIZE ≤ g.dsa_min_size ∧
  g.dsa_min_size ≤ MAX_DSA_MIN_SIZE

/-- The minimum offload size is a whole number of tuner steps. -/
@[reducible] def OnGrid (g : Knobs) : Prop := g.dsa_min_size % DMS_STEP_INCREMENT = 0

/-- An environment that sets only `DTO_CPU_SIZE_FRACTION`, to `num / den`. -/
def env_fraction (num : Int) (den : Nat) : Env :=
  { env_default with DTO_CPU_SIZE_FRACTION := some (⟨num, den⟩, false) }

/-- An environment that sets only `DTO_MIN_BYTES`. -/
def env_min_bytes (v : Nat) : Env :=
  { env_default with DTO_MIN_BYTES := some (v, false) }

/-- The state after `k` waits that each found the completion record written at
the first look. -/
def after_waits (k : Nat) (w : World) : World := (wait_for_completion 0)^[k] w

/-- The region an action retires: a call of an original fill, copy or move
routine retires its destination range; a completion retires the bytes it
credits where the device has processed them, at the start of the descriptor's
destination range or, when the result byte of the completion record is not
zero (a move that the device ran from the end), at the end of that range. -/
def Event.region : Event → Option (Nat × Nat)
  | .orig_memset s _ n => some (s, n)
  | .orig_memcpy d _ n => some (d, n)
  | .orig_memmove d _ n => some (d, n)
  | .completed d cr res =>
    some (if res = 0 then d.dst_addr else d.dst_addr + (d.xfer_size - cr), cr)
  | _ => none

/-- Number of bytes an action hands to a CPU routine. -/
def Event.cpu_len : Event → Nat
  | .orig_memset _ _ n => n
  | .orig_memcpy _ _ n => n
  | .orig_memmove _ _ n => n
  | _ => 0

/-- Number of bytes the waiter credits at an action. -/
def Event.credited : Event → Nat
  | .completed _ cr _ => cr
  | _ => 0

/-- The regions retired by a trace, in order. -/
def retired (t : List Event) : List (Nat × Nat) := t.filterMap Event.region

/-- Total number of bytes handed to CPU routines in a trace. -/
def cpu_bytes (t : List Event) : Nat := (t.map Event.cpu_len).sum

/-- Total number of bytes credited by the waiter in a trace. -/
def credited_bytes (t : List Event) : Nat := (t.map Event.credited).sum

/-- The regions, taken in order, tile `[a, b)`: each starts where the previous
one ended. -/
def tiles : Nat → List (Nat × Nat) → Nat → Prop
  | a, [], b => a = b
  | a, r :: rs, b => r.1 = a ∧ tiles (a + r.2) rs b

/-- Accounting invariant of the splitter for the actions `t` of the current
call: they tile the first `p` bytes from `base` and `p` is the number of bytes
handed to CPU routines plus the number credited by the waiter. -/
def Accounted (base : Nat) (t : List Event) (p : Nat) : Prop :=
  tiles base (retired t) (base + p) ∧ p = cpu_bytes t + credited_bytes t

/-- The actions `ev` are those of a CPU share of `cpu` bytes at `a`. -/
def CpuShare (ev : List Event) (a cpu : Nat) : Prop :=
  retired ev = (if cpu ≠ 0 then [(a, cpu)] else []) ∧ cpu_bytes ev = cpu ∧ credited_bytes ev = 0

/-- A call of one of the three entry points that write memory. -/
inductive Call
  | memset (s : Nat) (c : Int) (n : Nat)
  | memcpy (dest src n : Nat)
  | memmove (dest src n : Nat)

/-- The destination of a call. -/
def Call.base : Call → Nat
  | .memset s _ _ => s
  | .memcpy d _ _ => d
  | .memmove d _ _ => d

/-- The byte count of a call. -/
def Call.size : Call → Nat
  | .memset _ _ n => n
  | .memcpy _ _ n => n
  | .memmove _ _ n => n

/-- The entry point a call runs. -/
def Call.run (hw : Nat → Hw) (wq : dto_wq) (fuel : Nat) : Call → World → Option (Nat × World)
  | .memset s c n, w => DTO.memset hw wq fuel s c n w
  | .memcpy d s n, w => DTO.memcpy hw wq fuel d s n w
  | .memmove d s n, w => DTO.memmove hw wq fuel d s n w

/-- The splitter a call runs on the accelerator path. -/
def Call.splitter (hw : Nat → Hw) (wq : dto_wq) (fuel : Nat) : Call → World → Option World
  | .memset s c n, w => dto_memset hw wq fuel s c n { w with result := 0 }
  | .memcpy d s n, w => dto_memcpymove hw wq fuel d s n true { w with result := 0 }
  | .memmove d s n, w => dto_memcpymove hw wq fuel d s n false { w with result := 0 }

/-- The call of the original routine with which the entry point finishes the
request after the splitter has returned state `w1`.  `memcpy` and `memmove`
continue at `base + thr_bytes_completed` when the result byte of the completion
record is zero and at `base` otherwise. -/
def Call.tail : Call → World → List Event
  | .memset s c n, w1 =>
    if w1.thr_bytes_completed ≠ n then
      [Event.orig_memset (s + w1.thr_bytes_completed) c (n - w1.thr_bytes_completed)]
    else []
  | .memcpy d s n, w1 =>
    if w1.thr_bytes_completed ≠ n then
      (if w1.thr_comp.result = 0 then
        [Event.orig_memcpy (d + w1.thr_bytes_completed) (s + w1.thr_bytes_completed)
          (n - w1.thr_bytes_completed)]
      else [Event.orig_memcpy d s (n - w1.thr_bytes_completed)])
    else []
  | .memmove d s n, w1 =>
    if w1.thr_bytes_completed ≠ n then
      (if w1.thr_comp.result = 0 then
        [Event.orig_memmove (d + w1.thr_bytes_completed) (s + w1.thr_bytes_completed)
          (n - w1.thr_bytes_completed)]
      else [Event.orig_memmove d s (n - w1.thr_bytes_completed)])
    else []

/-- Whether the entry point continues at `base + thr_bytes_completed` after the
splitter has returned state `w1`: `memset` always does, `memcpy` and `memmove`
do when the test `thr_comp.result == 0` succeeds. -/
def Call.forward : Call → World → Prop
  | .memset _ _ _, _ => True
  | .memcpy _ _ _, w1 => w1.thr_comp.result = 0
  | .memmove _ _ _, w1 => w1.thr_comp.result = 0

/-- What the splitter maintains between chunks about the actions of the
current call, which follow the earlier actions `t0`. -/
def AccState (base N : Nat) (t0 : List Event) (w : World) : Prop :=
  w.thr_bytes_completed ≤ N ∧ w.g.cpu_size_fraction ≤ 100 ∧
  ∃ t, w.trace = t0 ++ t ∧ Accounted base t w.thr_bytes_completed

/-- What the splitter has established about the actions of the current call,
which follow the earlier actions `t0`, when it returns: the byte count is the
number of bytes handed to CPU routines plus the number credited by the waiter,
and the regions tile the accounted bytes when the result byte of the completion
record is zero. -/
def AccPost (base N : Nat) (t0 : List Event) (w : World) : Prop :=
  w.thr_bytes_completed ≤ N ∧ w.g.cpu_size_fraction ≤ 100 ∧
  ∃ t, w.trace = t0 ++ t ∧ w.thr_bytes_completed = cpu_bytes t + credited_bytes t ∧
    (w.thr_comp.result = 0 → tiles base (retired t) (base + w.thr_bytes_completed))

/-- An accelerator whose first descriptor stops at a page fault after `k` bytes
moved from the end of the buffers. -/
def hw_backward_fault (k : Nat) : Nat → Hw :=
  fun _ => { retry := fun _ => false, waits := 0, status := DSA_COMP_PAGE_FAULT_NOBOF,
             bytes_completed := k, result := 1 }

/-- Transfer sizes of the descriptors handed to `enqcmd`, in order. -/
def submitted_sizes (t : List Event) : List Nat :=
  t.filterMap (fun e => match e with
    | .enqcmd d _ => some d.xfer_size
    | _ => none)

/-- Memory whose byte at address `x` is `x mod 256`. -/
def mem_ramp : Mem := fun x => x % 256

/-- Memory that is zero except for the byte at address `a`. -/
def mem_spike (a : Nat) : Mem := fun x => if x = a then 7 else 0

/-- An action that is not a CPU move, or a CPU move whose source and
destination ranges lie apart in the sense `is_overlapping_buffers` tests. -/
def Event.apart : Event → Prop
  | .orig_memmove d s k => d + k < s ∨ s + k < d
  | _ => True

/-- Whether a descriptor of the thread is in flight after the actions `t`, when
`b` tells whether one was in flight before them: an accepted `enqcmd` puts the
descriptor in flight and the return of the wait, which logs `completed`, ends
the flight.  The value is `none` once `enqcmd` has been attempted while a
descriptor was in flight. -/
def in_flight : Bool → List Event → Option Bool
  | b, [] => some b
  | b, .enqcmd _ retry :: t => if b then none else in_flight (!retry) t
  | _, .completed _ _ _ :: t => in_flight false t
  | b, .get_wq _ :: t => in_flight b t
  | b, .orig_memset _ _ _ :: t => in_flight b t
  | b, .orig_memcpy _ _ _ :: t => in_flight b t
  | b, .orig_memmove _ _ _ :: t => in_flight b t
  | b, .orig_memcmp _ _ _ :: t => in_flight b t

/-- What the splitters maintain about the actions since a state with trace `t0`
and status record `e0`: no `enqcmd` was attempted while a descriptor was in
flight, none is in flight now, and each attempt found the status byte zero. -/
def Serial (t0 : List Event) (e0 : List Nat) (w : World) : Prop :=
  ∃ t z, w.trace = t0 ++ t ∧ in_flight false t = some false ∧
    w.enq_status = e0 ++ z ∧ (∀ x ∈ z, x = 0) ∧ z.length = (submitted_sizes t).length

/-- An accelerator that accepts every descriptor at the second attempt and
completes it successfully. -/
def hw_second_try : Nat → Hw :=
  fun _ => { retry := fun r => decide (r = 0), waits := 0, status := DSA_COMP_SUCCESS,
             bytes_completed := 0, result := 0 }

/-- The number `⌈n / M⌉` of pieces of at most `M` bytes that `n` bytes make. -/
def ceil_div (n M : Nat) : Nat := (n + M - 1) / M

/-- Memory that holds zero everywhere. -/
def mem_zero : Mem := fun _ => 0

/-- What a trace shows of the chunks of a call: the transfer sizes of the
descriptors, the lengths handed to CPU routines and the regions retired, each
in order. -/
def chunk_view (t : List Event) : List Nat × List Nat × List (Nat × Nat) :=
  (submitted_sizes t, (t.map Event.cpu_len).filter (fun k => decide (k ≠ 0)), retired t)

/-- What the splitter leaves behind for a request of one byte more than the
transfer limit `M` when its descriptors succeed: one descriptor was used, its
actions `t` contain one `enqcmd`, at most one byte is left and the result byte
of the completion record is zero. -/
def OneDescriptor (M : Nat) (w w1 : World) : Prop :=
  w1.ndesc = w.ndesc + 1 ∧ w1.result = SUCCESS ∧ w1.thr_comp.result = 0 ∧
  M ≤ w1.thr_bytes_completed ∧ w1.thr_bytes_completed ≤ M + 1 ∧
  ∃ t, w1.trace = w.trace ++ t ∧ (submitted_sizes t).length = 1

/-- The entry of the nearest populated slot at or below index `i` of a device
table, `none` when no slot up to `i` is populated. -/
def last_populated (devices : Nat → Option Nat) : Nat → Option Nat
  | 0 => devices 0
  | i + 1 =>
    match devices (i + 1) with
    | some p => some p
    | none => last_populated devices i

/-- Number of work queues of the group a slot of the device table refers to. -/
def slot_num_wqs (r : Registry) (i : Nat) : Option Nat :=
  match r.devices i with
  | none => none
  | some p => (r.heap.get? p).map (fun d => d.num_wqs)

/-- A work queue that is enabled, of user type and shared. -/
def wq_usable : AccfgWq :=
  { state_enabled := true, type_user := true, mode_shared := true, size := 16,
    max_transfer_size := 131072, user_dev_path_rc := 0, open_ok := true, mmap_ok := true }

/-- A platform with device `dsa0` on NUMA node 1, which has one usable work
queue, and device `dsa2` on node 4, whose only work queue is dedicated. -/
def accfg_sparse : Accfg :=
  { new_rc := 0, errno := 24,
    devices :=
      [⟨['d', 's', 'a', '0'], true, 0, 1, 0, [wq_usable]⟩,
       ⟨['d', 's', 'a', '2'], true, 2, 4, 0, [{ wq_usable with mode_shared := false }]⟩] }

/-- A device table, before the forward fill, in which slot 1 refers to a group
with one work queue and slot 4 to a group with none. -/
def registry_sparse : Registry :=
  { Registry.static with
    is_numa_aware := 1
    num_wqs := 1
    devices := fun i => if i = 1 then some 0 else if i = 4 then some 1 else none
    heap := [⟨upd (fun _ => none) 0 (some 0), 1, 0⟩, ⟨fun _ => none, 0, 0⟩] }

/-- The device paths of the registered work queues, in the order of `wqs[]`. -/
def registered_paths (r : Registry) : List (List Char) :=
  (List.range r.num_wqs).map (fun i => (r.wqs i).wq_path)

/-- The files of a device `dsa0` whose work queue `wq0.0` is dedicated and whose
other work queues are shared; every file can be read, and `open` fails with
`EMFILE` once the process holds `limit` descriptors. -/
def sysfs_dedicated_first (limit : Nat) : Sysfs :=
  { fd_limit := limit
    errno := 24
    dsa_dir := fun _ => true
    gen_cap := fun _ => some 0
    numa_node := fun _ => some 0
    wq_dir := fun _ => true
    max_transfer_size := fun _ => some 131072
    mode := fun wq =>
      if wq = ['w', 'q', '0', '.', '0'] then ['d', 'e', 'd', 'i', 'c', 'a', 't', 'e', 'd']
      else ['s', 'h', 'a', 'r', 'e', 'd']
    size := fun _ => some 16
    dev_open := fun _ => true
    mmap_ok := fun _ => true }

/-- The value `wq0.0;wq0.1` of `DTO_WQ_LIST`. -/
def wq_list_two : List Char := ['w', 'q', '0', '.', '0', ';', 'w', 'q', '0', '.', '1']

/-- An enabled device `dsa<id>` on NUMA node 0 with eight work queues, seven
usable ones and a dedicated one. -/
def device_seven (id : Nat) : AccfgDevice :=
  { devname := ['d', 's', 'a', Char.ofNat (48 + id)]
    state_enabled := true
    id := id
    numa_node := 0
    gen_cap := 0
    wqs := List.replicate 7 wq_usable ++ [{ wq_usable with mode_shared := false }] }

/-- A platform with five such devices. -/
def accfg_five : Accfg :=
  { new_rc := 0, errno := 24,
    devices := [device_seven 0, device_seven 1, device_seven 2, device_seven 3, device_seven 4] }

/-- A platform with one device, `dsa0` on NUMA node 0, that has one usable work
queue, probed by full enumeration with `DTO_IS_NUMA_AWARE=1`. -/
def platform_one : Platform :=
  { numa_available := true
    DTO_IS_NUMA_AWARE := some (1, false)
    DTO_WQ_LIST := none
    accfg := { new_rc := 0, errno := 24,
               devices := [⟨['d', 's', 'a', '0'], true, 0, 0, 0, [wq_usable]⟩] }
    sysfs := sysfs_dedicated_first 1024 }

/-- The device groups the table `devices[]` refers to, each once. -/
def distinct_groups (r : Registry) : List Nat :=
  ((List.range MAX_NUMA_NODES).filterMap r.devices).foldl
    (fun l p => if p ∈ l then l else l ++ [p]) []

/-- The slots in use of the group at `p`: the first `num_wqs` elements of its
`wqs[]`. -/
def group_slots (r : Registry) (p : Nat) : List (Option Nat) :=
  match r.heap.get? p with
  | none => []
  | some d => (List.range d.num_wqs).map d.wqs

/-- The sum of `num_wqs` over the distinct device groups. -/
def group_total (r : Registry) : Nat :=
  ((distinct_groups r).map (fun p => (group_slots r p).length)).sum

/-- The state after `init_dto` has run in a fresh process and, with `forks`
set, `child` has run in a process forked from it. -/
def registry_after (p : Platform) (fuel : Nat) (forks : Bool) : Option (Int × Registry) :=
  match init_dto_probe p fuel Registry.static with
  | none => none
  | some (rc, r) => if forks then child p fuel r else some (rc, r)

/-- The registry after `k` calls of `get_wq` in one thread, the `i`-th of them
for a buffer on NUMA node `numa i`. -/
def after_get_wq (numa : Nat → Int) : Nat → Registry → Registry
  | 0, r => r
  | k + 1, r => (Registry.get_wq (numa k) (after_get_wq numa k r)).2

/-- What the call number `k` (counted from 0) of `get_wq` returns. -/
def nth_get_wq (numa : Nat → Int) (k : Nat) (r : Registry) : Option Nat :=
  (Registry.get_wq (numa k) (after_get_wq numa k r)).1

/-- A registry with `n` registered work queues, NUMA awareness off and the
cursor at its initial value. -/
def registry_flat (n : Nat) : Registry := { Registry.static with num_wqs := n }

/-- The device identifiers of the registered work queues, in the order of
`wqs[]`. -/
def registered_devices (r : Registry) : List (Option Int) :=
  (List.range r.num_wqs).map (fun i => ((r.wqs i).acc_wq).map (fun a => a.dev_id))

/-- Whether every registered work queue is enabled, of user type and shared. -/
def registered_usable (r : Registry) : Bool :=
  (List.range r.num_wqs).all (fun i =>
    match (r.wqs i).acc_wq with
    | none => false
    | some a => a.wq.state_enabled && a.wq.type_user && a.wq.mode_shared)

/-- Whether the descriptor that brings the global counter `num_descs` to the
value `c` is sampled by the tuner: the test `(++num_descs & DESCS_PER_RUN) !=
DESCS_PER_RUN` of `dsa_wait_and_adjust` fails. -/
def sampled (c : Nat) : Bool := decide (c &&& DESCS_PER_RUN = DESCS_PER_RUN)

/-- The tuning state of a fresh process in which `num_descs` descriptors have
been counted and the accumulators hold `descs` sampled descriptors with
`waits` waits. -/
def knobs_at (num_descs descs waits : Nat) : Knobs :=
  { (World.static id).g with
    num_descs := num_descs, adjust_num_descs := descs, adjust_num_waits := waits }

/-! ## Submitter and waiter in closed form -/

theorem dsa_submit_loop_eq (h : Hw) : ∀ (k r : Nat) (w : World),
    dsa_submit_loop h r k w =
      { w with result := enq_result h r k, trace := w.trace ++ enq_events h w.thr_desc r k,
               enq_status := w.enq_status ++ List.replicate (enq_count h r k) w.thr_comp.status } := by
  intro k
  induction k with
  | zero => intro r w; simp [dsa_submit_loop, enq_result, enq_events, enq_count]
  | succ k ih =>
    intro r w
    by_cases hr : h.retry r = false
    · simp [dsa_submit_loop, enq_result, enq_events, enq_count, hr, World.log, World.enq]
    · simp [dsa_submit_loop, enq_result, enq_events, enq_count, hr, World.log, World.enq, ih,
        List.replicate_succ]

theorem dsa_submit_eq (h : Hw) (w : World) :
    dsa_submit h w =
      { w with result := enq_result h 0 ENQCMD_MAX_RETRIES,
               trace := w.trace ++ enq_events h w.thr_desc 0 ENQCMD_MAX_RETRIES,
               enq_status := w.enq_status ++
                 List.replicate (enq_count h 0 ENQCMD_MAX_RETRIES) w.thr_comp.status } :=
  dsa_submit_loop_eq h _ _ w

theorem enq_result_cases (h : Hw) : ∀ (k r : Nat),
    enq_result h r k = SUCCESS ∨ enq_result h r k = RETRIES := by
  intro k
  induction k with
  | zero => intro r; right; rfl
  | succ k ih =>
    intro r
    by_cases hr : h.retry r = false
    · left; simp [enq_result, hr]
    · simp only [enq_result, hr]; exact ih (r + 1)

theorem deviceComp_status (h : Hw) (d : Desc) (m : Mem) : (deviceComp h d m).status = h.status := by
  unfold deviceComp
  cases d.opcode <;> simp only []
  split
  · split <;> rfl
  · rfl

theorem wait_for_completion_g (waits : Nat) (w : World) :
    (wait_for_completion waits w).g = tune waits w.g := by
  unfold wait_for_completion tune
  split_ifs <;> rfl

theorem wait_and_classify_eq (h : Hw) (w : World) :
    wait_and_classify h w =
      { w with mem := deviceMem h w.thr_desc w.mem
               thr_comp := deviceComp h w.thr_desc w.mem
               g := tune h.waits w.g
               thr_bytes_completed := w.thr_bytes_completed + wait_credit h w.thr_desc w.mem
               result := wait_result h
               trace := w.trace ++ [Event.completed w.thr_desc (wait_credit h w.thr_desc w.mem)
                 (deviceComp h w.thr_desc w.mem).result] } := by
  unfold wait_and_classify wait_result wait_credit wait_for_completion tune
  simp only [deviceComp_status]
  by_cases ha : w.g.auto_adjust_knobs = 0 <;> by_cases h1 : h.status = DSA_COMP_SUCCESS <;>
    by_cases h2 : h.status &&& DSA_COMP_STATUS_MASK = DSA_COMP_PAGE_FAULT_NOBOF <;>
    simp [ha, h1, h2, World.log, deviceComp_status]

theorem Filled_fill (m : Mem) (s p b a k q : Nat) (hf : Filled m s p b)
    (ha : a ≤ s + p) (hq : q ≤ p ∨ s + q ≤ a + k) : Filled (fill m a k b) s q b := by
  intro x hx1 hx2
  unfold fill
  split_ifs with hc
  · rfl
  · apply hf x hx1
    by_contra hlt
    apply hc
    omega

theorem SameOutside_fill (m m0 : Mem) (s n a k b : Nat) (hs : SameOutside m m0 s n)
    (ha : s ≤ a) (hk : a + k ≤ s + n) : SameOutside (fill m a k b) m0 s n := by
  intro x hx
  unfold fill
  split_ifs with hc
  · exact absurd ⟨by omega, by omega⟩ hx
  · exact hs x hx

theorem FillInv_fill (s N b : Nat) (m0 m : Mem) (p a k cr : Nat) (hinv : FillInv s N b m0 m p)
    (ha : a = s + p) (hk : p + k ≤ N) (hcr : cr ≤ k) :
    FillInv s N b m0 (fill m a k b) (p + cr) := by
  obtain ⟨_, hf, hs⟩ := hinv
  exact ⟨by omega, Filled_fill m s p b a k (p + cr) hf (by omega) (Or.inr (by omega)),
    SameOutside_fill m m0 s N a k b hs (by omega) (by omega)⟩

theorem dev_len_le (h : Hw) (x : Nat) : dev_len h x ≤ x := by
  unfold dev_len
  split_ifs
  · exact le_refl _
  · exact Nat.min_le_right _ _

theorem credit_le (h : Hw) (x : Nat) : credit h x ≤ dev_len h x := by
  unfold credit dev_len
  split_ifs <;> simp

theorem dev_len_success (h : Hw) (x : Nat) (hr : wait_result h = SUCCESS) : dev_len h x = x := by
  unfold wait_result at hr
  unfold dev_len
  by_cases h1 : h.status = DSA_COMP_SUCCESS
  · simp [h1]
  · by_cases h2 : h.status &&& DSA_COMP_STATUS_MASK = DSA_COMP_PAGE_FAULT_NOBOF <;>
      simp [h1, h2, SUCCESS, PAGE_FAULT, FAIL_OTHERS] at hr

theorem credit_success (h : Hw) (x : Nat) (hr : wait_result h = SUCCESS) : credit h x = x := by
  unfold wait_result at hr
  unfold credit
  by_cases h1 : h.status = DSA_COMP_SUCCESS
  · simp [h1]
  · by_cases h2 : h.status &&& DSA_COMP_STATUS_MASK = DSA_COMP_PAGE_FAULT_NOBOF <;>
      simp [h1, h2, SUCCESS, PAGE_FAULT, FAIL_OTHERS] at hr

theorem deviceMem_fill (h : Hw) (a1 a2 dst x pat : Nat) (m : Mem) :
    deviceMem h ⟨.MEMFILL, a1, a2, dst, x, pat⟩ m = fill m dst (dev_len h x) pat := by
  unfold deviceMem dev_len devBytes
  by_cases h1 : h.status = DSA_COMP_SUCCESS <;> simp [h1]

theorem wait_credit_fill (h : Hw) (a1 a2 dst x pat : Nat) (m : Mem) :
    wait_credit h ⟨.MEMFILL, a1, a2, dst, x, pat⟩ m = credit h x := by
  simp [wait_credit, credit, deviceComp, devBytes]

theorem wait_credit_move (h : Hw) (a1 a2 dst x pat : Nat) (m : Mem) :
    wait_credit h ⟨.MEMMOVE, a1, a2, dst, x, pat⟩ m = credit h x := by
  simp [wait_credit, credit, deviceComp, devBytes]

theorem cpu_share_le (len f : Nat) (hf : f ≤ 100) : len * f / 100 ≤ len := by
  apply Nat.div_le_of_le_mul
  nlinarith

theorem fill_zero (m : Mem) (a b : Nat) : fill m a 0 b = m := by
  funext x
  simp [fill]

theorem move_zero (m : Mem) (d s : Nat) : move m d s 0 = m := by
  funext x
  simp [move]

theorem dto_memset_chunk_eq (h : Hw) (s : Nat) (c : Int) (threshold fs n : Nat) (w : World) :
    dto_memset_chunk h s c threshold fs n w =
      chunk_result h w
        ⟨w.thr_desc.opcode, w.thr_desc.src_addr, w.thr_desc.src2_addr,
          s + (if n ≤ threshold then n else threshold) * fs / 100 + w.thr_bytes_completed,
          ((if n ≤ threshold then n else threshold) -
            (if n ≤ threshold then n else threshold) * fs / 100) % 2 ^ 32, w.thr_desc.pattern⟩
        ((if n ≤ threshold then n else threshold) * fs / 100)
        (fill w.mem (s + w.thr_bytes_completed)
          ((if n ≤ threshold then n else threshold) * fs / 100) (byteOf c))
        (if (if n ≤ threshold then n else threshold) * fs / 100 ≠ 0 then
          [Event.orig_memset (s + w.thr_bytes_completed) c
            ((if n ≤ threshold then n else threshold) * fs / 100)] else []) := by
  unfold dto_memset_chunk chunk_result
  dsimp only
  generalize (if n ≤ threshold then n else threshold) = len
  simp only [dsa_submit_eq, dsa_wait, wait_and_classify_eq, orig_memset, World.log]
  generalize len * fs / 100 = cpu
  rcases enq_result_cases h ENQCMD_MAX_RETRIES 0 with hS | hR
  · simp only [hS, if_true]
    by_cases hc0 : cpu = 0
    · subst hc0
      simp [fill_zero]
    · simp [hc0]
  · have : RETRIES ≠ SUCCESS := by decide
    simp [hR, this]

theorem dto_memcpymove_chunk_eq (h : Hw) (dest src : Nat) (is_memcpy : Bool) (threshold n : Nat)
    (w : World) :
    dto_memcpymove_chunk h dest src is_memcpy threshold n w =
      chunk_result h w
        ⟨w.thr_desc.opcode,
          src + copy_cpu_size is_memcpy dest src (if n ≤ threshold then n else threshold)
            w.g.cpu_size_fraction + w.thr_bytes_completed,
          w.thr_desc.src2_addr,
          dest + copy_cpu_size is_memcpy dest src (if n ≤ threshold then n else threshold)
            w.g.cpu_size_fraction + w.thr_bytes_completed,
          ((if n ≤ threshold then n else threshold) -
            copy_cpu_size is_memcpy dest src (if n ≤ threshold then n else threshold)
              w.g.cpu_size_fraction) % 2 ^ 32,
          w.thr_desc.pattern⟩
        (copy_cpu_size is_memcpy dest src (if n ≤ threshold then n else threshold)
          w.g.cpu_size_fraction)
        (move w.mem (dest + w.thr_bytes_completed) (src + w.thr_bytes_completed)
          (copy_cpu_size is_memcpy dest src (if n ≤ threshold then n else threshold)
            w.g.cpu_size_fraction))
        (copy_events is_memcpy (dest + w.thr_bytes_completed) (src + w.thr_bytes_completed)
          (copy_cpu_size is_memcpy dest src (if n ≤ threshold then n else threshold)
            w.g.cpu_size_fraction)) := by
  unfold dto_memcpymove_chunk chunk_result copy_events
  dsimp only
  generalize (if n ≤ threshold then n else threshold) = len
  have hcs : (if (!is_memcpy && is_overlapping_buffers dest src len) = true then 0
      else len * w.g.cpu_size_fraction / 100) =
      copy_cpu_size is_memcpy dest src len w.g.cpu_size_fraction := rfl
  simp only [dsa_submit_eq, dsa_wait, wait_and_classify_eq, orig_copy, orig_memcpy, orig_memmove,
    World.log, hcs]
  generalize copy_cpu_size is_memcpy dest src len w.g.cpu_size_fraction = cpu
  rcases enq_result_cases h ENQCMD_MAX_RETRIES 0 with hS | hR
  · simp only [hS, if_true]
    by_cases hc0 : cpu = 0
    · subst hc0
      simp [move_zero]
    · cases is_memcpy <;> simp [hc0]
  · have : RETRIES ≠ SUCCESS := by decide
    simp [hR, this]

theorem dto_memset_eq (hw : Nat → Hw) (wq : dto_wq) (fuel : Nat) (s : Nat) (c : Int) (n : Nat)
    (w : World) :
    dto_memset hw wq fuel s c n w =
      if n - n * w.g.cpu_size_fraction / 100 ≤ wq.max_transfer_size then
        some (dto_memset_chunk (hw w.ndesc) s c n w.g.cpu_size_fraction n (memset_start s c w))
      else
        dto_memset_loop hw s c
          ((wq.max_transfer_size * 100 / (100 - w.g.cpu_size_fraction)) % 2 ^ 32)
          w.g.cpu_size_fraction fuel n (memset_start s c w) := by
  unfold dto_memset memset_start get_wq World.log dto_memset_chunk
  by_cases hc : n - n * w.g.cpu_size_fraction / 100 ≤ wq.max_transfer_size
  · simp [hc, dsa_submit_eq, orig_memset, World.log]
  · simp [hc]

theorem dto_memcpymove_eq (hw : Nat → Hw) (wq : dto_wq) (fuel : Nat) (dest src n : Nat)
    (is_memcpy : Bool) (w : World) :
    dto_memcpymove hw wq fuel dest src n is_memcpy w =
      if n - copy_cpu_size is_memcpy dest src n w.g.cpu_size_fraction ≤ wq.max_transfer_size then
        some (dto_memcpymove_chunk (hw w.ndesc) dest src is_memcpy n n (copy_start dest w))
      else
        dto_memcpymove_loop hw dest src is_memcpy
          ((wq.max_transfer_size * 100 / (100 - w.g.cpu_size_fraction)) % 2 ^ 32)
          fuel n (copy_start dest w) := by
  unfold dto_memcpymove copy_start get_wq World.log dto_memcpymove_chunk copy_cpu_size
  dsimp only
  simp only [le_refl, if_true]
  generalize (if (!is_memcpy && is_overlapping_buffers dest src n) = true then 0
      else n * w.g.cpu_size_fraction / 100) = cpu
  by_cases hc : n - cpu ≤ wq.max_transfer_size
  · simp only [hc, if_true, dsa_submit_eq, orig_copy, World.log, Nat.add_zero, Nat.zero_add]
  · simp only [hc, if_false]

theorem dto_memset_loop_induct (hw : Nat → Hw) (s : Nat) (c : Int) (threshold fs : Nat)
    (P : Nat → World → Prop) (Q : World → Prop)
    (step : ∀ n w, P n w →
      (((dto_memset_chunk (hw w.ndesc) s c threshold fs n w).result ≠ SUCCESS ∨
        ¬ (dto_memset_chunk (hw w.ndesc) s c threshold fs n w).g.dsa_min_size ≤
          n - (if n ≤ threshold then n else threshold)) →
        Q (dto_memset_chunk (hw w.ndesc) s c threshold fs n w)) ∧
      ((dto_memset_chunk (hw w.ndesc) s c threshold fs n w).result = SUCCESS →
        (dto_memset_chunk (hw w.ndesc) s c threshold fs n w).g.dsa_min_size ≤
          n - (if n ≤ threshold then n else threshold) →
        P (n - (if n ≤ threshold then n else threshold))
          (dto_memset_chunk (hw w.ndesc) s c threshold fs n w))) :
    ∀ (fuel n : Nat) (w w' : World), P n w →
      dto_memset_loop hw s c threshold fs fuel n w = some w' → Q w' := by
  intro fuel
  induction fuel with
  | zero => intro n w w' _ h; simp [dto_memset_loop] at h
  | succ fuel ih =>
    intro n w w' hP h
    obtain ⟨h1, h2⟩ := step n w hP
    unfold dto_memset_loop at h
    dsimp only at h
    by_cases hr : (dto_memset_chunk (hw w.ndesc) s c threshold fs n w).result = SUCCESS
    · by_cases hm : (dto_memset_chunk (hw w.ndesc) s c threshold fs n w).g.dsa_min_size ≤
          n - (if n ≤ threshold then n else threshold)
      · simp only [hr, ne_eq, not_true_eq_false, if_false, hm, if_true] at h
        exact ih _ _ _ (h2 hr hm) h
      · simp only [hr, ne_eq, not_true_eq_false, if_false, hm] at h
        cases h
        exact h1 (Or.inr hm)
    · simp only [ne_eq, hr, not_false_eq_true, if_true] at h
      cases h
      exact h1 (Or.inl hr)

theorem fill_chunk_inv (h : Hw) (w : World) (s N a1 a2 x b cpu : Nat) (m0 : Mem)
    (ev : List Event) (hinv : FillInv s N b m0 w.mem w.thr_bytes_completed)
    (hN : w.thr_bytes_completed + cpu + x ≤ N) :
    FillInv s N b m0
      (chunk_result h w ⟨.MEMFILL, a1, a2, s + cpu + w.thr_bytes_completed, x, b⟩ cpu
        (fill w.mem (s + w.thr_bytes_completed) cpu b) ev).mem
      (chunk_result h w ⟨.MEMFILL, a1, a2, s + cpu + w.thr_bytes_completed, x, b⟩ cpu
        (fill w.mem (s + w.thr_bytes_completed) cpu b) ev).thr_bytes_completed := by
  unfold chunk_result
  split_ifs with hS
  · simp only [deviceMem_fill, wait_credit_fill]
    have h1 := FillInv_fill _ _ _ _ _ _ (s + w.thr_bytes_completed) cpu cpu hinv rfl
      (by omega) (le_refl _)
    have hd := dev_len_le h x
    exact FillInv_fill _ _ _ _ _ _ _ _ _ h1 (by omega) (by omega) (credit_le h x)
  · exact hinv

theorem chunk_result_success (h : Hw) (w : World) (d : Desc) (cpu : Nat) (m1 : Mem)
    (ev : List Event) (hr : (chunk_result h w d cpu m1 ev).result = SUCCESS) :
    enq_result h 0 ENQCMD_MAX_RETRIES = SUCCESS ∧ wait_result h = SUCCESS := by
  unfold chunk_result at hr
  split_ifs at hr with hS
  · exact ⟨hS, hr⟩
  · simp [RETRIES, SUCCESS] at hr

theorem chunk_result_bytes (h : Hw) (w : World) (d : Desc) (cpu : Nat) (m1 : Mem)
    (ev : List Event) (hr : (chunk_result h w d cpu m1 ev).result = SUCCESS) :
    (chunk_result h w d cpu m1 ev).thr_bytes_completed =
      w.thr_bytes_completed + cpu + d.xfer_size := by
  obtain ⟨hS, hW⟩ := chunk_result_success h w d cpu m1 ev hr
  unfold chunk_result
  simp only [hS, if_true]
  unfold wait_result at hW
  unfold wait_credit
  by_cases h1 : h.status = DSA_COMP_SUCCESS
  · simp [h1]
  · by_cases h2 : h.status &&& DSA_COMP_STATUS_MASK = DSA_COMP_PAGE_FAULT_NOBOF <;>
      simp [h1, h2, SUCCESS, PAGE_FAULT, FAIL_OTHERS] at hW

theorem chunk_result_desc (h : Hw) (w : World) (d : Desc) (cpu : Nat) (m1 : Mem)
    (ev : List Event) : (chunk_result h w d cpu m1 ev).thr_desc = d := by
  unfold chunk_result
  split_ifs <;> rfl

theorem chunk_result_ndesc (h : Hw) (w : World) (d : Desc) (cpu : Nat) (m1 : Mem)
    (ev : List Event) : (chunk_result h w d cpu m1 ev).ndesc = w.ndesc + 1 := by
  unfold chunk_result
  split_ifs <;> rfl

theorem chunk_len_le (n threshold : Nat) : chunk_len n threshold ≤ n := by
  unfold chunk_len; split_ifs <;> omega

theorem chunk_len_le_threshold (n threshold : Nat) : chunk_len n threshold ≤ threshold := by
  unfold chunk_len; split_ifs <;> omega

theorem dto_memset_chunk_fill (h : Hw) (s : Nat) (c : Int) (threshold fs n N : Nat) (m0 : Mem)
    (w : World) (hfs : fs ≤ 100)
    (hop : w.thr_desc.opcode = .MEMFILL) (hpat : w.thr_desc.pattern = byteOf c)
    (hn : w.thr_bytes_completed + n ≤ N)
    (hinv : FillInv s N (byteOf c) m0 w.mem w.thr_bytes_completed) :
    FillInv s N (byteOf c) m0 (dto_memset_chunk h s c threshold fs n w).mem
      (dto_memset_chunk h s c threshold fs n w).thr_bytes_completed ∧
    (dto_memset_chunk h s c threshold fs n w).thr_desc.opcode = .MEMFILL ∧
    (dto_memset_chunk h s c threshold fs n w).thr_desc.pattern = byteOf c ∧
    ((dto_memset_chunk h s c threshold fs n w).result = SUCCESS → threshold < 2 ^ 32 →
      (dto_memset_chunk h s c threshold fs n w).thr_bytes_completed =
        w.thr_bytes_completed + chunk_len n threshold) := by
  rw [dto_memset_chunk_eq h s c threshold fs n w, hop, hpat]
  have hl1 := chunk_len_le n threshold
  have hl2 := chunk_len_le_threshold n threshold
  unfold chunk_len at hl1 hl2 ⊢
  generalize (if n ≤ threshold then n else threshold) = len at *
  have hcpu : len * fs / 100 ≤ len := cpu_share_le len fs hfs
  generalize len * fs / 100 = cpu at *
  have hmod : (len - cpu) % 2 ^ 32 ≤ len - cpu := Nat.mod_le _ _
  refine ⟨fill_chunk_inv _ _ _ _ _ _ _ _ _ _ _ hinv (by omega), ?_, ?_, ?_⟩
  · rw [chunk_result_desc]
  · rw [chunk_result_desc]
  · intro hr hth
    rw [chunk_result_bytes _ _ _ _ _ _ hr]
    have : (len - cpu) % 2 ^ 32 = len - cpu := Nat.mod_eq_of_lt (by omega)
    simp only [this]
    omega

theorem dto_memset_loop_fill (hw : Nat → Hw) (s : Nat) (c : Int) (threshold fs N : Nat) (m0 : Mem)
    (hfs : fs ≤ 100) (hth : threshold < 2 ^ 32) :
    ∀ (fuel n : Nat) (w w' : World),
      (w.thr_desc.opcode = .MEMFILL ∧ w.thr_desc.pattern = byteOf c ∧
        w.thr_bytes_completed + n ≤ N ∧ FillInv s N (byteOf c) m0 w.mem w.thr_bytes_completed) →
      dto_memset_loop hw s c threshold fs fuel n w = some w' →
      FillInv s N (byteOf c) m0 w'.mem w'.thr_bytes_completed := by
  apply dto_memset_loop_induct
  intro n w ⟨hop, hpat, hn, hinv⟩
  obtain ⟨h1, h2, h3, h4⟩ :=
    dto_memset_chunk_fill (hw w.ndesc) s c threshold fs n N m0 w hfs hop hpat hn hinv
  refine ⟨fun _ => h1, fun hr _ => ⟨h2, h3, ?_, h1⟩⟩
  rw [h4 hr hth]
  have := chunk_len_le n threshold
  unfold chunk_len at this ⊢
  omega

theorem dto_internal_memset_loop_eq (s1 b : Nat) : ∀ (k i : Nat) (m : Mem),
    dto_internal_memset_loop s1 b i k m = fill m (s1 + i) k b := by
  intro k
  induction k with
  | zero => intro i m; rw [fill_zero]; rfl
  | succ k ih =>
    intro i m
    unfold dto_internal_memset_loop
    rw [ih]
    funext x
    unfold fill
    by_cases h1 : s1 + (i + 1) ≤ x ∧ x < s1 + (i + 1) + k
    · have h2 : s1 + i ≤ x ∧ x < s1 + i + (k + 1) := by omega
      simp [h1, h2]
    · by_cases h3 : x = s1 + i
      · have h2 : s1 + i ≤ x ∧ x < s1 + i + (k + 1) := by omega
        simp [h1, h2, h3]
      · have h2 : ¬ (s1 + i ≤ x ∧ x < s1 + i + (k + 1)) := by omega
        simp [h1, h2, h3]

theorem FillInv_init (s N b : Nat) (m : Mem) : FillInv s N b m m 0 :=
  ⟨Nat.zero_le _, fun x h1 h2 => by omega, fun _ _ => rfl⟩

theorem dto_memset_fill (hw : Nat → Hw) (wq : dto_wq) (fuel : Nat) (s : Nat) (c : Int) (n : Nat)
    (w w1 : World) (hf : w.g.cpu_size_fraction ≤ 100)
    (hrun : dto_memset hw wq fuel s c n w = some w1) :
    FillInv s n (byteOf c) w.mem w1.mem w1.thr_bytes_completed := by
  rw [dto_memset_eq] at hrun
  have h0 : FillInv s n (byteOf c) w.mem (memset_start s c w).mem
      (memset_start s c w).thr_bytes_completed := FillInv_init _ _ _ _
  split_ifs at hrun with hc
  · cases hrun
    exact (dto_memset_chunk_fill _ s c n _ n n w.mem (memset_start s c w) hf rfl rfl
      (by simp [memset_start]) h0).1
  · exact dto_memset_loop_fill hw s c _ _ n w.mem hf (Nat.mod_lt _ (by norm_num)) fuel n
      (memset_start s c w) w1 ⟨rfl, rfl, by simp [memset_start], h0⟩ hrun

theorem memset_fill (hw : Nat → Hw) (wq : dto_wq) (fuel : Nat) (s : Nat) (c : Int) (n : Nat)
    (w : World) (ret : Nat) (w' : World) (hf : w.g.cpu_size_fraction ≤ 100)
    (hrun : memset hw wq fuel s c n w = some (ret, w')) :
    ret = s ∧ FillInv s n (byteOf c) w.mem w'.mem n := by
  unfold memset at hrun
  dsimp only at hrun
  split_ifs at hrun with hi hu
  · simp only [dto_internal_memset, Option.some.injEq, Prod.mk.injEq] at hrun
    obtain ⟨h1, h2⟩ := hrun
    subst h2
    refine ⟨h1.symm, ?_⟩
    simp only [dto_internal_memset_loop_eq]
    have := FillInv_fill s n (byteOf c) w.mem w.mem 0 (s + 0) n n (FillInv_init _ _ _ _) rfl
      (by omega) (le_refl _)
    simpa using this
  · cases hd : dto_memset hw wq fuel s c n { w with result := 0 } with
    | none => simp [hd] at hrun
    | some w1 =>
      have hinv := dto_memset_fill hw wq fuel s c n { w with result := 0 } w1 hf hd
      simp only [hd] at hrun
      split_ifs at hrun with hb
      · simp only [Option.some.injEq, Prod.mk.injEq] at hrun
        obtain ⟨h1, h2⟩ := hrun
        subst h2
        refine ⟨h1.symm, ?_⟩
        have hle := hinv.1
        have := FillInv_fill s n (byteOf c) w.mem w1.mem w1.thr_bytes_completed
          (s + w1.thr_bytes_completed) (n - w1.thr_bytes_completed) (n - w1.thr_bytes_completed)
          hinv rfl (by omega) (le_refl _)
        simp only [orig_memset, World.log]
        have e : w1.thr_bytes_completed + (n - w1.thr_bytes_completed) = n := by omega
        rw [e] at this
        exact this
      · simp only [Option.some.injEq, Prod.mk.injEq] at hrun
        obtain ⟨h1, h2⟩ := hrun
        subst h2
        refine ⟨h1.symm, ?_⟩
        have e : w1.thr_bytes_completed = n := by
          by_contra hne
          exact hb hne
        rw [e] at hinv
        exact hinv
  · simp only [Option.some.injEq, Prod.mk.injEq] at hrun
    obtain ⟨h1, h2⟩ := hrun
    subst h2
    refine ⟨h1.symm, ?_⟩
    have := FillInv_fill s n (byteOf c) w.mem w.mem 0 (s + 0) n n (FillInv_init _ _ _ _) rfl
      (by omega) (le_refl _)
    simpa [orig_memset, World.log] using this

theorem dto_internal_copy_up_eq (m0 : Mem) (d s : Nat) (hds : d ≤ s) : ∀ (k i : Nat),
    dto_internal_copy_up d s i k (move m0 d s i) = move m0 d s (i + k) := by
  intro k
  induction k with
  | zero => intro i; rfl
  | succ k ih =>
    intro i
    unfold dto_internal_copy_up
    have e : (fun x => if x = d + i then move m0 d s i (s + i) else move m0 d s i x) =
        move m0 d s (i + 1) := by
      funext x
      unfold move
      by_cases hx : x = d + i
      · subst hx
        have h1 : ¬ (d ≤ s + i ∧ s + i < d + i) := by omega
        have h2 : d ≤ d + i ∧ d + i < d + (i + 1) := by omega
        simp only [if_true, h1, if_false, h2]
        congr 1
        omega
      · by_cases h1 : d ≤ x ∧ x < d + i
        · have h2 : d ≤ x ∧ x < d + (i + 1) := by omega
          simp only [hx, if_false, h1, if_true, h2]
        · have h2 : ¬ (d ≤ x ∧ x < d + (i + 1)) := by omega
          simp only [hx, if_false, h1, h2]
    rw [e, ih (i + 1)]
    have e2 : i + 1 + k = i + (k + 1) := by omega
    rw [e2]

theorem dto_internal_copy_down_eq (m0 : Mem) (d s n : Nat) (hds : s ≤ d) : ∀ (j : Nat), j ≤ n →
    dto_internal_copy_down d s j (move_tail m0 d s j n) = move m0 d s n := by
  intro j
  induction j with
  | zero =>
    intro _
    unfold dto_internal_copy_down move_tail move
    funext x
    simp
  | succ j ih =>
    intro hj
    unfold dto_internal_copy_down
    have e : (fun x => if x = d + j then move_tail m0 d s (j + 1) n (s + j)
        else move_tail m0 d s (j + 1) n x) = move_tail m0 d s j n := by
      funext x
      unfold move_tail
      by_cases hx : x = d + j
      · subst hx
        have h1 : ¬ (d + (j + 1) ≤ s + j ∧ s + j < d + n) := by omega
        have h2 : d + j ≤ d + j ∧ d + j < d + n := by omega
        simp only [if_true, h1, if_false, h2]
        congr 1
        omega
      · by_cases h1 : d + (j + 1) ≤ x ∧ x < d + n
        · have h2 : d + j ≤ x ∧ x < d + n := by omega
          simp only [hx, if_false, h1, if_true, h2]
        · have h2 : ¬ (d + j ≤ x ∧ x < d + n) := by omega
          simp only [hx, if_false, h1, h2]
    rw [e]
    exact ih (by omega)

theorem move_tail_self (m : Mem) (d s n : Nat) : move_tail m d s n n = m := by
  funext x
  unfold move_tail
  have : ¬ (d + n ≤ x ∧ x < d + n) := by omega
  simp only [this, if_false]

theorem ssize_start (n : Nat) (hn : n ≤ SSIZE_MAX) :
    (to_ssize ((n + 2 ^ 64 - 1) % 2 ^ 64) + 1).toNat = n := by
  unfold SSIZE_MAX at hn
  unfold to_ssize
  by_cases h0 : n = 0
  · subst h0
    norm_num
  · have e : (n + 2 ^ 64 - 1) % 2 ^ 64 = n - 1 := by omega
    rw [e]
    have h1 : n - 1 < 2 ^ 63 := by omega
    simp only [h1, if_true]
    omega

theorem dto_internal_memcpymove_eq (dest src n : Nat) (w : World) (hn : n ≤ SSIZE_MAX) :
    dto_internal_memcpymove dest src n w = (dest, { w with mem := move w.mem dest src n }) := by
  unfold dto_internal_memcpymove
  split_ifs with h
  · have := dto_internal_copy_up_eq w.mem dest src h n 0
    rw [move_zero, Nat.zero_add] at this
    rw [this]
  · dsimp only
    rw [ssize_start n hn]
    have := dto_internal_copy_down_eq w.mem dest src n (by omega) n (le_refl _)
    rw [move_tail_self] at this
    rw [this]

/-! ## C9: the fallback used before initialization -/

/-- C9: while `dto_initialized` is 0, `memcpy` and `memmove` are served by
`dto_internal_memcpymove` and log no action (no descriptor is submitted); for
`n ≤ SSIZE_MAX` that routine returns `dest`, leaves in `dest[0..n)` what
`src[0..n)` held before the call, whether or not the ranges overlap, and
changes no byte outside `dest[0..n)`. -/
theorem dto_internal_memcpymove_contract (hw : Nat → Hw) (wq : dto_wq) (fuel dest src n : Nat)
    (w : World) (hinit : w.dto_initialized = 0) (hn : n ≤ SSIZE_MAX) :
    memcpy hw wq fuel dest src n w = some (dto_internal_memcpymove dest src n w) ∧
    memmove hw wq fuel dest src n w = some (dto_internal_memcpymove dest src n w) ∧
    (dto_internal_memcpymove dest src n w).1 = dest ∧
    (dto_internal_memcpymove dest src n w).2.trace = w.trace ∧
    (∀ i, i < n → (dto_internal_memcpymove dest src n w).2.mem (dest + i) = w.mem (src + i)) ∧
    (∀ x, ¬ (dest ≤ x ∧ x < dest + n) →
      (dto_internal_memcpymove dest src n w).2.mem x = w.mem x) := by
  rw [dto_internal_memcpymove_eq dest src n w hn]
  refine ⟨by simp [memcpy, hinit, dto_internal_memcpymove_eq dest src n w hn],
    by simp [memmove, hinit, dto_internal_memcpymove_eq dest src n w hn], rfl, rfl, ?_, ?_⟩
  · intro i hi
    have h1 : dest ≤ dest + i ∧ dest + i < dest + n := by omega
    have h2 : dest + i - dest = i := by omega
    show move w.mem dest src n (dest + i) = w.mem (src + i)
    unfold move
    rw [if_pos h1, h2]
  · intro x hx
    show move w.mem dest src n x = w.mem x
    unfold move
    rw [if_neg hx]

/-- C9 at a concrete input: an overlapping move of four bytes upwards by two,
before initialization. -/
theorem dto_internal_memcpymove_contract_witness :
    (World.static id).dto_initialized = 0 ∧ 4 ≤ SSIZE_MAX ∧
    (dto_internal_memcpymove 2 0 4 (World.static id)).2.mem (2 + 3) = (World.static id).mem (0 + 3) :=
  ⟨rfl, by decide,
    (dto_internal_memcpymove_contract hw_success ⟨4⟩ 0 2 0 4 (World.static id) rfl
      (by decide)).2.2.2.2.1 3 (by decide)⟩

/-! ## C3: `memset` fills exactly the target range -/

/-- C3: for every `s`, `c`, `n`, every configuration with `cpu_size_fraction`
in `[0, 1)` and every behaviour of the environment for each descriptor
(rejected enqueues, success, page fault after some bytes, any other status),
whenever `memset` returns it returns `s`, every byte of `s[0..n)` equals
`(unsigned char) c`, and no byte outside `[s, s + n)` has changed. -/
theorem memset_contract (hw : Nat → Hw) (wq : dto_wq) (fuel : Nat) (s : Nat) (c : Int) (n : Nat)
    (w : World) (ret : Nat) (w' : World) (hf : w.g.cpu_size_fraction < 100)
    (hrun : memset hw wq fuel s c n w = some (ret, w')) :
    ret = s ∧ (∀ x, s ≤ x → x < s + n → w'.mem x = byteOf c) ∧
      (∀ x, ¬ (s ≤ x ∧ x < s + n) → w'.mem x = w.mem x) := by
  obtain ⟨h1, _, h2, h3⟩ := memset_fill hw wq fuel s c n w ret w' (le_of_lt hf) hrun
  exact ⟨h1, h2, h3⟩

/-- C3 at a concrete input: a fill of 10000 bytes with the default
configuration whose descriptor stops at a page fault after 4096 bytes. -/
theorem memset_contract_witness :
    (world_default id).g.cpu_size_fraction < 100 ∧
    memset (hw_page_fault 4096) ⟨131072⟩ 1 4096 97 10000 (world_default id) =
      some (4096, final_world
        (memset (hw_page_fault 4096) ⟨131072⟩ 1 4096 97 10000 (world_default id))
        (world_default id)) ∧
    (∀ x, 4096 ≤ x → x < 4096 + 10000 →
      (final_world (memset (hw_page_fault 4096) ⟨131072⟩ 1 4096 97 10000 (world_default id))
        (world_default id)).mem x = byteOf 97) :=
  ⟨by decide, rfl,
    (memset_contract (hw_page_fault 4096) ⟨131072⟩ 1 4096 97 10000 (world_default id) 4096 _
      (by decide) rfl).2.1⟩

theorem CopyInv_move (dest src N : Nat) (m0 m : Mem) (p a b k cr : Nat)
    (hdis : dest + N ≤ src ∨ src + N ≤ dest) (hinv : CopyInv dest src N m0 m p)
    (ha : a = dest + p) (hb : b = src + p) (hk : p + k ≤ N) (hcr : cr ≤ k) :
    CopyInv dest src N m0 (move m a b k) (p + cr) := by
  obtain ⟨_, hpre, hout⟩ := hinv
  refine ⟨by omega, ?_, ?_⟩
  · intro i hi
    unfold move
    by_cases hx : a ≤ dest + i ∧ dest + i < a + k
    · rw [if_pos hx]
      have e : b + (dest + i - a) = src + i := by omega
      rw [e]
      exact hout _ (by omega)
    · rw [if_neg hx]
      exact hpre i (by omega)
  · intro x hx
    unfold move
    have : ¬ (a ≤ x ∧ x < a + k) := by omega
    rw [if_neg this]
    exact hout x hx

theorem deviceMem_move (h : Hw) (src a2 dst x pat : Nat) (m : Mem) (hfw : h.result = 0) :
    deviceMem h ⟨.MEMMOVE, src, a2, dst, x, pat⟩ m = move m dst src (dev_len h x) := by
  unfold deviceMem dev_len devBytes
  by_cases h1 : h.status = DSA_COMP_SUCCESS <;> simp [h1, hfw]

theorem deviceComp_move_result (h : Hw) (src a2 dst x pat : Nat) (m : Mem) (hfw : h.result = 0) :
    (deviceComp h ⟨.MEMMOVE, src, a2, dst, x, pat⟩ m).result = 0 := by
  unfold deviceComp
  by_cases h1 : h.status = DSA_COMP_SUCCESS <;> simp [h1, hfw]

theorem copy_cpu_size_le (is_memcpy : Bool) (dest src len f : Nat) (hf : f ≤ 100) :
    copy_cpu_size is_memcpy dest src len f ≤ len := by
  unfold copy_cpu_size
  split_ifs
  · exact Nat.zero_le _
  · exact cpu_share_le len f hf

theorem copy_chunk_inv (h : Hw) (w : World) (dest src N a2 x pat cpu : Nat) (m0 : Mem)
    (ev : List Event) (hdis : dest + N ≤ src ∨ src + N ≤ dest) (hfw : h.result = 0)
    (hinv : CopyInv dest src N m0 w.mem w.thr_bytes_completed)
    (hN : w.thr_bytes_completed + cpu + x ≤ N) :
    CopyInv dest src N m0
      (chunk_result h w
        ⟨.MEMMOVE, src + cpu + w.thr_bytes_completed, a2, dest + cpu + w.thr_bytes_completed, x, pat⟩
        cpu (move w.mem (dest + w.thr_bytes_completed) (src + w.thr_bytes_completed) cpu) ev).mem
      (chunk_result h w
        ⟨.MEMMOVE, src + cpu + w.thr_bytes_completed, a2, dest + cpu + w.thr_bytes_completed, x, pat⟩
        cpu (move w.mem (dest + w.thr_bytes_completed) (src + w.thr_bytes_completed) cpu)
        ev).thr_bytes_completed := by
  unfold chunk_result
  split_ifs with hS
  · simp only [deviceMem_move _ _ _ _ _ _ _ hfw, wait_credit_move]
    have h1 := CopyInv_move dest src N m0 w.mem w.thr_bytes_completed
      (dest + w.thr_bytes_completed) (src + w.thr_bytes_completed) cpu cpu hdis hinv rfl rfl
      (by omega) (le_refl _)
    have hd := dev_len_le h x
    exact CopyInv_move dest src N m0 _ _ _ _ _ _ hdis h1 (by omega) (by omega) (by omega)
      (credit_le h x)
  · exact hinv

theorem copy_chunk_comp_result (h : Hw) (w : World) (s a2 d x pat cpu : Nat) (m1 : Mem)
    (ev : List Event) (hfw : h.result = 0)
    (hres : w.thr_bytes_completed = 0 ∨ w.thr_comp.result = 0) :
    (chunk_result h w ⟨.MEMMOVE, s, a2, d, x, pat⟩ cpu m1 ev).thr_bytes_completed = 0 ∨
    (chunk_result h w ⟨.MEMMOVE, s, a2, d, x, pat⟩ cpu m1 ev).thr_comp.result = 0 := by
  unfold chunk_result
  split_ifs with hS
  · right
    exact deviceComp_move_result h s a2 d x pat m1 hfw
  · exact hres

theorem dsa_wait_and_adjust_fraction_le (waits : Nat) (g : Knobs)
    (hg : g.cpu_size_fraction ≤ 100) : (dsa_wait_and_adjust waits g).cpu_size_fraction ≤ 100 := by
  unfold dsa_wait_and_adjust
  dsimp only
  unfold MAX_CPU_SIZE_FRACTION CSF_STEP_INCREMENT CSF_STEP_DECREMENT
  split_ifs <;> simp only [] <;> omega

theorem tune_fraction_le (waits : Nat) (g : Knobs) (hg : g.cpu_size_fraction ≤ 100) :
    (tune waits g).cpu_size_fraction ≤ 100 := by
  unfold tune
  split_ifs
  · exact dsa_wait_and_adjust_fraction_le waits g hg
  · exact hg

theorem chunk_result_fraction_le (h : Hw) (w : World) (d : Desc) (cpu : Nat) (m1 : Mem)
    (ev : List Event) (hg : w.g.cpu_size_fraction ≤ 100) :
    (chunk_result h w d cpu m1 ev).g.cpu_size_fraction ≤ 100 := by
  unfold chunk_result
  split_ifs
  · exact tune_fraction_le _ _ hg
  · exact hg

theorem dto_memcpymove_loop_induct (hw : Nat → Hw) (dest src : Nat) (is_memcpy : Bool)
    (threshold : Nat) (P : Nat → World → Prop) (Q : World → Prop)
    (step : ∀ n w, P n w →
      (((dto_memcpymove_chunk (hw w.ndesc) dest src is_memcpy threshold n w).result ≠ SUCCESS ∨
        ¬ (dto_memcpymove_chunk (hw w.ndesc) dest src is_memcpy threshold n w).g.dsa_min_size ≤
          n - (if n ≤ threshold then n else threshold)) →
        Q (dto_memcpymove_chunk (hw w.ndesc) dest src is_memcpy threshold n w)) ∧
      ((dto_memcpymove_chunk (hw w.ndesc) dest src is_memcpy threshold n w).result = SUCCESS →
        (dto_memcpymove_chunk (hw w.ndesc) dest src is_memcpy threshold n w).g.dsa_min_size ≤
          n - (if n ≤ threshold then n else threshold) →
        P (n - (if n ≤ threshold then n else threshold))
          (dto_memcpymove_chunk (hw w.ndesc) dest src is_memcpy threshold n w))) :
    ∀ (fuel n : Nat) (w w' : World), P n w →
      dto_memcpymove_loop hw dest src is_memcpy threshold fuel n w = some w' → Q w' := by
  intro fuel
  induction fuel with
  | zero => intro n w w' _ h; simp [dto_memcpymove_loop] at h
  | succ fuel ih =>
    intro n w w' hP h
    obtain ⟨h1, h2⟩ := step n w hP
    unfold dto_memcpymove_loop at h
    dsimp only at h
    by_cases hr : (dto_memcpymove_chunk (hw w.ndesc) dest src is_memcpy threshold n w).result =
        SUCCESS
    · by_cases hm : (dto_memcpymove_chunk (hw w.ndesc) dest src is_memcpy threshold n
          w).g.dsa_min_size ≤ n - (if n ≤ threshold then n else threshold)
      · simp only [hr, ne_eq, not_true_eq_false, if_false, hm, if_true] at h
        exact ih _ _ _ (h2 hr hm) h
      · simp only [hr, ne_eq, not_true_eq_false, if_false, hm] at h
        cases h
        exact h1 (Or.inr hm)
    · simp only [ne_eq, hr, not_false_eq_true, if_true] at h
      cases h
      exact h1 (Or.inl hr)

theorem dto_memcpymove_chunk_copy (h : Hw) (dest src : Nat) (is_memcpy : Bool)
    (threshold n N : Nat) (m0 : Mem) (w : World) (hdis : dest + N ≤ src ∨ src + N ≤ dest)
    (hfw : h.result = 0) (hn : w.thr_bytes_completed + n ≤ N) (hst : CopyState dest src N m0 w) :
    CopyState dest src N m0 (dto_memcpymove_chunk h dest src is_memcpy threshold n w) ∧
    ((dto_memcpymove_chunk h dest src is_memcpy threshold n w).result = SUCCESS →
      threshold < 2 ^ 32 →
      (dto_memcpymove_chunk h dest src is_memcpy threshold n w).thr_bytes_completed =
        w.thr_bytes_completed + chunk_len n threshold) := by
  obtain ⟨hop, hf, hinv, hres⟩ := hst
  rw [dto_memcpymove_chunk_eq h dest src is_memcpy threshold n w, hop]
  have hl1 := chunk_len_le n threshold
  have hl2 := chunk_len_le_threshold n threshold
  unfold chunk_len at hl1 hl2 ⊢
  generalize (if n ≤ threshold then n else threshold) = len at *
  have hcpu := copy_cpu_size_le is_memcpy dest src len w.g.cpu_size_fraction hf
  generalize copy_cpu_size is_memcpy dest src len w.g.cpu_size_fraction = cpu at *
  have hmod : (len - cpu) % 2 ^ 32 ≤ len - cpu := Nat.mod_le _ _
  refine ⟨⟨?_, chunk_result_fraction_le _ _ _ _ _ _ hf,
    copy_chunk_inv _ _ _ _ _ _ _ _ _ _ _ hdis hfw hinv (by omega),
    copy_chunk_comp_result _ _ _ _ _ _ _ _ _ _ hfw hres⟩, ?_⟩
  · rw [chunk_result_desc]
  · intro hr hth
    rw [chunk_result_bytes _ _ _ _ _ _ hr]
    have : (len - cpu) % 2 ^ 32 = len - cpu := Nat.mod_eq_of_lt (by omega)
    simp only [this]
    omega

theorem dto_memcpymove_loop_copy (hw : Nat → Hw) (dest src : Nat) (is_memcpy : Bool)
    (threshold N : Nat) (m0 : Mem) (hdis : dest + N ≤ src ∨ src + N ≤ dest)
    (hfw : ForwardDevice hw) (hth : threshold < 2 ^ 32) :
    ∀ (fuel n : Nat) (w w' : World),
      (w.thr_bytes_completed + n ≤ N ∧ CopyState dest src N m0 w) →
      dto_memcpymove_loop hw dest src is_memcpy threshold fuel n w = some w' →
      CopyState dest src N m0 w' := by
  apply dto_memcpymove_loop_induct
  intro n w ⟨hn, hst⟩
  obtain ⟨h1, h2⟩ := dto_memcpymove_chunk_copy (hw w.ndesc) dest src is_memcpy threshold n N m0 w
    hdis (hfw _) hn hst
  refine ⟨fun _ => h1, fun hr _ => ⟨?_, h1⟩⟩
  rw [h2 hr hth]
  have := chunk_len_le n threshold
  unfold chunk_len at this ⊢
  omega

theorem CopyInv_init (dest src N : Nat) (m : Mem) : CopyInv dest src N m m 0 :=
  ⟨Nat.zero_le _, fun i h => by omega, fun _ _ => rfl⟩

theorem dto_memcpymove_copy (hw : Nat → Hw) (wq : dto_wq) (fuel dest src n : Nat)
    (is_memcpy : Bool) (w w1 : World) (hdis : dest + n ≤ src ∨ src + n ≤ dest)
    (hfw : ForwardDevice hw) (hf : w.g.cpu_size_fraction ≤ 100)
    (hrun : dto_memcpymove hw wq fuel dest src n is_memcpy w = some w1) :
    CopyState dest src n w.mem w1 := by
  rw [dto_memcpymove_eq] at hrun
  have h0 : CopyState dest src n w.mem (copy_start dest w) :=
    ⟨rfl, hf, CopyInv_init _ _ _ _, Or.inl rfl⟩
  split_ifs at hrun with hc
  · cases hrun
    exact (dto_memcpymove_chunk_copy _ dest src is_memcpy n n n w.mem (copy_start dest w) hdis
      (hfw _) (by simp [copy_start]) h0).1
  · have hth : (wq.max_transfer_size * 100 / (100 - w.g.cpu_size_fraction)) % 2 ^ 32 < 2 ^ 32 :=
      Nat.mod_lt _ (by positivity)
    exact dto_memcpymove_loop_copy hw dest src is_memcpy _ n w.mem hdis hfw hth fuel n
      (copy_start dest w) w1 ⟨by simp [copy_start], h0⟩ hrun

theorem finish_copy_inv (is_memcpy : Bool) (dest src n : Nat) (m0 : Mem) (w1 : World)
    (hdis : dest + n ≤ src ∨ src + n ≤ dest) (hst : CopyState dest src n m0 w1) :
    CopyInv dest src n m0 (finish_copy is_memcpy dest src n w1).mem n := by
  obtain ⟨_, _, hinv, hres⟩ := hst
  have hle := hinv.1
  unfold finish_copy
  have hmem : ∀ d s k, (orig_copy is_memcpy d s k w1).mem = move w1.mem d s k := by
    intro d s k
    cases is_memcpy <;> rfl
  split_ifs with hb hr
  · dsimp only
    rw [hmem]
    have := CopyInv_move dest src n m0 w1.mem w1.thr_bytes_completed
      (dest + w1.thr_bytes_completed) (src + w1.thr_bytes_completed)
      (n - w1.thr_bytes_completed) (n - w1.thr_bytes_completed) hdis hinv rfl rfl (by omega)
      (le_refl _)
    have e : w1.thr_bytes_completed + (n - w1.thr_bytes_completed) = n := by omega
    rw [e] at this
    exact this
  · dsimp only
    rw [hmem]
    have hz : w1.thr_bytes_completed = 0 := by
      rcases hres with h | h
      · exact h
      · exact absurd h hr
    rw [hz] at hinv ⊢
    have := CopyInv_move dest src n m0 w1.mem 0 dest src n n hdis hinv rfl rfl (by omega)
      (le_refl _)
    simpa using this
  · have e : w1.thr_bytes_completed = n := by
      by_contra hne
      exact hb hne
    rw [e] at hinv
    exact hinv

theorem memcpy_copy (hw : Nat → Hw) (wq : dto_wq) (fuel dest src n : Nat) (w : World)
    (ret : Nat) (w' : World) (hdis : dest + n ≤ src ∨ src + n ≤ dest)
    (hfw : ForwardDevice hw) (hf : w.g.cpu_size_fraction ≤ 100)
    (hinit : w.dto_initialized = 0 → n ≤ SSIZE_MAX)
    (hrun : memcpy hw wq fuel dest src n w = some (ret, w')) :
    ret = dest ∧ CopyInv dest src n w.mem w'.mem n := by
  have hcpu : CopyInv dest src n w.mem (move w.mem dest src n) n := by
    have := CopyInv_move dest src n w.mem w.mem 0 dest src n n hdis (CopyInv_init _ _ _ _) rfl rfl
      (by omega) (le_refl _)
    simpa using this
  unfold memcpy at hrun
  dsimp only at hrun
  split_ifs at hrun with hi hu
  · rw [dto_internal_memcpymove_eq dest src n w (hinit hi)] at hrun
    simp only [Option.some.injEq, Prod.mk.injEq] at hrun
    obtain ⟨h1, h2⟩ := hrun
    subst h2
    exact ⟨h1.symm, hcpu⟩
  · cases hd : dto_memcpymove hw wq fuel dest src n true { w with result := 0 } with
    | none => simp [hd] at hrun
    | some w1 =>
      have hst := dto_memcpymove_copy hw wq fuel dest src n true { w with result := 0 } w1 hdis
        hfw hf hd
      simp only [hd, Option.some.injEq, Prod.mk.injEq] at hrun
      obtain ⟨h1, h2⟩ := hrun
      subst h2
      exact ⟨h1.symm, finish_copy_inv true dest src n w.mem w1 hdis hst⟩
  · simp only [Option.some.injEq, Prod.mk.injEq] at hrun
    obtain ⟨h1, h2⟩ := hrun
    subst h2
    exact ⟨h1.symm, hcpu⟩

/-! ## C4: `memcpy` hides every accelerator error -/

/-- C4: for ranges `dest`, `src` of `n` bytes that do not overlap and every
behaviour of the environment for each descriptor (rejected enqueues, success,
page fault after some bytes copied from the start, any other status), when
`memcpy` returns it returns `dest` and `dest[0..n)` holds what `src[0..n)` held
(before initialization the request must not exceed `SSIZE_MAX`); and for
`n = 65536`, `cpu_size_fraction = 0` and a page fault with
`bytes_completed = 40960` the CPU routine copies the remaining 24576 bytes from
offset 40960. -/
theorem memcpy_contract (hw : Nat → Hw) (wq : dto_wq) (fuel dest src n : Nat) (w : World)
    (ret : Nat) (w' : World) (hdis : dest + n ≤ src ∨ src + n ≤ dest)
    (hfw : ForwardDevice hw) (hf : w.g.cpu_size_fraction < 100)
    (hinit : w.dto_initialized = 0 → n ≤ SSIZE_MAX)
    (hrun : memcpy hw wq fuel dest src n w = some (ret, w')) :
    (ret = dest ∧ ∀ i, i < n → w'.mem (dest + i) = w.mem (src + i)) ∧
    (memcpy (hw_page_fault 40960) ⟨131072⟩ 0 2097152 1048576 65536 (world_default id)).map
        (fun p => p.2.trace) =
      some [Event.get_wq 2097152,
        Event.enqcmd ⟨.MEMMOVE, 1048576, 0, 2097152, 65536, 0⟩ false,
        Event.completed ⟨.MEMMOVE, 1048576, 0, 2097152, 65536, 0⟩ 40960 0,
        Event.orig_memcpy (2097152 + 40960) (1048576 + 40960) 24576] := by
  obtain ⟨h1, _, h2, _⟩ := memcpy_copy hw wq fuel dest src n w ret w' hdis hfw (le_of_lt hf) hinit
    hrun
  exact ⟨⟨h1, h2⟩, by decide⟩

/-- C4 at a concrete input: the copy of 65536 bytes whose descriptor stops at a
page fault after 40960 bytes. -/
theorem memcpy_contract_witness :
    (2097152 + 65536 ≤ 1048576 ∨ 1048576 + 65536 ≤ 2097152) ∧
    ForwardDevice (hw_page_fault 40960) ∧
    (world_default id).g.cpu_size_fraction < 100 ∧
    memcpy (hw_page_fault 40960) ⟨131072⟩ 0 2097152 1048576 65536 (world_default id) =
      some (2097152, final_world
        (memcpy (hw_page_fault 40960) ⟨131072⟩ 0 2097152 1048576 65536 (world_default id))
        (world_default id)) ∧
    (∀ i, i < 65536 →
      (final_world
        (memcpy (hw_page_fault 40960) ⟨131072⟩ 0 2097152 1048576 65536 (world_default id))
        (world_default id)).mem (2097152 + i) = (world_default id).mem (1048576 + i)) :=
  ⟨by decide, fun _ => rfl, by decide, rfl,
    (memcpy_contract (hw_page_fault 40960) ⟨131072⟩ 0 2097152 1048576 65536 (world_default id)
      2097152 _ (by decide) (fun _ => rfl) (by decide) (by decide) rfl).1.2⟩

theorem Stable.refl (w : World) : Stable w w := ⟨rfl, rfl, id, id⟩

theorem Stable.trans {w0 w1 w2 : World} (h1 : Stable w0 w1) (h2 : Stable w1 w2) :
    Stable w0 w2 :=
  ⟨h2.1.trans h1.1, h2.2.1.trans h1.2.1, fun h => h2.2.2.1 (h1.2.2.1 h),
    fun h => h2.2.2.2 (h1.2.2.2 h)⟩

theorem dsa_wait_and_adjust_fraction_lt (waits : Nat) (g : Knobs)
    (hg : g.cpu_size_fraction < 100) : (dsa_wait_and_adjust waits g).cpu_size_fraction < 100 := by
  unfold dsa_wait_and_adjust
  dsimp only
  unfold MAX_CPU_SIZE_FRACTION CSF_STEP_INCREMENT CSF_STEP_DECREMENT
  split_ifs <;> simp only [] <;> omega

theorem dsa_wait_and_adjust_min_size_pos (waits : Nat) (g : Knobs)
    (hg : 1 ≤ g.dsa_min_size) : 1 ≤ (dsa_wait_and_adjust waits g).dsa_min_size := by
  unfold dsa_wait_and_adjust
  dsimp only
  unfold MAX_DSA_MIN_SIZE MIN_DSA_MIN_SIZE DMS_STEP_INCREMENT DMS_STEP_DECREMENT
  split_ifs <;> simp only [] <;> omega

theorem tune_fraction_lt (waits : Nat) (g : Knobs) (hg : g.cpu_size_fraction < 100) :
    (tune waits g).cpu_size_fraction < 100 := by
  unfold tune
  split_ifs
  · exact dsa_wait_and_adjust_fraction_lt waits g hg
  · exact hg

theorem tune_min_size_pos (waits : Nat) (g : Knobs) (hg : 1 ≤ g.dsa_min_size) :
    1 ≤ (tune waits g).dsa_min_size := by
  unfold tune
  split_ifs
  · exact dsa_wait_and_adjust_min_size_pos waits g hg
  · exact hg

theorem chunk_result_stable (h : Hw) (w : World) (d : Desc) (cpu : Nat) (m1 : Mem)
    (ev : List Event) : Stable w (chunk_result h w d cpu m1 ev) := by
  unfold chunk_result
  split_ifs
  · exact ⟨rfl, rfl, tune_fraction_lt _ _, tune_min_size_pos _ _⟩
  · exact ⟨rfl, rfl, id, id⟩

theorem dto_memset_loop_stable (hw : Nat → Hw) (s : Nat) (c : Int) (threshold fs : Nat)
    (w0 : World) : ∀ (fuel n : Nat) (w w' : World), Stable w0 w →
      dto_memset_loop hw s c threshold fs fuel n w = some w' → Stable w0 w' := by
  apply dto_memset_loop_induct hw s c threshold fs (fun _ w => Stable w0 w) (fun w => Stable w0 w)
  intro n w hst
  have h1 : Stable w0 (dto_memset_chunk (hw w.ndesc) s c threshold fs n w) := by
    rw [dto_memset_chunk_eq]
    exact hst.trans (chunk_result_stable _ _ _ _ _ _)
  exact ⟨fun _ => h1, fun _ _ => h1⟩

theorem dto_memcpymove_loop_stable (hw : Nat → Hw) (dest src : Nat) (is_memcpy : Bool)
    (threshold : Nat) (w0 : World) : ∀ (fuel n : Nat) (w w' : World), Stable w0 w →
      dto_memcpymove_loop hw dest src is_memcpy threshold fuel n w = some w' → Stable w0 w' := by
  apply dto_memcpymove_loop_induct hw dest src is_memcpy threshold (fun _ w => Stable w0 w)
    (fun w => Stable w0 w)
  intro n w hst
  have h1 : Stable w0 (dto_memcpymove_chunk (hw w.ndesc) dest src is_memcpy threshold n w) := by
    rw [dto_memcpymove_chunk_eq]
    exact hst.trans (chunk_result_stable _ _ _ _ _ _)
  exact ⟨fun _ => h1, fun _ _ => h1⟩

theorem memset_stable (hw : Nat → Hw) (wq : dto_wq) (fuel : Nat) (s : Nat) (c : Int) (n : Nat)
    (w : World) (ret : Nat) (w' : World) (hrun : memset hw wq fuel s c n w = some (ret, w')) :
    Stable w w' := by
  unfold memset at hrun
  dsimp only at hrun
  split_ifs at hrun with hi hu
  · cases hrun
    exact ⟨rfl, rfl, id, id⟩
  · cases hd : dto_memset hw wq fuel s c n { w with result := 0 } with
    | none => simp [hd] at hrun
    | some w1 =>
      have hst : Stable w w1 := by
        rw [dto_memset_eq] at hd
        have h0 : Stable w (memset_start s c { w with result := 0 }) := ⟨rfl, rfl, id, id⟩
        split_ifs at hd
        · cases hd
          rw [dto_memset_chunk_eq]
          exact h0.trans (chunk_result_stable _ _ _ _ _ _)
        · exact dto_memset_loop_stable hw s c _ _ w fuel n _ w1 h0 hd
      simp only [hd] at hrun
      split_ifs at hrun
      · cases hrun
        exact hst.trans ⟨rfl, rfl, id, id⟩
      · cases hrun
        exact hst
  · cases hrun
    exact ⟨rfl, rfl, id, id⟩

theorem memcpy_stable (hw : Nat → Hw) (wq : dto_wq) (fuel dest src n : Nat)
    (w : World) (ret : Nat) (w' : World) (hrun : memcpy hw wq fuel dest src n w = some (ret, w')) :
    Stable w w' := by
  unfold memcpy at hrun
  dsimp only at hrun
  split_ifs at hrun with hi hu
  · unfold dto_internal_memcpymove at hrun
    split_ifs at hrun <;> cases hrun <;> exact ⟨rfl, rfl, id, id⟩
  · cases hd : dto_memcpymove hw wq fuel dest src n true { w with result := 0 } with
    | none => simp [hd] at hrun
    | some w1 =>
      have hst : Stable w w1 := by
        rw [dto_memcpymove_eq] at hd
        have h0 : Stable w (copy_start dest { w with result := 0 }) := ⟨rfl, rfl, id, id⟩
        split_ifs at hd
        · cases hd
          rw [dto_memcpymove_chunk_eq]
          exact h0.trans (chunk_result_stable _ _ _ _ _ _)
        · exact dto_memcpymove_loop_stable hw dest src true _ w fuel n _ w1 h0 hd
      simp only [hd] at hrun
      cases hrun
      refine hst.trans ?_
      unfold finish_copy orig_copy orig_memcpy World.log
      split_ifs <;> exact ⟨rfl, rfl, id, id⟩
  · cases hrun
    exact ⟨rfl, rfl, id, id⟩

theorem dsa_execute_loop_eq (h : Hw) : ∀ (k r : Nat) (w : World),
    dsa_execute_loop h r k w =
      if enq_result h r k = SUCCESS then
        wait_and_classify h { w with
          trace := w.trace ++ enq_events h w.thr_desc r k
          enq_status := w.enq_status ++ List.replicate (enq_count h r k) w.thr_comp.status }
      else { w with
          result := RETRIES
          trace := w.trace ++ enq_events h w.thr_desc r k
          enq_status := w.enq_status ++ List.replicate (enq_count h r k) w.thr_comp.status } := by
  intro k
  induction k with
  | zero =>
    intro r w
    simp [dsa_execute_loop, enq_result, enq_events, enq_count, RETRIES, SUCCESS]
  | succ k ih =>
    intro r w
    by_cases hr : h.retry r = false
    · simp [dsa_execute_loop, enq_result, enq_events, enq_count, hr, World.log, World.enq]
    · simp [dsa_execute_loop, enq_result, enq_events, enq_count, hr, World.log, World.enq, ih,
        List.replicate_succ]

theorem dsa_execute_eq (h : Hw) (w : World) :
    { dsa_execute h w with ndesc := (dsa_execute h w).ndesc + 1 } =
      chunk_result h w w.thr_desc 0 w.mem [] := by
  unfold dsa_execute chunk_result
  rw [dsa_execute_loop_eq]
  split_ifs with hS
  · simp [wait_and_classify_eq]
  · rfl

theorem dto_memcmp_loop_succ (hw : Nat → Hw) (wq : dto_wq) (s1 s2 fuel n : Nat) (w : World) :
    dto_memcmp_loop hw wq s1 s2 (fuel + 1) n w =
      if (dto_memcmp_chunk (hw w.ndesc) wq s1 s2 n w).result ≠ SUCCESS ∨
          (dto_memcmp_chunk (hw w.ndesc) wq s1 s2 n w).thr_comp.result ≠ 0 then
        some (dto_memcmp_chunk (hw w.ndesc) wq s1 s2 n w)
      else if (dto_memcmp_chunk (hw w.ndesc) wq s1 s2 n w).g.dsa_min_size ≤
          n - chunk_len n wq.max_transfer_size then
        dto_memcmp_loop hw wq s1 s2 fuel (n - chunk_len n wq.max_transfer_size)
          (dto_memcmp_chunk (hw w.ndesc) wq s1 s2 n w)
      else some (dto_memcmp_chunk (hw w.ndesc) wq s1 s2 n w) := by
  have e : dto_memcmp_chunk (hw w.ndesc) wq s1 s2 n w =
      { dsa_execute (hw w.ndesc)
          { w with thr_desc := compare_desc s1 s2 (chunk_len n wq.max_transfer_size) w } with
        ndesc := (dsa_execute (hw w.ndesc)
          { w with thr_desc := compare_desc s1 s2 (chunk_len n wq.max_transfer_size) w }).ndesc
            + 1 } := by
    rw [dsa_execute_eq]
    rfl
  rw [e]
  rfl

theorem dto_memcmp_loop_induct (hw : Nat → Hw) (wq : dto_wq) (s1 s2 : Nat)
    (P : Nat → World → Prop) (Q : World → Prop)
    (step : ∀ n w, P n w →
      Q (dto_memcmp_chunk (hw w.ndesc) wq s1 s2 n w) ∧
      ((dto_memcmp_chunk (hw w.ndesc) wq s1 s2 n w).result = SUCCESS →
        (dto_memcmp_chunk (hw w.ndesc) wq s1 s2 n w).g.dsa_min_size ≤
          n - chunk_len n wq.max_transfer_size →
        P (n - chunk_len n wq.max_transfer_size) (dto_memcmp_chunk (hw w.ndesc) wq s1 s2 n w))) :
    ∀ (fuel n : Nat) (w w' : World), P n w →
      dto_memcmp_loop hw wq s1 s2 fuel n w = some w' → Q w' := by
  intro fuel
  induction fuel with
  | zero => intro n w w' _ h; simp [dto_memcmp_loop] at h
  | succ fuel ih =>
    intro n w w' hP h
    obtain ⟨h1, h2⟩ := step n w hP
    rw [dto_memcmp_loop_succ] at h
    split_ifs at h with ha hb
    · cases h
      exact h1
    · have hr : (dto_memcmp_chunk (hw w.ndesc) wq s1 s2 n w).result = SUCCESS := by
        by_contra hne
        exact ha (Or.inl hne)
      exact ih _ _ _ (h2 hr hb) h
    · cases h
      exact h1

theorem firstDiff_none (m : Mem) (a b : Nat) : ∀ (k i : Nat),
    (∀ j, j < k → m (a + (i + j)) = m (b + (i + j))) → firstDiff m a b i k = none := by
  intro k
  induction k with
  | zero => intro i _; rfl
  | succ k ih =>
    intro i h
    unfold firstDiff
    have h0 := h 0 (by omega)
    rw [Nat.add_zero] at h0
    rw [if_neg (by simpa using h0)]
    apply ih
    intro j hj
    have := h (j + 1) (by omega)
    have e : i + (j + 1) = i + 1 + j := by omega
    rw [e] at this
    exact this

theorem firstDiff_equal (m : Mem) (s1 s2 N p k : Nat) (heq : EqualRanges m s1 s2 N)
    (hk : p + k ≤ N) : firstDiff m (s1 + p) (s2 + p) 0 k = none := by
  apply firstDiff_none
  intro j hj
  have := heq (p + j) (by omega)
  simpa [Nat.add_assoc] using this

theorem wait_credit_le_xfer (h : Hw) (d : Desc) (m : Mem) : wait_credit h d m ≤ d.xfer_size := by
  unfold wait_credit deviceComp devBytes
  by_cases h1 : h.status = DSA_COMP_SUCCESS
  · simp [h1]
  · by_cases h2 : h.status &&& DSA_COMP_STATUS_MASK = DSA_COMP_PAGE_FAULT_NOBOF
    · cases d.opcode <;> simp [h1, h2]
    · simp [h1, h2]

theorem dto_memcmp_chunk_equal (h : Hw) (wq : dto_wq) (s1 s2 n N : Nat) (m0 : Mem) (w : World)
    (heq : EqualRanges m0 s1 s2 N) (hn : w.thr_bytes_completed + n ≤ N)
    (hst : CompareState m0 N w) :
    CompareState m0 N (dto_memcmp_chunk h wq s1 s2 n w) ∧
    (dto_memcmp_chunk h wq s1 s2 n w).thr_bytes_completed ≤
      w.thr_bytes_completed + chunk_len n wq.max_transfer_size := by
  obtain ⟨hop, hmem, hb, hres⟩ := hst
  have hl := chunk_len_le n wq.max_transfer_size
  have hmod : chunk_len n wq.max_transfer_size % 2 ^ 32 ≤ chunk_len n wq.max_transfer_size :=
    Nat.mod_le _ _
  have hcr := wait_credit_le_xfer h (compare_desc s1 s2 (chunk_len n wq.max_transfer_size) w) w.mem
  have hx : (compare_desc s1 s2 (chunk_len n wq.max_transfer_size) w).xfer_size =
      chunk_len n wq.max_transfer_size % 2 ^ 32 := rfl
  rw [hx] at hcr
  unfold dto_memcmp_chunk chunk_result
  split_ifs with hS
  · refine ⟨⟨hop, ?_, ?_, ?_⟩, ?_⟩
    · simp only [compare_desc, hop, deviceMem]
      exact hmem
    · simp only []
      omega
    · simp only [compare_desc, hop, deviceComp]
      rw [hmem, firstDiff_equal m0 s1 s2 N _ _ heq (by omega)]
      split_ifs <;> rfl
    · simp only []
      omega
  · exact ⟨⟨hop, hmem, hb, hres⟩, by simp only []; omega⟩

theorem dto_memcmp_loop_equal (hw : Nat → Hw) (wq : dto_wq) (s1 s2 N : Nat) (m0 : Mem)
    (heq : EqualRanges m0 s1 s2 N) :
    ∀ (fuel n : Nat) (w w' : World),
      (w.thr_bytes_completed + n ≤ N ∧ CompareState m0 N w) →
      dto_memcmp_loop hw wq s1 s2 fuel n w = some w' → CompareState m0 N w' := by
  apply dto_memcmp_loop_induct
  intro n w ⟨hn, hst⟩
  obtain ⟨h1, h2⟩ := dto_memcmp_chunk_equal (hw w.ndesc) wq s1 s2 n N m0 w heq hn hst
  refine ⟨h1, fun _ _ => ⟨?_, h1⟩⟩
  have := chunk_len_le n wq.max_transfer_size
  omega

theorem dto_memcmp_eq (hw : Nat → Hw) (wq : dto_wq) (fuel s1 s2 n : Nat) (w : World) :
    dto_memcmp hw wq fuel s1 s2 n w =
      match (if n ≤ wq.max_transfer_size then
          some (dto_memcmp_chunk (hw w.ndesc) wq s1 s2 n (compare_start s2 w))
        else dto_memcmp_loop hw wq s1 s2 fuel n (compare_start s2 w)) with
      | none => none
      | some w3 =>
        if w3.thr_comp.result ≠ 0 then
          some ((w3.mem (s1 + w3.thr_bytes_completed) : Int) -
            (w3.mem (s2 + w3.thr_bytes_completed) : Int), { w3 with thr_bytes_completed := n })
        else some (0, w3) := by
  unfold dto_memcmp
  dsimp only
  by_cases hc : n ≤ wq.max_transfer_size
  · have e : dto_memcmp_chunk (hw w.ndesc) wq s1 s2 n (compare_start s2 w) =
        { dsa_execute (hw w.ndesc)
            { compare_start s2 w with thr_desc := compare_desc s1 s2 n (compare_start s2 w) } with
          ndesc := (dsa_execute (hw w.ndesc)
            { compare_start s2 w with
              thr_desc := compare_desc s1 s2 n (compare_start s2 w) }).ndesc + 1 } := by
      rw [dsa_execute_eq]
      unfold dto_memcmp_chunk chunk_len
      rw [if_pos hc]
      rfl
    simp only [hc, if_true, e]
    rfl
  · simp only [hc, if_false]
    rfl

theorem cmpBytes_equal (m : Mem) (s1 s2 N p : Nat) (heq : EqualRanges m s1 s2 N) (hp : p ≤ N) :
    cmpBytes m (s1 + p) (s2 + p) (N - p) = 0 := by
  unfold cmpBytes
  rw [firstDiff_equal m s1 s2 N p (N - p) heq (by omega)]

theorem dto_internal_memcmp_loop_equal (m : Mem) (s1 s2 : Nat) : ∀ (k i : Nat),
    (∀ j, j < k → m (s1 + (i + j)) = m (s2 + (i + j))) →
    dto_internal_memcmp_loop m s1 s2 i k = 0 := by
  intro k
  induction k with
  | zero => intro i _; rfl
  | succ k ih =>
    intro i h
    unfold dto_internal_memcmp_loop
    have h0 := h 0 (by omega)
    rw [Nat.add_zero] at h0
    rw [if_neg (by simpa using h0)]
    apply ih
    intro j hj
    have := h (j + 1) (by omega)
    have e : i + (j + 1) = i + 1 + j := by omega
    rw [e] at this
    exact this

theorem memcmp_equal (hw : Nat → Hw) (wq : dto_wq) (fuel s1 s2 n : Nat) (w : World) (r : Int)
    (w' : World) (heq : EqualRanges w.mem s1 s2 n)
    (hrun : memcmp hw wq fuel s1 s2 n w = some (r, w')) : r = 0 := by
  have hall : cmpBytes w.mem s1 s2 n = 0 := by
    have := cmpBytes_equal w.mem s1 s2 n 0 heq (Nat.zero_le _)
    simpa using this
  unfold memcmp at hrun
  dsimp only at hrun
  split_ifs at hrun with hi hu
  · simp only [dto_internal_memcmp, Option.some.injEq, Prod.mk.injEq] at hrun
    rw [← hrun.1]
    apply dto_internal_memcmp_loop_equal
    intro j hj
    simpa using heq j hj
  · rw [dto_memcmp_eq] at hrun
    have h0 : CompareState w.mem n (compare_start s2 { w with result := 0 }) :=
      ⟨rfl, rfl, Nat.zero_le _, rfl⟩
    have hb0 : (compare_start s2 { w with result := 0 }).thr_bytes_completed + n ≤ n := by
      simp [compare_start]
    have key : ∀ w3, (if n ≤ wq.max_transfer_size then
          some (dto_memcmp_chunk (hw ({ w with result := 0 } : World).ndesc) wq s1 s2 n
            (compare_start s2 { w with result := 0 }))
        else dto_memcmp_loop hw wq s1 s2 fuel n (compare_start s2 { w with result := 0 })) =
          some w3 → CompareState w.mem n w3 := by
      intro w3 h3
      split_ifs at h3
      · cases h3
        exact (dto_memcmp_chunk_equal _ wq s1 s2 n n w.mem _ heq hb0 h0).1
      · exact dto_memcmp_loop_equal hw wq s1 s2 n w.mem heq fuel n _ w3 ⟨hb0, h0⟩ h3
    generalize (if n ≤ wq.max_transfer_size then
          some (dto_memcmp_chunk (hw ({ w with result := 0 } : World).ndesc) wq s1 s2 n
            (compare_start s2 { w with result := 0 }))
        else dto_memcmp_loop hw wq s1 s2 fuel n (compare_start s2 { w with result := 0 })) = o
      at hrun key
    cases o with
    | none => simp at hrun
    | some w3 =>
      obtain ⟨_, hmem, hb, hres⟩ := key w3 rfl
      simp only [hres, ne_eq, not_true_eq_false, if_false] at hrun
      split_ifs at hrun with hne
      · simp only [Option.some.injEq, Prod.mk.injEq] at hrun
        exact hrun.1.symm
      · simp only [orig_memcmp, Option.some.injEq, Prod.mk.injEq] at hrun
        rw [← hrun.1, hmem]
        exact cmpBytes_equal w.mem s1 s2 n _ heq hb
  · simp only [orig_memcmp, Option.some.injEq, Prod.mk.injEq] at hrun
    rw [← hrun.1]
    exact hall

theorem chunk_len_pos (n threshold : Nat) (hn : 1 ≤ n) (ht : 1 ≤ threshold) :
    1 ≤ chunk_len n threshold := by
  unfold chunk_len; split_ifs <;> omega

theorem threshold_pos (M f : Nat) (hM : 1 ≤ M) (hM2 : M * 100 < 2 ^ 32) (hf : f < 100) :
    1 ≤ (M * 100 / (100 - f)) % 2 ^ 32 := by
  have h1 : M * 100 / (100 - f) ≤ M * 100 := Nat.div_le_self _ _
  have h2 : M ≤ M * 100 / (100 - f) := by
    rw [Nat.le_div_iff_mul_le (by omega)]
    exact Nat.mul_le_mul_left M (by omega)
  rw [Nat.mod_eq_of_lt (by omega)]
  omega

theorem dto_memset_loop_isSome (hw : Nat → Hw) (s : Nat) (c : Int) (threshold fs : Nat)
    (hth : 1 ≤ threshold) : ∀ (fuel n : Nat) (w : World), n < fuel → 1 ≤ n →
      1 ≤ w.g.dsa_min_size → (dto_memset_loop hw s c threshold fs fuel n w).isSome = true := by
  intro fuel
  induction fuel with
  | zero => intro n w h; omega
  | succ fuel ih =>
    intro n w hfuel hn hg
    unfold dto_memset_loop
    dsimp only
    have hg1 : 1 ≤ (dto_memset_chunk (hw w.ndesc) s c threshold fs n w).g.dsa_min_size := by
      rw [dto_memset_chunk_eq]
      exact (chunk_result_stable _ _ _ _ _ _).2.2.2 hg
    have hl := chunk_len_pos n threshold hn hth
    unfold chunk_len at hl
    generalize (if n ≤ threshold then n else threshold) = len at hl ⊢
    generalize dto_memset_chunk (hw w.ndesc) s c threshold fs n w = w1 at hg1 ⊢
    by_cases h1 : w1.result ≠ SUCCESS
    · rw [if_pos h1]; rfl
    · rw [if_neg h1]
      by_cases h2 : w1.g.dsa_min_size ≤ n - len
      · rw [if_pos h2]
        exact ih _ _ (by omega) (by omega) hg1
      · rw [if_neg h2]; rfl

theorem dto_memcpymove_loop_isSome (hw : Nat → Hw) (dest src : Nat) (is_memcpy : Bool)
    (threshold : Nat) (hth : 1 ≤ threshold) : ∀ (fuel n : Nat) (w : World), n < fuel → 1 ≤ n →
      1 ≤ w.g.dsa_min_size →
      (dto_memcpymove_loop hw dest src is_memcpy threshold fuel n w).isSome = true := by
  intro fuel
  induction fuel with
  | zero => intro n w h; omega
  | succ fuel ih =>
    intro n w hfuel hn hg
    unfold dto_memcpymove_loop
    dsimp only
    have hg1 : 1 ≤ (dto_memcpymove_chunk (hw w.ndesc) dest src is_memcpy threshold n
        w).g.dsa_min_size := by
      rw [dto_memcpymove_chunk_eq]
      exact (chunk_result_stable _ _ _ _ _ _).2.2.2 hg
    have hl := chunk_len_pos n threshold hn hth
    unfold chunk_len at hl
    generalize (if n ≤ threshold then n else threshold) = len at hl ⊢
    generalize dto_memcpymove_chunk (hw w.ndesc) dest src is_memcpy threshold n w = w1 at hg1 ⊢
    by_cases h1 : w1.result ≠ SUCCESS
    · rw [if_pos h1]; rfl
    · rw [if_neg h1]
      by_cases h2 : w1.g.dsa_min_size ≤ n - len
      · rw [if_pos h2]
        exact ih _ _ (by omega) (by omega) hg1
      · rw [if_neg h2]; rfl

theorem dto_memcmp_loop_isSome (hw : Nat → Hw) (wq : dto_wq) (s1 s2 : Nat)
    (hM : 1 ≤ wq.max_transfer_size) : ∀ (fuel n : Nat) (w : World), n < fuel → 1 ≤ n →
      1 ≤ w.g.dsa_min_size → (dto_memcmp_loop hw wq s1 s2 fuel n w).isSome = true := by
  intro fuel
  induction fuel with
  | zero => intro n w h; omega
  | succ fuel ih =>
    intro n w hfuel hn hg
    rw [dto_memcmp_loop_succ]
    have hg1 : 1 ≤ (dto_memcmp_chunk (hw w.ndesc) wq s1 s2 n w).g.dsa_min_size :=
      (chunk_result_stable _ _ _ _ _ _).2.2.2 hg
    have hl := chunk_len_pos n wq.max_transfer_size hn hM
    split_ifs with h1 h2
    · rfl
    · exact ih _ _ (by omega) (by omega) hg1
    · rfl

theorem memset_isSome (hw : Nat → Hw) (wq : dto_wq) (fuel : Nat) (s : Nat) (c : Int) (n : Nat)
    (w : World) (hfuel : n < fuel) (hM : 1 ≤ wq.max_transfer_size)
    (hM2 : wq.max_transfer_size * 100 < 2 ^ 32) (hf : w.g.cpu_size_fraction < 100)
    (hg : 1 ≤ w.g.dsa_min_size) : (memset hw wq fuel s c n w).isSome = true := by
  unfold memset
  dsimp only
  split_ifs with hi hu
  · rfl
  · have : (dto_memset hw wq fuel s c n { w with result := 0 }).isSome = true := by
      rw [dto_memset_eq]
      split_ifs with hc
      · rfl
      · exact dto_memset_loop_isSome hw s c _ _ (threshold_pos _ _ hM hM2 hf) fuel n _ hfuel
          (by simp only [not_le] at hc; omega) hg
    cases hd : dto_memset hw wq fuel s c n { w with result := 0 } with
    | none => rw [hd] at this; exact absurd this (by simp)
    | some w1 =>
      simp only []
      split_ifs <;> rfl
  · rfl

theorem memcpy_isSome (hw : Nat → Hw) (wq : dto_wq) (fuel dest src n : Nat)
    (w : World) (hfuel : n < fuel) (hM : 1 ≤ wq.max_transfer_size)
    (hM2 : wq.max_transfer_size * 100 < 2 ^ 32) (hf : w.g.cpu_size_fraction < 100)
    (hg : 1 ≤ w.g.dsa_min_size) : (memcpy hw wq fuel dest src n w).isSome = true := by
  unfold memcpy
  dsimp only
  split_ifs with hi hu
  · rfl
  · have : (dto_memcpymove hw wq fuel dest src n true { w with result := 0 }).isSome = true := by
      rw [dto_memcpymove_eq]
      split_ifs with hc
      · rfl
      · exact dto_memcpymove_loop_isSome hw dest src true _ (threshold_pos _ _ hM hM2 hf) fuel n _
          hfuel (by simp only [not_le] at hc; omega) hg
    cases hd : dto_memcpymove hw wq fuel dest src n true { w with result := 0 } with
    | none => rw [hd] at this; exact absurd this (by simp)
    | some w1 => rfl
  · rfl

theorem memcmp_isSome (hw : Nat → Hw) (wq : dto_wq) (fuel s1 s2 n : Nat)
    (w : World) (hfuel : n < fuel) (hM : 1 ≤ wq.max_transfer_size)
    (hg : 1 ≤ w.g.dsa_min_size) : (memcmp hw wq fuel s1 s2 n w).isSome = true := by
  unfold memcmp
  dsimp only
  split_ifs with hi hu
  · rfl
  · have : (dto_memcmp hw wq fuel s1 s2 n { w with result := 0 }).isSome = true := by
      rw [dto_memcmp_eq]
      have h2 : (if n ≤ wq.max_transfer_size then
          some (dto_memcmp_chunk (hw ({ w with result := 0 } : World).ndesc) wq s1 s2 n
            (compare_start s2 { w with result := 0 }))
        else dto_memcmp_loop hw wq s1 s2 fuel n
          (compare_start s2 { w with result := 0 })).isSome = true := by
        split_ifs with hc
        · rfl
        · exact dto_memcmp_loop_isSome hw wq s1 s2 hM fuel n _ hfuel
            (by simp only [not_le] at hc; omega) hg
      generalize (if n ≤ wq.max_transfer_size then
          some (dto_memcmp_chunk (hw ({ w with result := 0 } : World).ndesc) wq s1 s2 n
            (compare_start s2 { w with result := 0 }))
        else dto_memcmp_loop hw wq s1 s2 fuel n (compare_start s2 { w with result := 0 })) = o
        at h2 ⊢
      cases o with
      | none => exact absurd h2 (by simp)
      | some w3 =>
        simp only []
        split_ifs <;> rfl
    cases hd : dto_memcmp hw wq fuel s1 s2 n { w with result := 0 } with
    | none => rw [hd] at this; exact absurd this (by simp)
    | some p =>
      obtain ⟨ret, w1⟩ := p
      simp only []
      split_ifs <;> rfl
  · rfl

theorem fill_copy_equal (hw : Nat → Hw) (wq : dto_wq) (fuel s d : Nat) (c : Int) (n : Nat)
    (w : World) (r1 : Nat) (w1 : World) (r2 : Nat) (w2 : World)
    (hdis : d + n ≤ s ∨ s + n ≤ d) (hfw : ForwardDevice hw) (hf : w.g.cpu_size_fraction < 100)
    (hinit : w.dto_initialized = 0 → n ≤ SSIZE_MAX)
    (h1 : memset hw wq fuel s c n w = some (r1, w1))
    (h2 : memcpy hw wq fuel d s n w1 = some (r2, w2)) :
    EqualRanges w2.mem d s n := by
  have hst := memset_stable hw wq fuel s c n w r1 w1 h1
  have hc := (memcpy_copy hw wq fuel d s n w1 r2 w2 hdis hfw (le_of_lt (hst.2.2.1 hf))
    (fun h0 => hinit (hst.1 ▸ h0)) h2).2
  intro i hi
  rw [hc.2.1 i hi]
  exact (hc.2.2 (s + i) (by omega)).symm

/-! ## C5: fill, copy, compare -/

/-- C5: for disjoint `n`-byte buffers `s` and `d`, every `n` and `c`, and an
accelerator that reports partial moves from the start of the buffers (in
particular one that completes every descriptor), after `memset(s, c, n)` and
`memcpy(d, s, n)` the call `memcmp(d, s, n)` returns 0 whenever the three calls
return; and they do return, given fuel above `n`, for every configuration with
`dsa_min_size ≥ 1` and a transfer limit `M ≥ 1` with `100 * M < 2^32`. -/
theorem fill_copy_compare (hw : Nat → Hw) (wq : dto_wq) (fuel s d : Nat) (c : Int) (n : Nat)
    (w : World) (hdis : d + n ≤ s ∨ s + n ≤ d) (hfw : ForwardDevice hw)
    (hf : w.g.cpu_size_fraction < 100) (hinit : w.dto_initialized = 0 → n ≤ SSIZE_MAX) :
    (∀ r1 w1 r2 w2 r w3, memset hw wq fuel s c n w = some (r1, w1) →
      memcpy hw wq fuel d s n w1 = some (r2, w2) →
      memcmp hw wq fuel d s n w2 = some (r, w3) → r = 0) ∧
    (n < fuel → 1 ≤ w.g.dsa_min_size → 1 ≤ wq.max_transfer_size →
      wq.max_transfer_size * 100 < 2 ^ 32 →
      ∃ w1 w2 w3, memset hw wq fuel s c n w = some (s, w1) ∧
        memcpy hw wq fuel d s n w1 = some (d, w2) ∧
        memcmp hw wq fuel d s n w2 = some (0, w3)) := by
  have part : ∀ r1 w1 r2 w2 r w3, memset hw wq fuel s c n w = some (r1, w1) →
      memcpy hw wq fuel d s n w1 = some (r2, w2) →
      memcmp hw wq fuel d s n w2 = some (r, w3) → r = 0 := by
    intro r1 w1 r2 w2 r w3 h1 h2 h3
    exact memcmp_equal hw wq fuel d s n w2 r w3
      (fill_copy_equal hw wq fuel s d c n w r1 w1 r2 w2 hdis hfw hf hinit h1 h2) h3
  refine ⟨part, ?_⟩
  intro hfuel hg hM hM2
  have s1 := memset_isSome hw wq fuel s c n w hfuel hM hM2 hf hg
  cases e1 : memset hw wq fuel s c n w with
  | none => rw [e1] at s1; exact absurd s1 (by simp)
  | some p1 =>
    obtain ⟨r1, w1⟩ := p1
    have hr1 := (memset_fill hw wq fuel s c n w r1 w1 (le_of_lt hf) e1).1
    have hst1 := memset_stable hw wq fuel s c n w r1 w1 e1
    have s2 := memcpy_isSome hw wq fuel d s n w1 hfuel hM hM2 (hst1.2.2.1 hf) (hst1.2.2.2 hg)
    cases e2 : memcpy hw wq fuel d s n w1 with
    | none => rw [e2] at s2; exact absurd s2 (by simp)
    | some p2 =>
      obtain ⟨r2, w2⟩ := p2
      have hr2 := (memcpy_copy hw wq fuel d s n w1 r2 w2 hdis hfw (le_of_lt (hst1.2.2.1 hf))
        (fun h0 => hinit (hst1.1 ▸ h0)) e2).1
      have hst2 := memcpy_stable hw wq fuel d s n w1 r2 w2 e2
      have s3 := memcmp_isSome hw wq fuel d s n w2 hfuel hM (hst2.2.2.2 (hst1.2.2.2 hg))
      cases e3 : memcmp hw wq fuel d s n w2 with
      | none => rw [e3] at s3; exact absurd s3 (by simp)
      | some p3 =>
        obtain ⟨r, w3⟩ := p3
        have hr := part r1 w1 r2 w2 r w3 e1 e2 e3
        subst hr1 hr2 hr
        exact ⟨w1, w2, w3, rfl, e2, e3⟩

/-- C5 at the input of the stress test: buffers of 131072 bytes, fill byte
`'a'`, default configuration and an accelerator that completes every
descriptor. -/
theorem fill_copy_compare_witness :
    (8388608 + 131072 ≤ 4194304 ∨ 4194304 + 131072 ≤ 8388608) ∧
    ForwardDevice hw_success ∧ (world_default id).g.cpu_size_fraction < 100 ∧
    ∃ w1 w2 w3,
      memset hw_success ⟨131072⟩ 131073 4194304 97 131072 (world_default id) =
        some (4194304, w1) ∧
      memcpy hw_success ⟨131072⟩ 131073 8388608 4194304 131072 w1 = some (8388608, w2) ∧
      memcmp hw_success ⟨131072⟩ 131073 8388608 4194304 131072 w2 = some (0, w3) :=
  ⟨by decide, fun _ => rfl, by decide,
    (fill_copy_compare hw_success ⟨131072⟩ 131073 4194304 8388608 97 131072 (world_default id)
      (by decide) (fun _ => rfl) (by decide) (by decide)).2 (by decide) (by decide) (by decide)
      (by decide)⟩

theorem init_knobs_flags (env : Env) (w : World) :
    (init_auto_adjust env (init_cpu_size_fraction env (init_min_bytes env w))).use_std_lib_calls =
      w.use_std_lib_calls := by
  unfold init_auto_adjust init_cpu_size_fraction init_min_bytes
  rcases env.DTO_MIN_BYTES with _ | ⟨v1, e1⟩ <;>
    rcases env.DTO_CPU_SIZE_FRACTION with _ | ⟨v2, e2⟩ <;>
    rcases env.DTO_AUTO_ADJUST_KNOBS with _ | ⟨v3, e3⟩ <;> rfl

theorem dsa_init_flags (env : Env) (w : World) :
    (dsa_init env w).1 = !env.probe_ok ∧
    (dsa_init env w).2.use_std_lib_calls = w.use_std_lib_calls := by
  unfold dsa_init
  rcases env.DTO_WAIT_METHOD with _ | str
  · exact ⟨rfl, rfl⟩
  · dsimp only
    split_ifs <;> exact ⟨rfl, rfl⟩

theorem init_dsa_flag (env : Env) (w : World) :
    (init_dsa env w).use_std_lib_calls =
      if w.use_std_lib_calls = 0 then (if env.probe_ok = true then 0 else 1)
      else w.use_std_lib_calls := by
  unfold init_dsa
  by_cases h0 : w.use_std_lib_calls = 0
  · rw [if_pos h0, if_pos h0]
    dsimp only
    obtain ⟨h1, h2⟩ := dsa_init_flags env
      (init_auto_adjust env (init_cpu_size_fraction env (init_min_bytes env w)))
    rw [h1]
    cases hp : env.probe_ok
    · simp
    · simp [h2, init_knobs_flags, h0]
  · rw [if_neg h0, if_neg h0]

theorem init_dto_sets_cpu_only (env : Env) (m : Mem)
    (h : env.pthread_atfork_ok = false ∨ env.probe_ok = false ∨
      ∃ v, env.DTO_USESTDC_CALLS = some (v, false) ∧ v % 256 ≠ 0) :
    (init_dto env (World.static m)).use_std_lib_calls = 1 := by
  have hfork : ∀ w : World, w.fork_handler_registered = 0 →
      (env.pthread_atfork_ok = false ∨ w.use_std_lib_calls = 1) →
      (init_fork_handler env w).use_std_lib_calls = 1 := by
    intro w hw hor
    unfold init_fork_handler
    rw [if_pos hw]
    cases hp : env.pthread_atfork_ok
    · rfl
    · rcases hor with h1 | h1
      · rw [hp] at h1; cases h1
      · simpa using h1
  have hstd : (init_usestdc env { World.static m with dto_initializing := 1 }
      ).fork_handler_registered = 0 := by
    unfold init_usestdc
    rcases env.DTO_USESTDC_CALLS with _ | ⟨v, e⟩ <;> rfl
  have hflag01 : ∀ w : World, w.use_std_lib_calls = 0 ∨ w.use_std_lib_calls = 1 →
      (init_fork_handler env w).use_std_lib_calls = 0 ∨
        (init_fork_handler env w).use_std_lib_calls = 1 := by
    intro w hw
    unfold init_fork_handler
    split_ifs
    · exact hw
    · right; rfl
    · exact hw
  have hstd01 : (init_usestdc env { World.static m with dto_initializing := 1 }
      ).use_std_lib_calls = 0 ∨ (init_usestdc env { World.static m with dto_initializing := 1 }
      ).use_std_lib_calls = 1 := by
    unfold init_usestdc
    rcases env.DTO_USESTDC_CALLS with _ | ⟨v, e⟩
    · left; rfl
    · dsimp only
      split_ifs <;> simp
  unfold init_dto
  have hz : (World.static m).dto_initializing = 0 := rfl
  rw [if_pos hz]
  dsimp only
  rw [init_dsa_flag]
  rcases h with h | h | ⟨v, h, hv⟩
  · rw [hfork _ hstd (Or.inl h)]
    simp
  · rcases hflag01 _ hstd01 with h0 | h1
    · rw [if_pos h0, h]
      simp
    · rw [h1]
      simp
  · have : (init_usestdc env { World.static m with dto_initializing := 1 }
        ).use_std_lib_calls = 1 := by
      unfold init_usestdc
      rw [h]
      simp [hv]
    rw [hfork _ hstd (Or.inr this)]
    simp

/-! ## C8: the CPU-only gate -/

/-- C8: once the library is initialized, if `use_std_lib_calls` is set or
`n < dsa_min_size`, each entry point only calls the saved original routine,
once and with the caller's arguments: the result state is that of the original
routine, whose only logged action is that call (no work queue is selected, no
descriptor is enqueued); `memset`, `memcpy` and `memmove` return the
destination pointer and `memcmp` the original routine's result.  The flag is
set by initialization when the fork hook cannot be registered, when probing
finds no usable work queue, or when `DTO_USESTDC_CALLS` holds a value whose low
byte is not zero. -/
theorem cpu_only_gate (hw : Nat → Hw) (wq : dto_wq) (fuel a b : Nat) (c : Int) (n : Nat)
    (w : World) (hinit : w.dto_initialized ≠ 0)
    (hgate : w.use_std_lib_calls = 1 ∨ n < w.g.dsa_min_size) :
    (memset hw wq fuel a c n w = some (a, orig_memset a c n w) ∧
      (orig_memset a c n w).trace = w.trace ++ [Event.orig_memset a c n]) ∧
    (memcpy hw wq fuel a b n w = some (a, orig_memcpy a b n w) ∧
      (orig_memcpy a b n w).trace = w.trace ++ [Event.orig_memcpy a b n]) ∧
    (memmove hw wq fuel a b n w = some (a, orig_memmove a b n w) ∧
      (orig_memmove a b n w).trace = w.trace ++ [Event.orig_memmove a b n]) ∧
    (memcmp hw wq fuel a b n w = some (orig_memcmp a b n w) ∧
      (orig_memcmp a b n w).2.trace = w.trace ++ [Event.orig_memcmp a b n]) ∧
    (∀ (env : Env) (m : Mem),
      (env.pthread_atfork_ok = false ∨ env.probe_ok = false ∨
        ∃ v, env.DTO_USESTDC_CALLS = some (v, false) ∧ v % 256 ≠ 0) →
      (init_dto env (World.static m)).use_std_lib_calls = 1) := by
  have hu : USE_ORIG_FUNC w n = true := by
    unfold USE_ORIG_FUNC
    rcases hgate with h | h
    · simp [h]
    · simp [h]
  refine ⟨⟨?_, rfl⟩, ⟨?_, rfl⟩, ⟨?_, rfl⟩, ⟨?_, rfl⟩, init_dto_sets_cpu_only⟩
  · simp [memset, hinit, hu]
  · simp [memcpy, hinit, hu]
  · simp [memmove, hinit, hu]
  · simp [memcmp, hinit, hu]

/-- C8 at a concrete input: a request of 100 bytes under the default
configuration, whose minimum offload size is 8192. -/
theorem cpu_only_gate_witness :
    (world_default id).dto_initialized ≠ 0 ∧
    ((world_default id).use_std_lib_calls = 1 ∨ 100 < (world_default id).g.dsa_min_size) ∧
    memcpy hw_success ⟨131072⟩ 0 8192 4096 100 (world_default id) =
      some (8192, orig_memcpy 8192 4096 100 (world_default id)) :=
  ⟨by decide, by decide,
    (cpu_only_gate hw_success ⟨131072⟩ 0 8192 4096 97 100 (world_default id) (by decide)
      (by decide)).2.1.1⟩

theorem dsa_wait_and_adjust_in_range (waits : Nat) (g : Knobs)
    (hg : KnobsInRange g ∧ OnGrid g) :
    KnobsInRange (dsa_wait_and_adjust waits g) ∧ OnGrid (dsa_wait_and_adjust waits g) := by
  obtain ⟨⟨h1, h2, h3⟩, h4⟩ := hg
  unfold KnobsInRange OnGrid at *
  unfold dsa_wait_and_adjust
  dsimp only
  unfold MAX_CPU_SIZE_FRACTION CSF_STEP_INCREMENT CSF_STEP_DECREMENT MAX_DSA_MIN_SIZE
    MIN_DSA_MIN_SIZE DMS_STEP_INCREMENT DMS_STEP_DECREMENT at *
  split_ifs <;> simp only [] <;> omega

theorem wait_for_completion_in_range (waits : Nat) (w : World)
    (hg : KnobsInRange w.g ∧ OnGrid w.g) :
    KnobsInRange (wait_for_completion waits w).g ∧ OnGrid (wait_for_completion waits w).g := by
  unfold wait_for_completion
  split_ifs
  · exact dsa_wait_and_adjust_in_range waits w.g hg
  · exact hg

theorem reachable_in_range (env : Env) (w : World)
    (hinit : ∀ m, KnobsInRange (init_dto env (World.static m)).g ∧
      OnGrid (init_dto env (World.static m)).g)
    (hr : Reachable env w) : KnobsInRange w.g ∧ OnGrid w.g := by
  induction hr with
  | init m => exact hinit m
  | wait w waits _ ih => exact wait_for_completion_in_range waits w ih

theorem reachable_after_waits (env : Env) (m : Mem) : ∀ k,
    Reachable env (after_waits k (init_dto env (World.static m))) := by
  intro k
  induction k with
  | zero => exact Reachable.init m
  | succ k ih =>
    unfold after_waits
    rw [Function.iterate_succ_apply']
    exact Reachable.wait _ 0 ih

/-! ## C7: the range of the tuning knobs -/

set_option maxRecDepth 100000 in
/-- C7 fails as stated: initialization keeps a configured fraction of 0.95 and a
configured `DTO_MIN_BYTES` of 100, both outside the range, and from a
configured `DTO_MIN_BYTES` of 6145, inside the range, 255 waits that never had
to wait lead the tuner to a minimum offload size of 5121. -/
theorem knobs_leave_range :
    (Reachable (env_fraction 95 100) (init_dto (env_fraction 95 100) (World.static id)) ∧
      ¬ KnobsInRange (init_dto (env_fraction 95 100) (World.static id)).g) ∧
    (Reachable (env_min_bytes 100) (init_dto (env_min_bytes 100) (World.static id)) ∧
      ¬ KnobsInRange (init_dto (env_min_bytes 100) (World.static id)).g) ∧
    (Reachable (env_min_bytes 6145)
        (after_waits 255 (init_dto (env_min_bytes 6145) (World.static id))) ∧
      KnobsInRange (init_dto (env_min_bytes 6145) (World.static id)).g ∧
      ¬ KnobsInRange (after_waits 255 (init_dto (env_min_bytes 6145) (World.static id))).g) :=
  ⟨⟨Reachable.init id, fun h => absurd h.1 (by decide)⟩,
    ⟨Reachable.init id, fun h => absurd h.2.1 (by decide)⟩,
    ⟨reachable_after_waits _ id 255, ⟨by decide, by decide, by decide⟩,
      fun h => absurd h.2.1 (by decide)⟩⟩

/-- C7, amended: when the state left by initialization has its fraction at most
0.90 and its minimum offload size in `[6144, 65536]` and a multiple of 1024,
every state reached by any number of waits, each with or without a tuner
adjustment, has `cpu_size_fraction` in `[0, 0.9]` and `dsa_min_size` in
`[6144, 65536]`. -/
theorem knobs_stay_in_range (env : Env) (w : World)
    (hinit : ∀ m, KnobsInRange (init_dto env (World.static m)).g ∧
      OnGrid (init_dto env (World.static m)).g)
    (hr : Reachable env w) :
    w.g.cpu_size_fraction ≤ 90 ∧ 6144 ≤ w.g.dsa_min_size ∧ w.g.dsa_min_size ≤ 65536 :=
  (reachable_in_range env w hinit hr).1

/-- C7, amended, at the default configuration after 255 waits. -/
theorem knobs_stay_in_range_witness :
    (∀ m, KnobsInRange (init_dto env_default (World.static m)).g ∧
      OnGrid (init_dto env_default (World.static m)).g) ∧
    Reachable env_default (after_waits 255 (init_dto env_default (World.static id))) ∧
    (after_waits 255 (init_dto env_default (World.static id))).g.dsa_min_size ≤ 65536 :=
  ⟨fun _ => (by decide : KnobsInRange (init_dto env_default (World.static id)).g ∧
      OnGrid (init_dto env_default (World.static id)).g),
    reachable_after_waits _ id 255,
    (knobs_stay_in_range env_default
      (after_waits 255 (init_dto env_default (World.static id)))
      (fun _ => (by decide : KnobsInRange (init_dto env_default (World.static id)).g ∧
        OnGrid (init_dto env_default (World.static id)).g))
      (reachable_after_waits _ id 255)).2.2⟩

theorem tiles_append (l1 l2 : List (Nat × Nat)) : ∀ (a b c : Nat),
    tiles a l1 b → tiles b l2 c → tiles a (l1 ++ l2) c := by
  induction l1 with
  | nil =>
    intro a b c h1 h2
    simp only [tiles] at h1
    subst h1
    simpa using h2
  | cons r rs ih =>
    intro a b c h1 h2
    simp only [tiles, List.cons_append] at h1 ⊢
    exact ⟨h1.1, ih _ _ _ h1.2 h2⟩

theorem retired_append (t1 t2 : List Event) : retired (t1 ++ t2) = retired t1 ++ retired t2 := by
  unfold retired
  exact List.filterMap_append _ _ _

theorem cpu_bytes_append (t1 t2 : List Event) :
    cpu_bytes (t1 ++ t2) = cpu_bytes t1 + cpu_bytes t2 := by
  unfold cpu_bytes
  rw [List.map_append, List.sum_append]

theorem credited_bytes_append (t1 t2 : List Event) :
    credited_bytes (t1 ++ t2) = credited_bytes t1 + credited_bytes t2 := by
  unfold credited_bytes
  rw [List.map_append, List.sum_append]

theorem enq_events_silent (h : Hw) (d : Desc) : ∀ (k r : Nat),
    retired (enq_events h d r k) = [] ∧ cpu_bytes (enq_events h d r k) = 0 ∧
      credited_bytes (enq_events h d r k) = 0 := by
  intro k
  induction k with
  | zero => intro r; exact ⟨rfl, rfl, rfl⟩
  | succ k ih =>
    intro r
    unfold enq_events
    by_cases hr : h.retry r = false
    · rw [if_pos hr]
      exact ⟨rfl, rfl, rfl⟩
    · rw [if_neg hr]
      obtain ⟨h1, h2, h3⟩ := ih (r + 1)
      refine ⟨?_, ?_, ?_⟩
      · simpa [retired, List.filterMap_cons, Event.region] using h1
      · simpa [cpu_bytes, Event.cpu_len] using h2
      · simpa [credited_bytes, Event.credited] using h3

theorem wait_result_success (h : Hw) (hr : wait_result h = SUCCESS) :
    h.status = DSA_COMP_SUCCESS := by
  unfold wait_result at hr
  by_contra h1
  by_cases h2 : h.status &&& DSA_COMP_STATUS_MASK = DSA_COMP_PAGE_FAULT_NOBOF <;>
    simp [h1, h2, SUCCESS, PAGE_FAULT, FAIL_OTHERS] at hr

theorem completed_region_forward (h : Hw) (d : Desc) (m1 : Mem)
    (hfw : (deviceComp h d m1).result = 0 ∨ wait_result h = SUCCESS) :
    retired [Event.completed d (wait_credit h d m1) (deviceComp h d m1).result] =
      [(d.dst_addr, wait_credit h d m1)] := by
  have e : retired [Event.completed d (wait_credit h d m1) (deviceComp h d m1).result] =
      [(if (deviceComp h d m1).result = 0 then d.dst_addr
        else d.dst_addr + (d.xfer_size - wait_credit h d m1), wait_credit h d m1)] := rfl
  rw [e]
  rcases hfw with hfw | hfw
  · rw [if_pos hfw]
  · have hc : wait_credit h d m1 = d.xfer_size := by
      unfold wait_credit
      rw [if_pos (wait_result_success h hfw)]
    rw [hc, Nat.sub_self, Nat.add_zero, ite_self]

theorem chunk_result_accounted (h : Hw) (w : World) (d : Desc) (cpu : Nat) (m1 : Mem)
    (ev : List Event) (base : Nat) (t0 t : List Event) (htr : w.trace = t0 ++ t)
    (hacc : Accounted base t w.thr_bytes_completed)
    (hd : d.dst_addr = base + cpu + w.thr_bytes_completed)
    (hev : CpuShare ev (base + w.thr_bytes_completed) cpu) :
    ∃ t', (chunk_result h w d cpu m1 ev).trace = t0 ++ t' ∧
      (chunk_result h w d cpu m1 ev).thr_bytes_completed = cpu_bytes t' + credited_bytes t' ∧
      ((deviceComp h d m1).result = 0 ∨ wait_result h = SUCCESS ∨
          enq_result h 0 ENQCMD_MAX_RETRIES ≠ SUCCESS →
        tiles base (retired t') (base + (chunk_result h w d cpu m1 ev).thr_bytes_completed)) := by
  obtain ⟨ht, hsum⟩ := hacc
  obtain ⟨e1, e2, e3⟩ := hev
  obtain ⟨q1, q2, q3⟩ := enq_events_silent h d ENQCMD_MAX_RETRIES 0
  unfold chunk_result
  split_ifs with hS
  · refine ⟨t ++ enq_events h d 0 ENQCMD_MAX_RETRIES ++ ev ++
      [Event.completed d (wait_credit h d m1) (deviceComp h d m1).result], ?_, ?_, ?_⟩
    · simp only [htr, List.append_assoc]
    · simp only [cpu_bytes_append, credited_bytes_append, q2, q3, e2, e3]
      have c1 : cpu_bytes [Event.completed d (wait_credit h d m1)
          (deviceComp h d m1).result] = 0 := rfl
      have c2 : credited_bytes [Event.completed d (wait_credit h d m1)
          (deviceComp h d m1).result] = wait_credit h d m1 := by
        simp [credited_bytes, Event.credited]
      rw [c1, c2]
      omega
    · intro hfw
      have hfw2 : (deviceComp h d m1).result = 0 ∨ wait_result h = SUCCESS := by
        rcases hfw with hfw | hfw | hfw
        · exact Or.inl hfw
        · exact Or.inr hfw
        · exact absurd hS hfw
      simp only [retired_append, q1, e1, List.append_nil]
      rw [completed_region_forward h d m1 hfw2, List.append_assoc]
      apply tiles_append _ _ _ _ _ ht
      by_cases hc : cpu = 0
      · subst hc
        simp only [ne_eq, not_true_eq_false, if_false, List.nil_append, tiles]
        rw [hd]
        constructor <;> omega
      · simp only [ne_eq, hc, not_false_eq_true, if_true, List.singleton_append, tiles]
        rw [hd]
        refine ⟨trivial, ?_, ?_⟩ <;> omega
  · refine ⟨t ++ enq_events h d 0 ENQCMD_MAX_RETRIES, ?_, ?_, ?_⟩
    · simp only [htr, List.append_assoc]
    · simp only [cpu_bytes_append, credited_bytes_append, q2, q3]
      omega
    · intro _
      simp only [retired_append, q1, List.append_nil]
      exact ht

theorem chunk_result_bytes_le (h : Hw) (w : World) (d : Desc) (cpu : Nat) (m1 : Mem)
    (ev : List Event) :
    (chunk_result h w d cpu m1 ev).thr_bytes_completed ≤
      w.thr_bytes_completed + cpu + d.xfer_size := by
  have := wait_credit_le_xfer h d m1
  unfold chunk_result
  split_ifs
  · simp only []
    omega
  · simp only []
    omega

theorem chunk_result_comp_result (h : Hw) (w : World) (d : Desc) (cpu : Nat) (m1 : Mem)
    (ev : List Event) (hr : (chunk_result h w d cpu m1 ev).thr_comp.result = 0) :
    (deviceComp h d m1).result = 0 ∨ enq_result h 0 ENQCMD_MAX_RETRIES ≠ SUCCESS := by
  unfold chunk_result at hr
  by_cases hS : enq_result h 0 ENQCMD_MAX_RETRIES = SUCCESS
  · rw [if_pos hS] at hr
    exact Or.inl hr
  · exact Or.inr hS

/-- A chunk keeps the accounting; its regions extend the tiling when the
descriptor is a fill or the chunk succeeds. -/
theorem chunk_result_acc_state (h : Hw) (w : World) (d : Desc) (cpu len : Nat) (m1 : Mem)
    (ev : List Event) (base N : Nat) (t0 : List Event) (hst : AccState base N t0 w)
    (hd : d.dst_addr = base + cpu + w.thr_bytes_completed)
    (hx : cpu + d.xfer_size ≤ len) (hN : w.thr_bytes_completed + len ≤ N)
    (hev : CpuShare ev (base + w.thr_bytes_completed) cpu)
    (hfw : d.opcode = .MEMFILL ∨ (chunk_result h w d cpu m1 ev).result = SUCCESS) :
    AccState base N t0 (chunk_result h w d cpu m1 ev) := by
  obtain ⟨_, hf, t, htr, hacc⟩ := hst
  have hb := chunk_result_bytes_le h w d cpu m1 ev
  obtain ⟨t', h1, h2, h3⟩ := chunk_result_accounted h w d cpu m1 ev base t0 t htr hacc hd hev
  refine ⟨by omega, chunk_result_fraction_le _ _ _ _ _ _ hf, t', h1, h3 ?_, h2⟩
  rcases hfw with hfw | hfw
  · left
    unfold deviceComp
    rw [hfw]
  · right; left
    exact (chunk_result_success h w d cpu m1 ev hfw).2

theorem chunk_result_acc_post (h : Hw) (w : World) (d : Desc) (cpu len : Nat) (m1 : Mem)
    (ev : List Event) (base N : Nat) (t0 : List Event) (hst : AccState base N t0 w)
    (hd : d.dst_addr = base + cpu + w.thr_bytes_completed)
    (hx : cpu + d.xfer_size ≤ len) (hN : w.thr_bytes_completed + len ≤ N)
    (hev : CpuShare ev (base + w.thr_bytes_completed) cpu) :
    AccPost base N t0 (chunk_result h w d cpu m1 ev) := by
  obtain ⟨_, hf, t, htr, hacc⟩ := hst
  have hb := chunk_result_bytes_le h w d cpu m1 ev
  obtain ⟨t', h1, h2, h3⟩ := chunk_result_accounted h w d cpu m1 ev base t0 t htr hacc hd hev
  refine ⟨by omega, chunk_result_fraction_le _ _ _ _ _ _ hf, t', h1, h2, fun hr => h3 ?_⟩
  rcases chunk_result_comp_result h w d cpu m1 ev hr with hc | hc
  · exact Or.inl hc
  · exact Or.inr (Or.inr hc)

theorem memset_share (a : Nat) (c : Int) (cpu : Nat) :
    CpuShare (if cpu ≠ 0 then [Event.orig_memset a c cpu] else []) a cpu := by
  unfold CpuShare
  by_cases hc : cpu = 0
  · subst hc
    exact ⟨rfl, rfl, rfl⟩
  · simp only [ne_eq, hc, not_false_eq_true, if_true]
    exact ⟨rfl, by simp [cpu_bytes, Event.cpu_len], rfl⟩

theorem copy_share (is_memcpy : Bool) (a b cpu : Nat) :
    CpuShare (copy_events is_memcpy a b cpu) a cpu := by
  unfold CpuShare copy_events
  by_cases hc : cpu = 0
  · subst hc
    exact ⟨rfl, rfl, rfl⟩
  · simp only [ne_eq, hc, not_false_eq_true, if_true]
    cases is_memcpy
    · exact ⟨rfl, by simp [cpu_bytes, Event.cpu_len], rfl⟩
    · exact ⟨rfl, by simp [cpu_bytes, Event.cpu_len], rfl⟩

theorem dto_memset_chunk_acc (h : Hw) (s : Nat) (c : Int) (threshold fs n N : Nat)
    (t0 : List Event) (w : World) (hfs : fs ≤ 100) (hop : w.thr_desc.opcode = .MEMFILL)
    (hn : w.thr_bytes_completed + n ≤ N) (hst : AccState s N t0 w) :
    AccState s N t0 (dto_memset_chunk h s c threshold fs n w) ∧
    (dto_memset_chunk h s c threshold fs n w).thr_desc.opcode = .MEMFILL ∧
    ((dto_memset_chunk h s c threshold fs n w).result = SUCCESS → threshold < 2 ^ 32 →
      (dto_memset_chunk h s c threshold fs n w).thr_bytes_completed =
        w.thr_bytes_completed + chunk_len n threshold) := by
  rw [dto_memset_chunk_eq h s c threshold fs n w]
  have hl1 := chunk_len_le n threshold
  have hl2 := chunk_len_le_threshold n threshold
  unfold chunk_len at hl1 hl2 ⊢
  generalize (if n ≤ threshold then n else threshold) = len at *
  have hcpu : len * fs / 100 ≤ len := cpu_share_le len fs hfs
  generalize len * fs / 100 = cpu at *
  have hmod : (len - cpu) % 2 ^ 32 ≤ len - cpu := Nat.mod_le _ _
  refine ⟨chunk_result_acc_state _ _ _ _ len _ _ _ _ _ hst rfl (by simp only []; omega)
    (by omega) (memset_share _ _ _) (Or.inl hop), ?_, ?_⟩
  · unfold chunk_result
    split_ifs <;> exact hop
  · intro hr hth
    rw [chunk_result_bytes _ _ _ _ _ _ hr]
    have : (len - cpu) % 2 ^ 32 = len - cpu := Nat.mod_eq_of_lt (by omega)
    simp only [this]
    omega

theorem dto_memcpymove_chunk_acc (h : Hw) (dest src : Nat) (is_memcpy : Bool)
    (threshold n N : Nat) (t0 : List Event) (w : World)
    (hn : w.thr_bytes_completed + n ≤ N) (hst : AccState dest N t0 w) :
    AccPost dest N t0 (dto_memcpymove_chunk h dest src is_memcpy threshold n w) ∧
    ((dto_memcpymove_chunk h dest src is_memcpy threshold n w).result = SUCCESS →
      AccState dest N t0 (dto_memcpymove_chunk h dest src is_memcpy threshold n w)) ∧
    ((dto_memcpymove_chunk h dest src is_memcpy threshold n w).result = SUCCESS →
      threshold < 2 ^ 32 →
      (dto_memcpymove_chunk h dest src is_memcpy threshold n w).thr_bytes_completed =
        w.thr_bytes_completed + chunk_len n threshold) := by
  have hf := hst.2.1
  rw [dto_memcpymove_chunk_eq h dest src is_memcpy threshold n w]
  have hl1 := chunk_len_le n threshold
  have hl2 := chunk_len_le_threshold n threshold
  unfold chunk_len at hl1 hl2 ⊢
  generalize (if n ≤ threshold then n else threshold) = len at *
  have hcpu := copy_cpu_size_le is_memcpy dest src len w.g.cpu_size_fraction hf
  generalize copy_cpu_size is_memcpy dest src len w.g.cpu_size_fraction = cpu at *
  have hmod : (len - cpu) % 2 ^ 32 ≤ len - cpu := Nat.mod_le _ _
  refine ⟨chunk_result_acc_post _ _ _ _ len _ _ _ _ _ hst rfl (by simp only []; omega)
      (by omega) (copy_share _ _ _ _),
    fun hr => chunk_result_acc_state _ _ _ _ len _ _ _ _ _ hst rfl (by simp only []; omega)
      (by omega) (copy_share _ _ _ _) (Or.inr hr), ?_⟩
  intro hr hth
  rw [chunk_result_bytes _ _ _ _ _ _ hr]
  have : (len - cpu) % 2 ^ 32 = len - cpu := Nat.mod_eq_of_lt (by omega)
  simp only [this]
  omega

theorem dto_memset_loop_acc (hw : Nat → Hw) (s : Nat) (c : Int) (threshold fs N : Nat)
    (t0 : List Event) (hfs : fs ≤ 100) (hth : threshold < 2 ^ 32) :
    ∀ (fuel n : Nat) (w w' : World),
      (w.thr_desc.opcode = .MEMFILL ∧ w.thr_bytes_completed + n ≤ N ∧ AccState s N t0 w) →
      dto_memset_loop hw s c threshold fs fuel n w = some w' → AccState s N t0 w' := by
  apply dto_memset_loop_induct
  intro n w ⟨hop, hn, hst⟩
  obtain ⟨h1, h2, h3⟩ :=
    dto_memset_chunk_acc (hw w.ndesc) s c threshold fs n N t0 w hfs hop hn hst
  refine ⟨fun _ => h1, fun hr _ => ⟨h2, ?_, h1⟩⟩
  rw [h3 hr hth]
  have := chunk_len_le n threshold
  unfold chunk_len at this ⊢
  omega

theorem dto_memcpymove_loop_acc (hw : Nat → Hw) (dest src : Nat) (is_memcpy : Bool)
    (threshold N : Nat) (t0 : List Event) (hth : threshold < 2 ^ 32) :
    ∀ (fuel n : Nat) (w w' : World),
      (w.thr_bytes_completed + n ≤ N ∧ AccState dest N t0 w) →
      dto_memcpymove_loop hw dest src is_memcpy threshold fuel n w = some w' →
      AccPost dest N t0 w' := by
  apply dto_memcpymove_loop_induct
  intro n w ⟨hn, hst⟩
  obtain ⟨h1, h2, h3⟩ := dto_memcpymove_chunk_acc (hw w.ndesc) dest src is_memcpy threshold n N
    t0 w hn hst
  refine ⟨fun _ => h1, fun hr _ => ⟨?_, h2 hr⟩⟩
  rw [h3 hr hth]
  have := chunk_len_le n threshold
  unfold chunk_len at this ⊢
  omega

theorem Accounted_init (base : Nat) : Accounted base [Event.get_wq base] 0 :=
  ⟨rfl, rfl⟩

theorem dto_memset_acc (hw : Nat → Hw) (wq : dto_wq) (fuel : Nat) (s : Nat) (c : Int) (n : Nat)
    (w w1 : World) (hf : w.g.cpu_size_fraction ≤ 100)
    (hrun : dto_memset hw wq fuel s c n w = some w1) :
    AccState s n w.trace w1 := by
  rw [dto_memset_eq] at hrun
  have h0 : AccState s n w.trace (memset_start s c w) :=
    ⟨Nat.zero_le _, hf, [Event.get_wq s], rfl, Accounted_init s⟩
  split_ifs at hrun with hc
  · cases hrun
    exact (dto_memset_chunk_acc _ s c n _ n n w.trace (memset_start s c w) hf rfl
      (by simp [memset_start]) h0).1
  · have hth : (wq.max_transfer_size * 100 / (100 - w.g.cpu_size_fraction)) % 2 ^ 32 < 2 ^ 32 :=
      Nat.mod_lt _ (by positivity)
    exact dto_memset_loop_acc hw s c _ _ n w.trace hf hth fuel n (memset_start s c w) w1
      ⟨rfl, by simp [memset_start], h0⟩ hrun

theorem dto_memcpymove_acc (hw : Nat → Hw) (wq : dto_wq) (fuel dest src n : Nat)
    (is_memcpy : Bool) (w w1 : World) (hf : w.g.cpu_size_fraction ≤ 100)
    (hrun : dto_memcpymove hw wq fuel dest src n is_memcpy w = some w1) :
    AccPost dest n w.trace w1 := by
  rw [dto_memcpymove_eq] at hrun
  have h0 : AccState dest n w.trace (copy_start dest w) :=
    ⟨Nat.zero_le _, hf, [Event.get_wq dest], rfl, Accounted_init dest⟩
  split_ifs at hrun with hc
  · cases hrun
    exact (dto_memcpymove_chunk_acc _ dest src is_memcpy n n n w.trace (copy_start dest w)
      (by simp [copy_start]) h0).1
  · have hth : (wq.max_transfer_size * 100 / (100 - w.g.cpu_size_fraction)) % 2 ^ 32 < 2 ^ 32 :=
      Nat.mod_lt _ (by positivity)
    exact dto_memcpymove_loop_acc hw dest src is_memcpy _ n w.trace hth fuel n
      (copy_start dest w) w1 ⟨by simp [copy_start], h0⟩ hrun

theorem tail_bytes (call : Call) (w1 : World) (hb : w1.thr_bytes_completed ≤ call.size) :
    cpu_bytes (call.tail w1) = call.size - w1.thr_bytes_completed ∧
    credited_bytes (call.tail w1) = 0 := by
  cases call with
  | memset s c n =>
    simp only [Call.size] at hb
    simp only [Call.tail, Call.size]
    split_ifs with h1
    · exact ⟨by simp [cpu_bytes, Event.cpu_len], rfl⟩
    · have : w1.thr_bytes_completed = n := by
        by_contra hne
        exact h1 hne
      exact ⟨by simp [cpu_bytes, this], rfl⟩
  | memcpy d s n =>
    simp only [Call.size] at hb
    simp only [Call.tail, Call.size]
    split_ifs with h1 h2
    · exact ⟨by simp [cpu_bytes, Event.cpu_len], rfl⟩
    · exact ⟨by simp [cpu_bytes, Event.cpu_len], rfl⟩
    · have : w1.thr_bytes_completed = n := by
        by_contra hne
        exact h1 hne
      exact ⟨by simp [cpu_bytes, this], rfl⟩
  | memmove d s n =>
    simp only [Call.size] at hb
    simp only [Call.tail, Call.size]
    split_ifs with h1 h2
    · exact ⟨by simp [cpu_bytes, Event.cpu_len], rfl⟩
    · exact ⟨by simp [cpu_bytes, Event.cpu_len], rfl⟩
    · have : w1.thr_bytes_completed = n := by
        by_contra hne
        exact h1 hne
      exact ⟨by simp [cpu_bytes, this], rfl⟩

theorem tail_forward (call : Call) (w1 : World) (hb : w1.thr_bytes_completed ≤ call.size)
    (hfw : call.forward w1) :
    tiles (call.base + w1.thr_bytes_completed) (retired (call.tail w1))
      (call.base + call.size) := by
  cases call with
  | memset s c n =>
    simp only [Call.size] at hb
    simp only [Call.tail, Call.size, Call.base]
    split_ifs with h1
    · exact ⟨rfl, by show s + w1.thr_bytes_completed + (n - w1.thr_bytes_completed) = s + n; omega⟩
    · show s + w1.thr_bytes_completed = s + n
      omega
  | memcpy d s n =>
    simp only [Call.size] at hb
    have hr : w1.thr_comp.result = 0 := hfw
    simp only [Call.tail, Call.size, Call.base, hr, if_true]
    split_ifs with h1
    · exact ⟨rfl, by show d + w1.thr_bytes_completed + (n - w1.thr_bytes_completed) = d + n; omega⟩
    · show d + w1.thr_bytes_completed = d + n
      omega
  | memmove d s n =>
    simp only [Call.size] at hb
    have hr : w1.thr_comp.result = 0 := hfw
    simp only [Call.tail, Call.size, Call.base, hr, if_true]
    split_ifs with h1
    · exact ⟨rfl, by show d + w1.thr_bytes_completed + (n - w1.thr_bytes_completed) = d + n; omega⟩
    · show d + w1.thr_bytes_completed = d + n
      omega

theorem tail_backward (call : Call) (w1 : World) (hfw : ¬ call.forward w1) :
    retired (call.tail w1) =
      if w1.thr_bytes_completed ≠ call.size then
        [(call.base, call.size - w1.thr_bytes_completed)]
      else [] := by
  cases call with
  | memset s c n => exact absurd trivial hfw
  | memcpy d s n =>
    have hr : ¬ w1.thr_comp.result = 0 := hfw
    simp only [Call.tail, Call.size, Call.base, hr, if_false]
    split_ifs <;> rfl
  | memmove d s n =>
    have hr : ¬ w1.thr_comp.result = 0 := hfw
    simp only [Call.tail, Call.size, Call.base, hr, if_false]
    split_ifs <;> rfl

theorem splitter_acc (hw : Nat → Hw) (wq : dto_wq) (fuel : Nat) (call : Call) (w w1 : World)
    (hf : w.g.cpu_size_fraction ≤ 100) (hs : call.splitter hw wq fuel w = some w1) :
    w1.thr_bytes_completed ≤ call.size ∧
    ∃ t, w1.trace = w.trace ++ t ∧
      w1.thr_bytes_completed = cpu_bytes t + credited_bytes t ∧
      (call.forward w1 → tiles call.base (retired t) (call.base + w1.thr_bytes_completed)) := by
  cases call with
  | memset s c n =>
    obtain ⟨hb, _, t, ht, htile, hsum⟩ :=
      dto_memset_acc hw wq fuel s c n { w with result := 0 } w1 hf hs
    exact ⟨hb, t, ht, hsum, fun _ => htile⟩
  | memcpy d s n =>
    obtain ⟨hb, _, t, ht, hsum, htile⟩ :=
      dto_memcpymove_acc hw wq fuel d s n true { w with result := 0 } w1 hf hs
    exact ⟨hb, t, ht, hsum, htile⟩
  | memmove d s n =>
    obtain ⟨hb, _, t, ht, hsum, htile⟩ :=
      dto_memcpymove_acc hw wq fuel d s n false { w with result := 0 } w1 hf hs
    exact ⟨hb, t, ht, hsum, htile⟩

theorem run_trace (hw : Nat → Hw) (wq : dto_wq) (fuel : Nat) (call : Call) (w : World)
    (ret : Nat) (w' : World) (hinit : w.dto_initialized ≠ 0)
    (hpath : USE_ORIG_FUNC w call.size = false)
    (hrun : call.run hw wq fuel w = some (ret, w')) :
    ∃ w1, call.splitter hw wq fuel w = some w1 ∧ w'.trace = w1.trace ++ call.tail w1 := by
  cases call with
  | memset s c n =>
    simp only [Call.size] at hpath
    simp only [Call.run, memset, hinit, if_false, hpath, if_true] at hrun
    simp only [Call.splitter, Call.tail]
    cases hd : dto_memset hw wq fuel s c n { w with result := 0 } with
    | none => simp [hd] at hrun
    | some w1 =>
      refine ⟨w1, rfl, ?_⟩
      simp only [hd] at hrun
      split_ifs at hrun with hb
      · simp only [Option.some.injEq, Prod.mk.injEq] at hrun
        rw [← hrun.2, if_pos hb]
        rfl
      · simp only [Option.some.injEq, Prod.mk.injEq] at hrun
        rw [← hrun.2, if_neg hb, List.append_nil]
  | memcpy d s n =>
    simp only [Call.size] at hpath
    simp only [Call.run, memcpy, hinit, if_false, hpath, if_true] at hrun
    simp only [Call.splitter, Call.tail]
    cases hd : dto_memcpymove hw wq fuel d s n true { w with result := 0 } with
    | none => simp [hd] at hrun
    | some w1 =>
      refine ⟨w1, rfl, ?_⟩
      simp only [hd, Option.some.injEq, Prod.mk.injEq] at hrun
      rw [← hrun.2]
      unfold finish_copy
      split_ifs <;> simp [orig_copy, orig_memcpy, World.log]
  | memmove d s n =>
    simp only [Call.size] at hpath
    simp only [Call.run, memmove, hinit, if_false, hpath, if_true] at hrun
    simp only [Call.splitter, Call.tail]
    cases hd : dto_memcpymove hw wq fuel d s n false { w with result := 0 } with
    | none => simp [hd] at hrun
    | some w1 =>
      refine ⟨w1, rfl, ?_⟩
      simp only [hd, Option.some.injEq, Prod.mk.injEq] at hrun
      rw [← hrun.2]
      unfold finish_copy
      split_ifs <;> simp [orig_copy, orig_memmove, World.log]

/-- The region of a completion is where the device has written: when the
descriptor of a fill or move succeeds or stops at a page fault, every byte
outside the region that `Event.region` gives for its completion is left as it
was. -/
theorem device_writes_within_region (h : Hw) (d : Desc) (m : Mem)
    (hop : d.opcode = .MEMFILL ∨ d.opcode = .MEMMOVE)
    (hst : h.status = DSA_COMP_SUCCESS ∨
      h.status &&& DSA_COMP_STATUS_MASK = DSA_COMP_PAGE_FAULT_NOBOF)
    (x a c : Nat)
    (hr : Event.region (Event.completed d (wait_credit h d m) (deviceComp h d m).result) =
      some (a, c))
    (hx : ¬ (a ≤ x ∧ x < a + c)) : deviceMem h d m x = m x := by
  have e : Event.region (Event.completed d (wait_credit h d m) (deviceComp h d m).result) =
      some (if (deviceComp h d m).result = 0 then d.dst_addr
        else d.dst_addr + (d.xfer_size - wait_credit h d m), wait_credit h d m) := rfl
  rw [e] at hr
  simp only [Option.some.injEq, Prod.mk.injEq] at hr
  obtain ⟨ha, hc⟩ := hr
  subst ha hc
  unfold deviceMem
  unfold wait_credit deviceComp devBytes at hx
  rcases hop with hop | hop
  · rw [hop] at hx ⊢
    simp only [if_true] at hx ⊢
    unfold fill devBytes
    by_cases h1 : h.status = DSA_COMP_SUCCESS
    · simp only [h1, if_true] at hx ⊢
      rw [if_neg hx]
    · rcases hst with hst | hst
      · exact absurd hst h1
      · simp only [h1, if_false, hst, if_true] at hx ⊢
        rw [if_neg hx]
  · rw [hop] at hx ⊢
    unfold move devBytes
    by_cases h1 : h.status = DSA_COMP_SUCCESS
    · simp only [h1, if_true] at hx ⊢
      rw [if_neg hx]
    · rcases hst with hst | hst
      · exact absurd hst h1
      · simp only [h1, if_false, hst, if_true] at hx ⊢
        by_cases h2 : h.result = 0
        · simp only [h2, if_true] at hx ⊢
          rw [if_neg hx]
        · simp only [h2, if_false] at hx ⊢
          rw [if_neg hx]

/-! ## C6: byte accounting -/

/-- C6 fails as stated: for an overlapping `memmove` of 8192 bytes to 4104 whose
descriptor stops at a page fault after 4096 bytes moved from the end
(`result = 1`), the splitter returns `thr_bytes_completed = 4096`; the device
has written the last 4096 bytes of the destination, `[8200, 12296)`, and not
`[4104, 8200)`, so the accelerator region does not tile
`[base, base + thr_bytes_completed)`; and the entry point then runs the CPU
routine on 4096 bytes starting at `base`, not at `base + thr_bytes_completed`.
The CPU tail at `base` and the accelerator region together tile the request. -/
theorem tail_not_at_bytes_completed :
    (((Call.memmove 4104 4096 8192).splitter (hw_backward_fault 4096) ⟨131072⟩ 0
        (world_default id)).map (fun w1 => (w1.thr_bytes_completed, w1.thr_comp.result)) =
        some (4096, 1) ∧
      ((Call.memmove 4104 4096 8192).splitter (hw_backward_fault 4096) ⟨131072⟩ 0
        (world_default id)).map (fun w1 => retired w1.trace) = some [(8200, 4096)] ∧
      ((Call.memmove 4104 4096 8192).splitter (hw_backward_fault 4096) ⟨131072⟩ 0
        (world_default id)).map (fun w1 => (w1.mem 4104, w1.mem 8199, w1.mem 8200)) =
        some (4104, 8199, 8192)) ∧
    ¬ tiles 4104 [(8200, 4096)] (4104 + 4096) ∧
    (((Call.memmove 4104 4096 8192).run (hw_backward_fault 4096) ⟨131072⟩ 0
        (world_default id)).map (fun p => p.2.trace.getLast?) =
      some (some (Event.orig_memmove 4104 4096 4096)) ∧
      Event.orig_memmove 4104 4096 4096 ≠
        Event.orig_memmove (4104 + 4096) (4096 + 4096) (8192 - 4096)) ∧
    tiles 4104 [(4104, 4096), (8200, 4096)] (4104 + 8192) :=
  ⟨⟨by decide, by decide, by decide⟩, fun h => absurd h.1 (by decide), ⟨by decide, by decide⟩,
    ⟨rfl, rfl, rfl⟩⟩

/-- C6, amended: for every call of `memset`, `memcpy` or `memmove` on the
accelerator path and every behaviour of the environment, when the call returns
the splitter has returned a state `w1` with `thr_bytes_completed ≤ n`; its
actions `t` hand to CPU routines and credit through the waiter exactly
`thr_bytes_completed` bytes; the entry point then runs the CPU routine on
exactly `n - thr_bytes_completed` bytes, so that the CPU bytes and the credited
bytes of the whole call are `n`.  When the entry point continues at
`base + thr_bytes_completed`, which `memset` always does and `memcpy` and
`memmove` do when the result byte of the completion record is zero, the regions
of `t` tile `[base, base + thr_bytes_completed)` and with the tail
`[base, base + n)`.  Otherwise the tail is the `n - thr_bytes_completed` bytes
at `base`. -/
theorem byte_accounting (hw : Nat → Hw) (wq : dto_wq) (fuel : Nat) (call : Call) (w : World)
    (ret : Nat) (w' : World) (hinit : w.dto_initialized ≠ 0)
    (hpath : USE_ORIG_FUNC w call.size = false) (hf : w.g.cpu_size_fraction < 100)
    (hrun : call.run hw wq fuel w = some (ret, w')) :
    ∃ w1 t, call.splitter hw wq fuel w = some w1 ∧ w1.trace = w.trace ++ t ∧
      w1.thr_bytes_completed ≤ call.size ∧
      w1.thr_bytes_completed = cpu_bytes t + credited_bytes t ∧
      w'.trace = w1.trace ++ call.tail w1 ∧
      cpu_bytes (call.tail w1) = call.size - w1.thr_bytes_completed ∧
      cpu_bytes (t ++ call.tail w1) + credited_bytes (t ++ call.tail w1) = call.size ∧
      (call.forward w1 →
        tiles call.base (retired t) (call.base + w1.thr_bytes_completed) ∧
        tiles call.base (retired (t ++ call.tail w1)) (call.base + call.size)) ∧
      (¬ call.forward w1 →
        retired (call.tail w1) =
          if w1.thr_bytes_completed ≠ call.size then
            [(call.base, call.size - w1.thr_bytes_completed)]
          else []) := by
  obtain ⟨w1, hs, htr⟩ := run_trace hw wq fuel call w ret w' hinit hpath hrun
  obtain ⟨hb, t, ht, hsum, htile⟩ := splitter_acc hw wq fuel call w w1 (le_of_lt hf) hs
  obtain ⟨c1, c2⟩ := tail_bytes call w1 hb
  refine ⟨w1, t, hs, ht, hb, hsum, htr, c1, ?_, fun hfw => ⟨htile hfw, ?_⟩,
    fun hfw => tail_backward call w1 hfw⟩
  · rw [cpu_bytes_append, credited_bytes_append, c1, c2]
    omega
  · rw [retired_append]
    exact tiles_append _ _ _ _ _ (htile hfw) (tail_forward call w1 hb hfw)

/-- C6, amended, at two concrete inputs: a copy of 65536 bytes with a CPU share
of a quarter whose descriptor stops at a page fault after 4096 bytes counted
from the start, and an overlapping move of 8192 bytes whose descriptor stops at
a page fault after 4096 bytes moved from the end. -/
theorem byte_accounting_witness :
    ((init_dto (env_fraction 1 4) (World.static id)).dto_initialized ≠ 0 ∧
      USE_ORIG_FUNC (init_dto (env_fraction 1 4) (World.static id)) (Call.memcpy 2097152 1048576 65536).size = false ∧
      (init_dto (env_fraction 1 4) (World.static id)).g.cpu_size_fraction < 100 ∧
      ∃ w1 t, (Call.memcpy 2097152 1048576 65536).splitter (hw_page_fault 4096) ⟨131072⟩ 1 (init_dto (env_fraction 1 4) (World.static id)) = some w1 ∧
        w1.trace = (init_dto (env_fraction 1 4) (World.static id)).trace ++ t ∧
        w1.thr_bytes_completed ≤ (Call.memcpy 2097152 1048576 65536).size ∧
        w1.thr_bytes_completed = cpu_bytes t + credited_bytes t ∧
        (final_world ((Call.memcpy 2097152 1048576 65536).run (hw_page_fault 4096) ⟨131072⟩ 1 (init_dto (env_fraction 1 4) (World.static id))) (init_dto (env_fraction 1 4) (World.static id))).trace =
          w1.trace ++ (Call.memcpy 2097152 1048576 65536).tail w1 ∧
        cpu_bytes ((Call.memcpy 2097152 1048576 65536).tail w1) = (Call.memcpy 2097152 1048576 65536).size - w1.thr_bytes_completed ∧
        cpu_bytes (t ++ (Call.memcpy 2097152 1048576 65536).tail w1) + credited_bytes (t ++ (Call.memcpy 2097152 1048576 65536).tail w1) =
          (Call.memcpy 2097152 1048576 65536).size ∧
        ((Call.memcpy 2097152 1048576 65536).forward w1 →
          tiles (Call.memcpy 2097152 1048576 65536).base (retired t) ((Call.memcpy 2097152 1048576 65536).base + w1.thr_bytes_completed) ∧
          tiles (Call.memcpy 2097152 1048576 65536).base (retired (t ++ (Call.memcpy 2097152 1048576 65536).tail w1))
            ((Call.memcpy 2097152 1048576 65536).base + (Call.memcpy 2097152 1048576 65536).size)) ∧
        (¬ (Call.memcpy 2097152 1048576 65536).forward w1 →
          retired ((Call.memcpy 2097152 1048576 65536).tail w1) =
            if w1.thr_bytes_completed ≠ (Call.memcpy 2097152 1048576 65536).size then
              [((Call.memcpy 2097152 1048576 65536).base, (Call.memcpy 2097152 1048576 65536).size - w1.thr_bytes_completed)]
            else [])) ∧
    ((world_default id).dto_initialized ≠ 0 ∧
      USE_ORIG_FUNC (world_default id) (Call.memmove 4104 4096 8192).size = false ∧
      (world_default id).g.cpu_size_fraction < 100 ∧
      ∃ w1 t, (Call.memmove 4104 4096 8192).splitter (hw_backward_fault 4096) ⟨131072⟩ 1 (world_default id) = some w1 ∧
        w1.trace = (world_default id).trace ++ t ∧
        w1.thr_bytes_completed ≤ (Call.memmove 4104 4096 8192).size ∧
        w1.thr_bytes_completed = cpu_bytes t + credited_bytes t ∧
        (final_world ((Call.memmove 4104 4096 8192).run (hw_backward_fault 4096) ⟨131072⟩ 1 (world_default id)) (world_default id)).trace =
          w1.trace ++ (Call.memmove 4104 4096 8192).tail w1 ∧
        cpu_bytes ((Call.memmove 4104 4096 8192).tail w1) = (Call.memmove 4104 4096 8192).size - w1.thr_bytes_completed ∧
        cpu_bytes (t ++ (Call.memmove 4104 4096 8192).tail w1) + credited_bytes (t ++ (Call.memmove 4104 4096 8192).tail w1) =
          (Call.memmove 4104 4096 8192).size ∧
        ((Call.memmove 4104 4096 8192).forward w1 →
          tiles (Call.memmove 4104 4096 8192).base (retired t) ((Call.memmove 4104 4096 8192).base + w1.thr_bytes_completed) ∧
          tiles (Call.memmove 4104 4096 8192).base (retired (t ++ (Call.memmove 4104 4096 8192).tail w1))
            ((Call.memmove 4104 4096 8192).base + (Call.memmove 4104 4096 8192).size)) ∧
        (¬ (Call.memmove 4104 4096 8192).forward w1 →
          retired ((Call.memmove 4104 4096 8192).tail w1) =
            if w1.thr_bytes_completed ≠ (Call.memmove 4104 4096 8192).size then
              [((Call.memmove 4104 4096 8192).base, (Call.memmove 4104 4096 8192).size - w1.thr_bytes_completed)]
            else [])) :=
  ⟨⟨by decide, by decide, by decide,
      byte_accounting (hw_page_fault 4096) ⟨131072⟩ 1 (Call.memcpy 2097152 1048576 65536)
        (init_dto (env_fraction 1 4) (World.static id)) 2097152 _ (by decide) (by decide) (by decide) rfl⟩,
    ⟨by decide, by decide, by decide,
      byte_accounting (hw_backward_fault 4096) ⟨131072⟩ 1 (Call.memmove 4104 4096 8192)
        (world_default id) 4104 _ (by decide) (by decide) (by decide) rfl⟩⟩

/-! ## C1: `memmove` of overlapping ranges in chunks -/

/-- C1 fails on the code: with the default configuration, a transfer limit of
131072 and an accelerator that executes every descriptor as a correct
`memmove`, the call `memmove(src + 1, src, 262144)` is split into two
descriptors run in ascending order; the first overwrites the byte at
`src + 131072` before the second reads it, so `dest[131072]` ends up with the
value 255 that `src[131071]` had instead of the value 0 that `src[131072]`
had. -/
theorem memmove_chunked_overlap_clobbers :
    (memmove hw_success ⟨131072⟩ 3 4097 4096 262144 (world_default mem_ramp)).map
        (fun p => (p.1, submitted_sizes p.2.trace)) = some (4097, [131072, 131072]) ∧
    (final_world (memmove hw_success ⟨131072⟩ 3 4097 4096 262144 (world_default mem_ramp))
        (world_default mem_ramp)).mem (4097 + 131072) = 255 ∧
    (world_default mem_ramp).mem (4096 + 131072) = 0 ∧
    (world_default mem_ramp).mem (4096 + 131071) = 255 := by
  decide

theorem dsa_execute_credits_transfer_size (h : Hw) (w : World) (hacc : h.retry 0 = false)
    (hst : h.status = DSA_COMP_SUCCESS) :
    (dsa_execute h w).thr_bytes_completed = w.thr_bytes_completed + w.thr_desc.xfer_size := by
  unfold dsa_execute
  rw [dsa_execute_loop_eq]
  have hS : enq_result h 0 ENQCMD_MAX_RETRIES = SUCCESS := by
    simp [ENQCMD_MAX_RETRIES, enq_result, hacc]
  rw [if_pos hS, wait_and_classify_eq]
  simp [wait_credit, hst]

/-! ## C2: the return value of `memcmp` on a mismatch -/

/-- C2 fails on the code.  Whenever a descriptor is accepted and completes with
status Success, `dsa_execute` adds the whole transfer size to
`thr_bytes_completed`, whatever the device reports in `bytes_completed`.  So
with the default configuration, buffers of 8192 bytes that differ only at byte
5 (7 against 0) and an accelerator that reports the mismatch with status
Success, a non-zero result byte and `bytes_completed = 5`, `memcmp` returns
`s1[8192] - s2[8192] = 0` where the contract value is `s1[5] - s2[5] = 7`. -/
theorem memcmp_mismatch_reads_past_chunk :
    (∀ (h : Hw) (w : World), h.retry 0 = false → h.status = DSA_COMP_SUCCESS →
      (dsa_execute h w).thr_bytes_completed = w.thr_bytes_completed + w.thr_desc.xfer_size) ∧
    (memcmp hw_success ⟨131072⟩ 1 4096 1048576 8192 (world_default (mem_spike (4096 + 5)))).map
        (fun p => (p.1, p.2.thr_comp, submitted_sizes p.2.trace)) =
      some (0, ⟨DSA_COMP_SUCCESS, 5, 1⟩, [8192]) ∧
    cmpBytes (mem_spike (4096 + 5)) 4096 1048576 8192 = 7 ∧
    ((mem_spike (4096 + 5) (4096 + 8192) : Int) - (mem_spike (4096 + 5) (1048576 + 8192) : Int)
      = 0) :=
  ⟨dsa_execute_credits_transfer_size, by decide, by decide, by decide⟩

/-! ## C10: descriptors and the transfer limit -/

set_option maxRecDepth 100000 in
/-- C10 fails on the code.  With `cpu_size_fraction = 0.5` and a transfer limit
of 131072 the chunk length is 262144; for `memmove(src + 1, src, 400000)` the
overlap forces the CPU share of each chunk to 0 and the descriptors carry
262144 and 137856 bytes.  For a `memcpy` of 600000 bytes during whose first
wait the tuner lowers `cpu_size_fraction` to 0.49, the second descriptor
carries 133694 bytes.  The descriptors of `memset` in the same state stay
within the limit. -/
theorem descriptor_exceeds_transfer_limit :
    (memmove hw_success ⟨131072⟩ 3 4097 4096 400000
        (init_dto (env_fraction 1 2) (World.static id))).map
        (fun p => submitted_sizes p.2.trace) = some [262144, 137856] ∧
    ((after_waits 254 (init_dto (env_fraction 1 2) (World.static id))).g.cpu_size_fraction = 50 ∧
      (memcpy hw_success ⟨131072⟩ 4 1048576 4096 600000
        (after_waits 254 (init_dto (env_fraction 1 2) (World.static id)))).map
        (fun p => (p.2.g.cpu_size_fraction, submitted_sizes p.2.trace)) =
        some (49, [131072, 133694, 38614])) ∧
    (memset hw_success ⟨131072⟩ 4 4096 97 600000
        (after_waits 254 (init_dto (env_fraction 1 2) (World.static id)))).map
        (fun p => (p.2.g.cpu_size_fraction, submitted_sizes p.2.trace)) =
        some (49, [131072, 131072, 37856]) := by
  decide

/-! ## C17: bounded submission -/

theorem is_overlapping_of_common_byte (dest src n : Nat)
    (hx : ∃ x, (dest ≤ x ∧ x < dest + n) ∧ (src ≤ x ∧ x < src + n)) :
    is_overlapping_buffers dest src n = true := by
  obtain ⟨x, ⟨h1, h2⟩, h3, h4⟩ := hx
  unfold is_overlapping_buffers
  rw [if_neg]
  omega

theorem enq_events_apart (h : Hw) (d : Desc) : ∀ (k r : Nat) (e : Event),
    e ∈ enq_events h d r k → e.apart := by
  intro k
  induction k with
  | zero => intro r e he; simp [enq_events] at he
  | succ k ih =>
    intro r e he
    unfold enq_events at he
    rcases List.mem_cons.1 he with rfl | he
    · trivial
    · split_ifs at he
      · simp at he
      · exact ih _ _ he

theorem chunk_result_apart (h : Hw) (w : World) (d : Desc) (cpu : Nat) (m1 : Mem)
    (ev : List Event) (t0 : List Event) (hev : ∀ e ∈ ev, e.apart)
    (hw0 : ∃ t, w.trace = t0 ++ t ∧ ∀ e ∈ t, e.apart) :
    ∃ t, (chunk_result h w d cpu m1 ev).trace = t0 ++ t ∧ ∀ e ∈ t, e.apart := by
  obtain ⟨t, ht, hap⟩ := hw0
  unfold chunk_result
  split_ifs
  · refine ⟨t ++ enq_events h d 0 ENQCMD_MAX_RETRIES ++ ev ++
      [Event.completed d (wait_credit h d m1) (deviceComp h d m1).result], ?_, ?_⟩
    · simp [ht, List.append_assoc]
    · intro e he
      simp only [List.mem_append, List.mem_singleton] at he
      rcases he with ((he | he) | he) | he
      · exact hap e he
      · exact enq_events_apart h d _ _ e he
      · exact hev e he
      · subst he; trivial
  · refine ⟨t ++ enq_events h d 0 ENQCMD_MAX_RETRIES, ?_, ?_⟩
    · simp [ht, List.append_assoc]
    · intro e he
      simp only [List.mem_append] at he
      rcases he with he | he
      · exact hap e he
      · exact enq_events_apart h d _ _ e he

theorem move_events_apart (dest src len f p : Nat) (hf : f ≤ 100) :
    ∀ e ∈ copy_events false (dest + p) (src + p) (copy_cpu_size false dest src len f),
      e.apart := by
  intro e he
  unfold copy_events at he
  by_cases hc : copy_cpu_size false dest src len f ≠ 0
  · rw [if_pos hc] at he
    simp only [Bool.false_eq_true, if_false, List.mem_singleton] at he
    subst he
    have hle := copy_cpu_size_le false dest src len f hf
    have ho : is_overlapping_buffers dest src len = false := by
      by_contra ho
      apply hc
      unfold copy_cpu_size
      simp only [Bool.not_eq_false] at ho
      simp [ho]
    unfold is_overlapping_buffers at ho
    split_ifs at ho with hd
    show dest + p + _ < src + p ∨ src + p + _ < dest + p
    omega
  · rw [if_neg hc] at he
    simp at he

theorem dto_memmove_chunk_apart (h : Hw) (dest src threshold n : Nat) (w : World)
    (t0 : List Event) (hf : w.g.cpu_size_fraction ≤ 100)
    (hw0 : ∃ t, w.trace = t0 ++ t ∧ ∀ e ∈ t, e.apart) :
    (dto_memcpymove_chunk h dest src false threshold n w).g.cpu_size_fraction ≤ 100 ∧
    ∃ t, (dto_memcpymove_chunk h dest src false threshold n w).trace = t0 ++ t ∧
      ∀ e ∈ t, e.apart := by
  rw [dto_memcpymove_chunk_eq]
  exact ⟨chunk_result_fraction_le _ _ _ _ _ _ hf,
    chunk_result_apart _ _ _ _ _ _ t0 (move_events_apart _ _ _ _ _ hf) hw0⟩

theorem dto_memmove_apart (hw : Nat → Hw) (wq : dto_wq) (fuel dest src n : Nat) (w w1 : World)
    (hf : w.g.cpu_size_fraction ≤ 100)
    (hrun : dto_memcpymove hw wq fuel dest src n false w = some w1) :
    ∃ t, w1.trace = w.trace ++ t ∧ ∀ e ∈ t, e.apart := by
  rw [dto_memcpymove_eq] at hrun
  have hstart : (copy_start dest w).g.cpu_size_fraction ≤ 100 ∧
      ∃ t, (copy_start dest w).trace = w.trace ++ t ∧ ∀ e ∈ t, e.apart :=
    ⟨hf, [Event.get_wq dest], rfl, by intro e he; simp at he; subst he; trivial⟩
  split_ifs at hrun
  · cases hrun
    exact (dto_memmove_chunk_apart _ _ _ _ _ _ _ hstart.1 hstart.2).2
  · exact dto_memcpymove_loop_induct hw dest src false _
      (fun _ v => v.g.cpu_size_fraction ≤ 100 ∧ ∃ t, v.trace = w.trace ++ t ∧ ∀ e ∈ t, e.apart)
      (fun v => ∃ t, v.trace = w.trace ++ t ∧ ∀ e ∈ t, e.apart)
      (fun m v hP => ⟨fun _ => (dto_memmove_chunk_apart _ _ _ _ _ _ _ hP.1 hP.2).2,
        fun _ _ => dto_memmove_chunk_apart _ _ _ _ _ _ _ hP.1 hP.2⟩)
      fuel n _ w1 hstart hrun

/-- C16: `is_overlapping_buffers(dest, src, n)` is `!(dest + n < src || src + n < dest)`
and is true whenever the two ranges of `n` bytes have a byte in common.  In
`dto_memcpymove` called for `memmove`, a chunk of length `len` whose source and
destination windows of that length, at the current offset, have a byte in
common runs no CPU routine and hands the whole chunk, from its first byte, to
the accelerator; and over a whole call every CPU move that the splitter runs
has source and destination ranges that lie apart. -/
theorem overlap_detection (dest src n : Nat) (h : Hw) (threshold m : Nat) (w : World)
    (hw : Nat → Hw) (wq : dto_wq) (fuel : Nat) :
    is_overlapping_buffers dest src n = !(decide (dest + n < src) || decide (src + n < dest)) ∧
    ((∃ x, (dest ≤ x ∧ x < dest + n) ∧ (src ≤ x ∧ x < src + n)) →
      is_overlapping_buffers dest src n = true) ∧
    ((∃ x, (dest + w.thr_bytes_completed ≤ x ∧
          x < dest + w.thr_bytes_completed + chunk_len m threshold) ∧
        (src + w.thr_bytes_completed ≤ x ∧
          x < src + w.thr_bytes_completed + chunk_len m threshold)) →
      cpu_bytes (dto_memcpymove_chunk h dest src false threshold m w).trace = cpu_bytes w.trace ∧
      (dto_memcpymove_chunk h dest src false threshold m w).thr_desc.src_addr =
        src + w.thr_bytes_completed ∧
      (dto_memcpymove_chunk h dest src false threshold m w).thr_desc.dst_addr =
        dest + w.thr_bytes_completed ∧
      (dto_memcpymove_chunk h dest src false threshold m w).thr_desc.xfer_size =
        chunk_len m threshold % 2 ^ 32) ∧
    (w.g.cpu_size_fraction ≤ 100 →
      ∀ w1, dto_memcpymove hw wq fuel dest src n false w = some w1 →
        ∃ t, w1.trace = w.trace ++ t ∧ ∀ e ∈ t, e.apart) := by
  refine ⟨?_, is_overlapping_of_common_byte dest src n, ?_, ?_⟩
  · unfold is_overlapping_buffers
    by_cases h1 : dest + n < src <;> by_cases h2 : src + n < dest <;> simp [h1, h2]
  · intro hx
    have hov : is_overlapping_buffers dest src (chunk_len m threshold) = true := by
      apply is_overlapping_of_common_byte
      obtain ⟨x, ⟨h1, h2⟩, h3, h4⟩ := hx
      exact ⟨x - w.thr_bytes_completed, ⟨by omega, by omega⟩, by omega, by omega⟩
    have hcpu : copy_cpu_size false dest src (if m ≤ threshold then m else threshold)
        w.g.cpu_size_fraction = 0 := by
      unfold copy_cpu_size
      unfold chunk_len at hov
      simp [hov]
    rw [dto_memcpymove_chunk_eq, hcpu]
    refine ⟨?_, ?_, ?_, ?_⟩
    · have hev : copy_events false (dest + w.thr_bytes_completed) (src + w.thr_bytes_completed)
          0 = [] := by simp [copy_events]
      rw [hev]
      unfold chunk_result
      by_cases hS : enq_result h 0 ENQCMD_MAX_RETRIES = SUCCESS
      · simp only [hS, if_true, cpu_bytes_append, (enq_events_silent h _ _ _).2.1]
        simp [cpu_bytes, Event.cpu_len]
      · simp only [hS, if_false, cpu_bytes_append, (enq_events_silent h _ _ _).2.1]
        simp
    · rw [chunk_result_desc]; simp
    · rw [chunk_result_desc]; simp
    · rw [chunk_result_desc]; rfl
  · intro hf w1 hrun
    exact dto_memmove_apart hw wq fuel dest src n w w1 hf hrun

/-- C16 at a concrete input: `memmove(src + 1, src, ...)` with
`cpu_size_fraction = 0.5`, where every chunk window overlaps. -/
theorem overlap_detection_witness :
    is_overlapping_buffers 4097 4096 131072 = true ∧
    cpu_bytes (dto_memcpymove_chunk (hw_success 0) 4097 4096 false 262144 400000
      (init_dto (env_fraction 1 2) (World.static id))).trace =
      cpu_bytes (init_dto (env_fraction 1 2) (World.static id)).trace :=
  ⟨(overlap_detection 4097 4096 131072 (hw_success 0) 262144 400000
      (init_dto (env_fraction 1 2) (World.static id)) hw_success ⟨131072⟩ 3).2.1
      ⟨4097, by decide⟩,
   ((overlap_detection 4097 4096 131072 (hw_success 0) 262144 400000
      (init_dto (env_fraction 1 2) (World.static id)) hw_success ⟨131072⟩ 3).2.2.1
      ⟨4097, by decide⟩).1⟩

/-! ## C18: the status byte is cleared before every submission -/

theorem in_flight_append (t1 t2 : List Event) : ∀ b,
    in_flight b (t1 ++ t2) = (in_flight b t1).bind (fun b1 => in_flight b1 t2) := by
  induction t1 with
  | nil => intro b; rfl
  | cons e t ih =>
    intro b
    cases e <;> simp only [List.cons_append, in_flight] <;>
      first
      | exact ih _
      | (split_ifs <;> first | rfl | exact ih _)

theorem in_flight_enq_events (h : Hw) (d : Desc) : ∀ (k r : Nat),
    in_flight false (enq_events h d r k) = some (decide (enq_result h r k = SUCCESS)) := by
  intro k
  induction k with
  | zero => intro r; simp [enq_events, enq_result, in_flight, RETRIES, SUCCESS]
  | succ k ih =>
    intro r
    by_cases hr : h.retry r = false
    · simp [enq_events, enq_result, in_flight, hr]
    · simp only [Bool.not_eq_false] at hr
      simp [enq_events, enq_result, in_flight, hr, ih]

theorem submitted_sizes_append (t1 t2 : List Event) :
    submitted_sizes (t1 ++ t2) = submitted_sizes t1 ++ submitted_sizes t2 := by
  unfold submitted_sizes
  exact List.filterMap_append _ _ _

theorem submitted_sizes_enq_events (h : Hw) (d : Desc) : ∀ (k r : Nat),
    submitted_sizes (enq_events h d r k) = List.replicate (enq_count h r k) d.xfer_size := by
  intro k
  induction k with
  | zero => intro r; rfl
  | succ k ih =>
    intro r
    by_cases hr : h.retry r = false
    · simp [enq_events, enq_count, submitted_sizes, hr]
    · have := ih (r + 1)
      unfold submitted_sizes at this
      simp [enq_events, enq_count, submitted_sizes, hr, this, List.replicate_succ]

theorem chunk_result_serial (h : Hw) (w : World) (d : Desc) (cpu : Nat) (m1 : Mem)
    (ev : List Event) (t0 : List Event) (e0 : List Nat)
    (hev : in_flight true ev = some true ∧ submitted_sizes ev = [])
    (hw0 : Serial t0 e0 w) : Serial t0 e0 (chunk_result h w d cpu m1 ev) := by
  obtain ⟨t, z, ht, hfl, hz, hzero, hlen⟩ := hw0
  unfold chunk_result
  by_cases hS : enq_result h 0 ENQCMD_MAX_RETRIES = SUCCESS
  · rw [if_pos hS]
    refine ⟨t ++ enq_events h d 0 ENQCMD_MAX_RETRIES ++ ev ++
      [Event.completed d (wait_credit h d m1) (deviceComp h d m1).result],
      z ++ List.replicate (enq_count h 0 ENQCMD_MAX_RETRIES) 0, ?_, ?_, ?_, ?_, ?_⟩
    · simp [ht, List.append_assoc]
    · rw [in_flight_append, in_flight_append, in_flight_append, hfl]
      simp only [Option.bind]
      rw [in_flight_enq_events, hS]
      simp only [decide_True, Option.bind, hev.1]
      rfl
    · simp [hz, List.append_assoc]
    · intro x hx
      rcases List.mem_append.1 hx with hx | hx
      · exact hzero x hx
      · exact (List.mem_replicate.1 hx).2
    · have hc : submitted_sizes [Event.completed d (wait_credit h d m1) (deviceComp h d m1).result] = [] := rfl
      rw [submitted_sizes_append, submitted_sizes_append, submitted_sizes_append,
        submitted_sizes_enq_events, hev.2, hc]
      simp only [List.length_append, List.length_replicate, List.length_nil, hlen, Nat.add_zero]
  · rw [if_neg hS]
    refine ⟨t ++ enq_events h d 0 ENQCMD_MAX_RETRIES,
      z ++ List.replicate (enq_count h 0 ENQCMD_MAX_RETRIES) 0, ?_, ?_, ?_, ?_, ?_⟩
    · simp [ht, List.append_assoc]
    · rw [in_flight_append, hfl]
      simp only [Option.bind]
      rw [in_flight_enq_events]
      simp only [hS, decide_False]
    · simp [hz, List.append_assoc]
    · intro x hx
      rcases List.mem_append.1 hx with hx | hx
      · exact hzero x hx
      · exact (List.mem_replicate.1 hx).2
    · rw [submitted_sizes_append, submitted_sizes_enq_events]
      simp only [List.length_append, List.length_replicate, hlen]

theorem Serial_start (w : World) (e : Event) (he : in_flight false [e] = some false)
    (hs : submitted_sizes [e] = []) (w0 : World) (ht : w0.trace = w.trace ++ [e])
    (hq : w0.enq_status = w.enq_status) : Serial w.trace w.enq_status w0 :=
  ⟨[e], [], ht, he, by simp [hq], by simp, by simp [hs]⟩

theorem dto_memset_chunk_serial (h : Hw) (s : Nat) (c : Int) (threshold fs n : Nat) (w : World)
    (t0 : List Event) (e0 : List Nat) (hw0 : Serial t0 e0 w) :
    Serial t0 e0 (dto_memset_chunk h s c threshold fs n w) := by
  rw [dto_memset_chunk_eq]
  apply chunk_result_serial _ _ _ _ _ _ _ _ _ hw0
  split_ifs <;> exact ⟨rfl, rfl⟩

theorem dto_memcpymove_chunk_serial (h : Hw) (dest src : Nat) (is_memcpy : Bool)
    (threshold n : Nat) (w : World)
    (t0 : List Event) (e0 : List Nat) (hw0 : Serial t0 e0 w) :
    Serial t0 e0 (dto_memcpymove_chunk h dest src is_memcpy threshold n w) := by
  rw [dto_memcpymove_chunk_eq]
  apply chunk_result_serial _ _ _ _ _ _ _ _ _ hw0
  unfold copy_events
  cases is_memcpy <;> split_ifs <;> exact ⟨rfl, rfl⟩

theorem dto_memcmp_chunk_serial (h : Hw) (wq : dto_wq) (s1 s2 n : Nat) (w : World)
    (t0 : List Event) (e0 : List Nat) (hw0 : Serial t0 e0 w) :
    Serial t0 e0 (dto_memcmp_chunk h wq s1 s2 n w) := by
  unfold dto_memcmp_chunk
  exact chunk_result_serial _ _ _ _ _ _ _ _ ⟨rfl, rfl⟩ hw0

theorem dto_memset_serial (hw : Nat → Hw) (wq : dto_wq) (fuel : Nat) (s : Nat) (c : Int)
    (n : Nat) (w w1 : World) (hrun : dto_memset hw wq fuel s c n w = some w1) :
    Serial w.trace w.enq_status w1 := by
  rw [dto_memset_eq] at hrun
  have hstart : Serial w.trace w.enq_status (memset_start s c w) :=
    Serial_start w (Event.get_wq s) rfl rfl _ rfl rfl
  split_ifs at hrun
  · cases hrun
    exact dto_memset_chunk_serial _ _ _ _ _ _ _ _ _ hstart
  · exact dto_memset_loop_induct hw s c _ _
      (fun _ v => Serial w.trace w.enq_status v) (fun v => Serial w.trace w.enq_status v)
      (fun m v hP => ⟨fun _ => dto_memset_chunk_serial _ _ _ _ _ _ _ _ _ hP,
        fun _ _ => dto_memset_chunk_serial _ _ _ _ _ _ _ _ _ hP⟩)
      fuel n _ w1 hstart hrun

theorem dto_memcpymove_serial (hw : Nat → Hw) (wq : dto_wq) (fuel dest src n : Nat)
    (is_memcpy : Bool) (w w1 : World)
    (hrun : dto_memcpymove hw wq fuel dest src n is_memcpy w = some w1) :
    Serial w.trace w.enq_status w1 := by
  rw [dto_memcpymove_eq] at hrun
  have hstart : Serial w.trace w.enq_status (copy_start dest w) :=
    Serial_start w (Event.get_wq dest) rfl rfl _ rfl rfl
  split_ifs at hrun
  · cases hrun
    exact dto_memcpymove_chunk_serial _ _ _ _ _ _ _ _ _ hstart
  · exact dto_memcpymove_loop_induct hw dest src is_memcpy _
      (fun _ v => Serial w.trace w.enq_status v) (fun v => Serial w.trace w.enq_status v)
      (fun m v hP => ⟨fun _ => dto_memcpymove_chunk_serial _ _ _ _ _ _ _ _ _ hP,
        fun _ _ => dto_memcpymove_chunk_serial _ _ _ _ _ _ _ _ _ hP⟩)
      fuel n _ w1 hstart hrun

theorem dto_memcmp_serial (hw : Nat → Hw) (wq : dto_wq) (fuel s1 s2 n : Nat) (w : World)
    (r : Int × World) (hrun : dto_memcmp hw wq fuel s1 s2 n w = some r) :
    Serial w.trace w.enq_status r.2 := by
  rw [dto_memcmp_eq] at hrun
  have hstart : Serial w.trace w.enq_status (compare_start s2 w) :=
    Serial_start w (Event.get_wq s2) rfl rfl _ rfl rfl
  have key : ∀ w3, (if n ≤ wq.max_transfer_size then
        some (dto_memcmp_chunk (hw w.ndesc) wq s1 s2 n (compare_start s2 w))
      else dto_memcmp_loop hw wq s1 s2 fuel n (compare_start s2 w)) = some w3 →
      Serial w.trace w.enq_status w3 := by
    intro w3 h3
    split_ifs at h3
    · cases h3
      exact dto_memcmp_chunk_serial _ _ _ _ _ _ _ _ hstart
    · exact dto_memcmp_loop_induct hw wq s1 s2
        (fun _ v => Serial w.trace w.enq_status v) (fun v => Serial w.trace w.enq_status v)
        (fun m v hP => ⟨dto_memcmp_chunk_serial _ _ _ _ _ _ _ _ hP,
          fun _ _ => dto_memcmp_chunk_serial _ _ _ _ _ _ _ _ hP⟩)
        fuel n _ w3 hstart h3
  generalize (if n ≤ wq.max_transfer_size then
        some (dto_memcmp_chunk (hw w.ndesc) wq s1 s2 n (compare_start s2 w))
      else dto_memcmp_loop hw wq s1 s2 fuel n (compare_start s2 w)) = o at hrun key
  cases o with
  | none => simp at hrun
  | some w3 =>
    have hs := key w3 rfl
    dsimp only at hrun
    split_ifs at hrun
    · cases hrun
      exact hs
    · cases hrun
      exact hs

/-- C18: in every run of `dto_memset`, `dto_memcpymove` and `dto_memcmp` that
returns, with whatever the queue and the device do, the actions `t` of the run
never attempt an `enqcmd` while a descriptor of the thread is in flight (each
accepted descriptor is followed by the return of its wait before the next
attempt), no descriptor is in flight when the run returns, and every `enqcmd`
attempt of the run found the status byte of the thread's completion record
equal to zero, although each wait leaves the device's non-zero status there. -/
theorem status_cleared_before_submission (hw : Nat → Hw) (wq : dto_wq) (fuel : Nat)
    (s dest src s1 s2 : Nat) (c : Int) (n : Nat) (is_memcpy : Bool) (w : World) :
    (∀ w1, dto_memset hw wq fuel s c n w = some w1 →
      ∃ t z, w1.trace = w.trace ++ t ∧ in_flight false t = some false ∧
        w1.enq_status = w.enq_status ++ z ∧ (∀ x ∈ z, x = 0) ∧
        z.length = (submitted_sizes t).length) ∧
    (∀ w1, dto_memcpymove hw wq fuel dest src n is_memcpy w = some w1 →
      ∃ t z, w1.trace = w.trace ++ t ∧ in_flight false t = some false ∧
        w1.enq_status = w.enq_status ++ z ∧ (∀ x ∈ z, x = 0) ∧
        z.length = (submitted_sizes t).length) ∧
    (∀ r, dto_memcmp hw wq fuel s1 s2 n w = some r →
      ∃ t z, r.2.trace = w.trace ++ t ∧ in_flight false t = some false ∧
        r.2.enq_status = w.enq_status ++ z ∧ (∀ x ∈ z, x = 0) ∧
        z.length = (submitted_sizes t).length) ∧
    ∀ h : Hw, (wait_and_classify h w).thr_comp.status = h.status :=
  ⟨fun w1 h => dto_memset_serial hw wq fuel s c n w w1 h,
   fun w1 h => dto_memcpymove_serial hw wq fuel dest src n is_memcpy w w1 h,
   fun r h => dto_memcmp_serial hw wq fuel s1 s2 n w r h,
   fun h => by rw [wait_and_classify_eq]; exact deviceComp_status _ _ _⟩

set_option maxRecDepth 100000 in
/-- C18 at a concrete input: a fill of 262144 bytes in two descriptors, each
accepted at the second `enqcmd` attempt. -/
theorem status_cleared_before_submission_witness :
    (dto_memset hw_second_try ⟨131072⟩ 4 4096 97 262144 (world_default id)).map
        (fun w1 => (w1.enq_status, w1.thr_comp.status, submitted_sizes w1.trace)) =
      some ([0, 0, 0, 0], 1, [131072, 131072, 131072, 131072]) ∧
    ∀ w1, dto_memset hw_second_try ⟨131072⟩ 4 4096 97 262144 (world_default id) = some w1 →
      ∃ t z, w1.trace = (world_default id).trace ++ t ∧ in_flight false t = some false ∧
        w1.enq_status = (world_default id).enq_status ++ z ∧ (∀ x ∈ z, x = 0) ∧
        z.length = (submitted_sizes t).length :=
  ⟨by decide,
   (status_cleared_before_submission hw_second_try ⟨131072⟩ 4 4096 0 0 0 0 97 262144 true
      (world_default id)).1⟩

/-! ## C13: progress of the chunk loops -/

theorem ceil_div_pos (n M : Nat) (hn : 1 ≤ n) (hM : 1 ≤ M) : 1 ≤ ceil_div n M := by
  unfold ceil_div
  exact Nat.div_pos (by omega) (by omega)

theorem ceil_div_le (n M : Nat) (hM : 1 ≤ M) : ceil_div n M ≤ n := by
  unfold ceil_div
  rcases Nat.eq_zero_or_pos n with rfl | hn
  · simp only [Nat.zero_add]
    exact Nat.le_of_lt_succ ((Nat.div_lt_iff_lt_mul (by omega)).2 (by omega))
  · apply Nat.le_of_lt_succ
    rw [Nat.div_lt_iff_lt_mul (by omega)]
    have : n * 1 ≤ n * M := Nat.mul_le_mul_left n hM
    have e : n.succ * M = n * M + M := by rw [Nat.succ_mul]
    rw [e]
    omega

theorem ceil_div_step (n T M : Nat) (hM : 1 ≤ M) (hMT : M ≤ T) (hn : T < n) :
    ceil_div (n - T) M + 1 ≤ ceil_div n M := by
  unfold ceil_div
  rw [← Nat.add_div_right _ (by omega : 0 < M)]
  exact Nat.div_le_div_right (by omega)

theorem threshold_ge (M f : Nat) (hf : f < 100) (hT : M * 100 / (100 - f) < 2 ^ 32) :
    M ≤ (M * 100 / (100 - f)) % 2 ^ 32 ∧ (M * 100 / (100 - f)) % 2 ^ 32 < 2 ^ 32 := by
  have h2 : M ≤ M * 100 / (100 - f) := by
    rw [Nat.le_div_iff_mul_le (by omega)]
    exact Nat.mul_le_mul_left M (by omega)
  rw [Nat.mod_eq_of_lt hT]
  exact ⟨h2, hT⟩

/-- What one chunk of the fill splitter does to the counters. -/
theorem dto_memset_chunk_progress (h : Hw) (s : Nat) (c : Int) (T fs n : Nat) (w : World)
    (hfs : fs ≤ 100) (hx : chunk_len n T - chunk_len n T * fs / 100 < 2 ^ 32) :
    (dto_memset_chunk h s c T fs n w).ndesc = w.ndesc + 1 ∧
    (1 ≤ w.g.dsa_min_size → 1 ≤ (dto_memset_chunk h s c T fs n w).g.dsa_min_size) ∧
    ((dto_memset_chunk h s c T fs n w).result = SUCCESS →
      (dto_memset_chunk h s c T fs n w).thr_bytes_completed =
        w.thr_bytes_completed + chunk_len n T) := by
  rw [dto_memset_chunk_eq]
  refine ⟨chunk_result_ndesc _ _ _ _ _ _, (chunk_result_stable _ _ _ _ _ _).2.2.2, fun hr => ?_⟩
  rw [chunk_result_bytes _ _ _ _ _ _ hr]
  show _ + _ + (chunk_len n T - chunk_len n T * fs / 100) % 2 ^ 32 = _
  have h1 := cpu_share_le (chunk_len n T) fs hfs
  rw [Nat.mod_eq_of_lt hx]
  show _ + chunk_len n T * fs / 100 + _ = _
  omega

theorem dto_memcpymove_chunk_progress (h : Hw) (dest src : Nat) (is_memcpy : Bool) (T n : Nat)
    (w : World) (hf : w.g.cpu_size_fraction ≤ 100)
    (hx : chunk_len n T -
      copy_cpu_size is_memcpy dest src (chunk_len n T) w.g.cpu_size_fraction < 2 ^ 32) :
    (dto_memcpymove_chunk h dest src is_memcpy T n w).ndesc = w.ndesc + 1 ∧
    (1 ≤ w.g.dsa_min_size → 1 ≤ (dto_memcpymove_chunk h dest src is_memcpy T n w).g.dsa_min_size) ∧
    (dto_memcpymove_chunk h dest src is_memcpy T n w).g.cpu_size_fraction ≤ 100 ∧
    ((dto_memcpymove_chunk h dest src is_memcpy T n w).result = SUCCESS →
      (dto_memcpymove_chunk h dest src is_memcpy T n w).thr_bytes_completed =
        w.thr_bytes_completed + chunk_len n T) := by
  rw [dto_memcpymove_chunk_eq]
  refine ⟨chunk_result_ndesc _ _ _ _ _ _, (chunk_result_stable _ _ _ _ _ _).2.2.2,
    chunk_result_fraction_le _ _ _ _ _ _ hf, fun hr => ?_⟩
  rw [chunk_result_bytes _ _ _ _ _ _ hr]
  show _ + _ + (chunk_len n T -
    copy_cpu_size is_memcpy dest src (chunk_len n T) w.g.cpu_size_fraction) % 2 ^ 32 = _
  have h1 := copy_cpu_size_le is_memcpy dest src (chunk_len n T) w.g.cpu_size_fraction hf
  rw [Nat.mod_eq_of_lt hx]
  show _ + copy_cpu_size is_memcpy dest src (chunk_len n T) w.g.cpu_size_fraction + _ = _
  omega

theorem dto_memcmp_chunk_progress (h : Hw) (wq : dto_wq) (s1 s2 n : Nat) (w : World)
    (hT : wq.max_transfer_size < 2 ^ 32) :
    (dto_memcmp_chunk h wq s1 s2 n w).ndesc = w.ndesc + 1 ∧
    (1 ≤ w.g.dsa_min_size → 1 ≤ (dto_memcmp_chunk h wq s1 s2 n w).g.dsa_min_size) ∧
    ((dto_memcmp_chunk h wq s1 s2 n w).result = SUCCESS →
      (dto_memcmp_chunk h wq s1 s2 n w).thr_bytes_completed =
        w.thr_bytes_completed + chunk_len n wq.max_transfer_size) := by
  unfold dto_memcmp_chunk
  refine ⟨chunk_result_ndesc _ _ _ _ _ _, (chunk_result_stable _ _ _ _ _ _).2.2.2, fun hr => ?_⟩
  rw [chunk_result_bytes _ _ _ _ _ _ hr]
  show _ + 0 + chunk_len n wq.max_transfer_size % 2 ^ 32 = _
  have h2 := chunk_len_le_threshold n wq.max_transfer_size
  rw [Nat.mod_eq_of_lt (by omega)]
  omega

theorem dto_memset_loop_bound (hw : Nat → Hw) (s : Nat) (c : Int) (T fs M : Nat)
    (hM : 1 ≤ M) (hMT : M ≤ T) (hT : T < 2 ^ 32) (hfs : fs ≤ 100) :
    ∀ (fuel n : Nat) (w : World), 1 ≤ n → 1 ≤ w.g.dsa_min_size → ceil_div n M ≤ fuel →
      ∃ w1, dto_memset_loop hw s c T fs fuel n w = some w1 ∧
        w1.ndesc ≤ w.ndesc + ceil_div n M ∧
        (w1.result = SUCCESS →
          w1.ndesc + w.thr_bytes_completed ≤ w.ndesc + w1.thr_bytes_completed) := by
  intro fuel
  induction fuel with
  | zero =>
    intro n w hn _ hfuel
    have := ceil_div_pos n M hn hM
    omega
  | succ fuel ih =>
    intro n w hn hg hfuel
    unfold dto_memset_loop
    dsimp only
    obtain ⟨hnd, hg1, hb⟩ := dto_memset_chunk_progress (hw w.ndesc) s c T fs n w hfs
      (by have := chunk_len_le_threshold n T; omega)
    have hg1 := hg1 hg
    have hl := chunk_len_pos n T hn (by omega)
    have hc := ceil_div_pos n M hn hM
    unfold chunk_len at hl hb
    generalize dto_memset_chunk (hw w.ndesc) s c T fs n w = w1 at hnd hg1 hb ⊢
    by_cases h1 : w1.result ≠ SUCCESS
    · rw [if_pos h1]
      exact ⟨w1, rfl, by omega, fun hr => absurd hr h1⟩
    · rw [if_neg h1]
      have hb := hb (not_not.1 h1)
      by_cases h2 : w1.g.dsa_min_size ≤ n - (if n ≤ T then n else T)
      · rw [if_pos h2]
        have hnT : ¬ n ≤ T := by
          intro hle
          rw [if_pos hle] at h2
          omega
        rw [if_neg hnT] at h2 hb hl ⊢
        have hstep := ceil_div_step n T M hM hMT (by omega)
        obtain ⟨w2, e, b1, b2⟩ := ih (n - T) w1 (by omega) hg1 (by omega)
        exact ⟨w2, e, by omega, fun hr => by have := b2 hr; omega⟩
      · rw [if_neg h2]
        exact ⟨w1, rfl, by omega, fun _ => by omega⟩

theorem dto_memcpymove_loop_bound (hw : Nat → Hw) (dest src : Nat) (is_memcpy : Bool)
    (T M : Nat) (hM : 1 ≤ M) (hMT : M ≤ T) (hT : T < 2 ^ 32) :
    ∀ (fuel n : Nat) (w : World), 1 ≤ n → 1 ≤ w.g.dsa_min_size → w.g.cpu_size_fraction ≤ 100 →
      ceil_div n M ≤ fuel →
      ∃ w1, dto_memcpymove_loop hw dest src is_memcpy T fuel n w = some w1 ∧
        w1.ndesc ≤ w.ndesc + ceil_div n M ∧
        (w1.result = SUCCESS →
          w1.ndesc + w.thr_bytes_completed ≤ w.ndesc + w1.thr_bytes_completed) := by
  intro fuel
  induction fuel with
  | zero =>
    intro n w hn _ _ hfuel
    have := ceil_div_pos n M hn hM
    omega
  | succ fuel ih =>
    intro n w hn hg hf hfuel
    unfold dto_memcpymove_loop
    dsimp only
    obtain ⟨hnd, hg1, hf1, hb⟩ :=
      dto_memcpymove_chunk_progress (hw w.ndesc) dest src is_memcpy T n w hf
        (by have := chunk_len_le_threshold n T; omega)
    have hg1 := hg1 hg
    have hl := chunk_len_pos n T hn (by omega)
    have hc := ceil_div_pos n M hn hM
    unfold chunk_len at hl hb
    generalize dto_memcpymove_chunk (hw w.ndesc) dest src is_memcpy T n w = w1
      at hnd hg1 hf1 hb ⊢
    by_cases h1 : w1.result ≠ SUCCESS
    · rw [if_pos h1]
      exact ⟨w1, rfl, by omega, fun hr => absurd hr h1⟩
    · rw [if_neg h1]
      have hb := hb (not_not.1 h1)
      by_cases h2 : w1.g.dsa_min_size ≤ n - (if n ≤ T then n else T)
      · rw [if_pos h2]
        have hnT : ¬ n ≤ T := by
          intro hle
          rw [if_pos hle] at h2
          omega
        rw [if_neg hnT] at h2 hb hl ⊢
        have hstep := ceil_div_step n T M hM hMT (by omega)
        obtain ⟨w2, e, b1, b2⟩ := ih (n - T) w1 (by omega) hg1 hf1 (by omega)
        exact ⟨w2, e, by omega, fun hr => by have := b2 hr; omega⟩
      · rw [if_neg h2]
        exact ⟨w1, rfl, by omega, fun _ => by omega⟩

theorem dto_memcmp_loop_bound (hw : Nat → Hw) (wq : dto_wq) (s1 s2 : Nat)
    (hM : 1 ≤ wq.max_transfer_size) (hT : wq.max_transfer_size < 2 ^ 32) :
    ∀ (fuel n : Nat) (w : World), 1 ≤ n → 1 ≤ w.g.dsa_min_size →
      ceil_div n wq.max_transfer_size ≤ fuel →
      ∃ w1, dto_memcmp_loop hw wq s1 s2 fuel n w = some w1 ∧
        w1.ndesc ≤ w.ndesc + ceil_div n wq.max_transfer_size ∧
        (w1.result = SUCCESS →
          w1.ndesc + w.thr_bytes_completed ≤ w.ndesc + w1.thr_bytes_completed) := by
  intro fuel
  induction fuel with
  | zero =>
    intro n w hn _ hfuel
    have := ceil_div_pos n _ hn hM
    omega
  | succ fuel ih =>
    intro n w hn hg hfuel
    rw [dto_memcmp_loop_succ]
    obtain ⟨hnd, hg1, hb⟩ := dto_memcmp_chunk_progress (hw w.ndesc) wq s1 s2 n w hT
    have hg1 := hg1 hg
    have hl := chunk_len_pos n wq.max_transfer_size hn hM
    have hc := ceil_div_pos n _ hn hM
    generalize dto_memcmp_chunk (hw w.ndesc) wq s1 s2 n w = w1 at hnd hg1 hb ⊢
    by_cases h1 : w1.result ≠ SUCCESS ∨ w1.thr_comp.result ≠ 0
    · rw [if_pos h1]
      exact ⟨w1, rfl, by omega, fun hr => by have := hb hr; omega⟩
    · rw [if_neg h1]
      have hr : w1.result = SUCCESS := by
        by_contra hne
        exact h1 (Or.inl hne)
      have hb := hb hr
      by_cases h2 : w1.g.dsa_min_size ≤ n - chunk_len n wq.max_transfer_size
      · rw [if_pos h2]
        have hnT : ¬ n ≤ wq.max_transfer_size := by
          intro hle
          unfold chunk_len at h2
          rw [if_pos hle] at h2
          omega
        have hlen : chunk_len n wq.max_transfer_size = wq.max_transfer_size := by
          unfold chunk_len
          rw [if_neg hnT]
        rw [hlen] at h2 hb ⊢
        have hstep := ceil_div_step n _ _ hM (le_refl wq.max_transfer_size) (by omega)
        obtain ⟨w2, e, b1, b2⟩ := ih (n - wq.max_transfer_size) w1 (by omega) hg1 (by omega)
        exact ⟨w2, e, by omega, fun hr => by have := b2 hr; omega⟩
      · rw [if_neg h2]
        exact ⟨w1, rfl, by omega, fun _ => by omega⟩

theorem dto_memset_bound (hw : Nat → Hw) (wq : dto_wq) (fuel : Nat) (s : Nat) (c : Int)
    (n : Nat) (w : World) (hn : 1 ≤ n) (hg : 1 ≤ w.g.dsa_min_size)
    (hf : w.g.cpu_size_fraction < 100) (hM : 1 ≤ wq.max_transfer_size)
    (hT : wq.max_transfer_size * 100 / (100 - w.g.cpu_size_fraction) < 2 ^ 32)
    (hfuel : ceil_div n wq.max_transfer_size ≤ fuel) :
    ∃ w1, dto_memset hw wq fuel s c n w = some w1 ∧
      w1.ndesc ≤ w.ndesc + ceil_div n wq.max_transfer_size ∧
      (w1.result = SUCCESS → w1.ndesc ≤ w.ndesc + w1.thr_bytes_completed) := by
  rw [dto_memset_eq]
  obtain ⟨t1, t2⟩ := threshold_ge _ _ hf hT
  have hc := ceil_div_pos n _ hn hM
  by_cases hb : n - n * w.g.cpu_size_fraction / 100 ≤ wq.max_transfer_size
  · rw [if_pos hb]
    have hl : chunk_len n n = n := by unfold chunk_len; rw [if_pos (le_refl n)]
    obtain ⟨hnd, _, hp⟩ := dto_memset_chunk_progress (hw w.ndesc) s c n w.g.cpu_size_fraction n
      (memset_start s c w) (le_of_lt hf) (by rw [hl]; omega)
    rw [hl] at hp
    refine ⟨_, rfl, ?_, fun hr => ?_⟩
    · rw [hnd]; show w.ndesc + 1 ≤ _; omega
    · rw [hnd, hp hr]; show w.ndesc + 1 ≤ w.ndesc + (0 + n); omega
  · rw [if_neg hb]
    obtain ⟨w1, e, b1, b2⟩ := dto_memset_loop_bound hw s c _ w.g.cpu_size_fraction
      wq.max_transfer_size hM t1 t2 (le_of_lt hf) fuel n (memset_start s c w) hn hg hfuel
    exact ⟨w1, e, b1, fun hr => by have := b2 hr; simpa [memset_start] using this⟩

theorem dto_memcpymove_bound (hw : Nat → Hw) (wq : dto_wq) (fuel dest src n : Nat)
    (is_memcpy : Bool) (w : World) (hn : 1 ≤ n) (hg : 1 ≤ w.g.dsa_min_size)
    (hf : w.g.cpu_size_fraction < 100) (hM : 1 ≤ wq.max_transfer_size)
    (hT : wq.max_transfer_size * 100 / (100 - w.g.cpu_size_fraction) < 2 ^ 32)
    (hfuel : ceil_div n wq.max_transfer_size ≤ fuel) :
    ∃ w1, dto_memcpymove hw wq fuel dest src n is_memcpy w = some w1 ∧
      w1.ndesc ≤ w.ndesc + ceil_div n wq.max_transfer_size ∧
      (w1.result = SUCCESS → w1.ndesc ≤ w.ndesc + w1.thr_bytes_completed) := by
  rw [dto_memcpymove_eq]
  obtain ⟨t1, t2⟩ := threshold_ge _ _ hf hT
  have hc := ceil_div_pos n _ hn hM
  by_cases hb : n - copy_cpu_size is_memcpy dest src n w.g.cpu_size_fraction ≤
      wq.max_transfer_size
  · rw [if_pos hb]
    have hl : chunk_len n n = n := by unfold chunk_len; rw [if_pos (le_refl n)]
    obtain ⟨hnd, _, _, hp⟩ := dto_memcpymove_chunk_progress (hw w.ndesc) dest src is_memcpy n n
      (copy_start dest w) (le_of_lt hf)
      (by rw [hl]; show n - copy_cpu_size is_memcpy dest src n w.g.cpu_size_fraction < _; omega)
    rw [hl] at hp
    refine ⟨_, rfl, ?_, fun hr => ?_⟩
    · rw [hnd]; show w.ndesc + 1 ≤ _; omega
    · rw [hnd, hp hr]; show w.ndesc + 1 ≤ w.ndesc + (0 + n); omega
  · rw [if_neg hb]
    obtain ⟨w1, e, b1, b2⟩ := dto_memcpymove_loop_bound hw dest src is_memcpy _
      wq.max_transfer_size hM t1 t2 fuel n (copy_start dest w) hn hg (le_of_lt hf) hfuel
    exact ⟨w1, e, b1, fun hr => by have := b2 hr; simpa [copy_start] using this⟩

theorem dto_memcmp_bound (hw : Nat → Hw) (wq : dto_wq) (fuel s1 s2 n : Nat)
    (w : World) (hn : 1 ≤ n) (hg : 1 ≤ w.g.dsa_min_size) (hM : 1 ≤ wq.max_transfer_size)
    (hT : wq.max_transfer_size < 2 ^ 32) (hfuel : ceil_div n wq.max_transfer_size ≤ fuel) :
    ∃ r, dto_memcmp hw wq fuel s1 s2 n w = some r ∧
      r.2.ndesc ≤ w.ndesc + ceil_div n wq.max_transfer_size ∧
      (r.2.result = SUCCESS → r.2.ndesc ≤ w.ndesc + r.2.thr_bytes_completed) := by
  rw [dto_memcmp_eq]
  have hc := ceil_div_pos n _ hn hM
  have key : ∃ w3, (if n ≤ wq.max_transfer_size then
        some (dto_memcmp_chunk (hw w.ndesc) wq s1 s2 n (compare_start s2 w))
      else dto_memcmp_loop hw wq s1 s2 fuel n (compare_start s2 w)) = some w3 ∧
      w3.ndesc ≤ w.ndesc + ceil_div n wq.max_transfer_size ∧
      (w3.result = SUCCESS → w3.ndesc ≤ w.ndesc + w3.thr_bytes_completed) := by
    by_cases hb : n ≤ wq.max_transfer_size
    · rw [if_pos hb]
      obtain ⟨hnd, _, hp⟩ := dto_memcmp_chunk_progress (hw w.ndesc) wq s1 s2 n
        (compare_start s2 w) hT
      have hl : chunk_len n wq.max_transfer_size = n := by unfold chunk_len; rw [if_pos hb]
      rw [hl] at hp
      refine ⟨_, rfl, ?_, fun hr => ?_⟩
      · rw [hnd]; show w.ndesc + 1 ≤ _; omega
      · rw [hnd, hp hr]; show w.ndesc + 1 ≤ w.ndesc + (0 + n); omega
    · rw [if_neg hb]
      obtain ⟨w1, e, b1, b2⟩ := dto_memcmp_loop_bound hw wq s1 s2 hM hT fuel n
        (compare_start s2 w) hn hg hfuel
      exact ⟨w1, e, b1, fun hr => by have := b2 hr; simpa [compare_start] using this⟩
  obtain ⟨w3, e, b1, b2⟩ := key
  rw [e]
  dsimp only
  have hle := ceil_div_le n _ hM
  split_ifs
  · exact ⟨_, rfl, b1, fun _ => by show w3.ndesc ≤ w.ndesc + n; omega⟩
  · exact ⟨_, rfl, b1, b2⟩

theorem dsa_execute_progress (h : Hw) (w : World) (hr : (dsa_execute h w).result = SUCCESS) :
    (dsa_execute h w).thr_bytes_completed = w.thr_bytes_completed + w.thr_desc.xfer_size := by
  have e := dsa_execute_eq h w
  have hr2 : (chunk_result h w w.thr_desc 0 w.mem []).result = SUCCESS := by
    rw [← e]; exact hr
  have hb := chunk_result_bytes _ _ _ _ _ _ hr2
  rw [← e] at hb
  exact hb

set_option maxRecDepth 100000 in
/-- C13 fails as stated.  With `DTO_MIN_BYTES=0`, a transfer limit of 131072 and
an accelerator that completes every descriptor with Success, the loops of
`dto_memset` and `dto_memcpymove` on 200000 bytes have not exited after 2
iterations, the bound `⌈200000 / 131072⌉`, nor after 64: the third iteration
runs with 0 bytes left, retires nothing and finds `0 >= dsa_min_size` true
again.  The same holds for `dto_memcmp` (100 equal bytes, transfer limit 64).
With the default `dsa_min_size`, `cpu_size_fraction = 0.5` and a transfer limit
of `2 ^ 31` the threshold `2 ^ 32` becomes 0 as a `uint32_t` and the loop of
`dto_memset` does not exit either. -/
theorem zero_min_size_never_exits :
    (init_dto (env_min_bytes 0) (World.static id)).g.dsa_min_size = 0 ∧
    ceil_div 200000 131072 = 2 ∧
    (dto_memset hw_success ⟨131072⟩ 2 4096 97 200000
      (init_dto (env_min_bytes 0) (World.static id))).isSome = false ∧
    (dto_memset hw_success ⟨131072⟩ 64 4096 97 200000
      (init_dto (env_min_bytes 0) (World.static id))).isSome = false ∧
    (dto_memcpymove hw_success ⟨131072⟩ 64 4096 1048576 200000 true
      (init_dto (env_min_bytes 0) (World.static id))).isSome = false ∧
    (dto_memcmp hw_success ⟨64⟩ 64 4096 8192 100
      (init_dto (env_min_bytes 0) (World.static mem_zero))).isSome = false ∧
    ((dto_memset_chunk (hw_success 1) 4096 97 131072 0 68928
        (dto_memset_chunk (hw_success 0) 4096 97 131072 0 200000
          (memset_start 4096 97
            (init_dto (env_min_bytes 0) (World.static id))))).thr_bytes_completed = 200000 ∧
      (dto_memset_chunk (hw_success 2) 4096 97 131072 0 0
        (dto_memset_chunk (hw_success 1) 4096 97 131072 0 68928
          (dto_memset_chunk (hw_success 0) 4096 97 131072 0 200000
            (memset_start 4096 97
              (init_dto (env_min_bytes 0) (World.static id)))))).thr_bytes_completed = 200000) ∧
    ((init_dto (env_fraction 1 2) (World.static id)).g.dsa_min_size = 8192 ∧
      (2147483648 * 100 / (100 - 50)) % 2 ^ 32 = 0 ∧
      (dto_memset hw_success ⟨2147483648⟩ 64 4096 97 6000000000
        (init_dto (env_fraction 1 2) (World.static id))).isSome = false) := by
  decide

/-- C13, amended: for every `n ≥ 1`, every configuration with `dsa_min_size ≥ 1`,
`cpu_size_fraction` in `[0, 1)` and `1 ≤ max_transfer_size` with
`max_transfer_size / (1 - cpu_size_fraction)` below `2 ^ 32`, and every
behaviour of queue and device, `dto_memset`, `dto_memcpymove` and `dto_memcmp`
return after at most `⌈n / max_transfer_size⌉` descriptors (that many
iterations of fuel suffice and `ndesc` grows by at most that number), and in a
run that ends with Success the number of iterations is at most the number of
bytes retired.  An iteration that ends with Success retires exactly its chunk
length `min(n, threshold)`, which is at least 1. -/
theorem chunk_loops_progress (hw : Nat → Hw) (wq : dto_wq) (fuel : Nat)
    (s dest src s1 s2 : Nat) (c : Int) (n : Nat) (is_memcpy : Bool) (w : World)
    (hn : 1 ≤ n) (hg : 1 ≤ w.g.dsa_min_size) (hf : w.g.cpu_size_fraction < 100)
    (hM : 1 ≤ wq.max_transfer_size)
    (hT : wq.max_transfer_size * 100 / (100 - w.g.cpu_size_fraction) < 2 ^ 32)
    (hfuel : ceil_div n wq.max_transfer_size ≤ fuel) :
    (∃ w1, dto_memset hw wq fuel s c n w = some w1 ∧
      w1.ndesc ≤ w.ndesc + ceil_div n wq.max_transfer_size ∧
      (w1.result = SUCCESS → w1.ndesc ≤ w.ndesc + w1.thr_bytes_completed)) ∧
    (∃ w1, dto_memcpymove hw wq fuel dest src n is_memcpy w = some w1 ∧
      w1.ndesc ≤ w.ndesc + ceil_div n wq.max_transfer_size ∧
      (w1.result = SUCCESS → w1.ndesc ≤ w.ndesc + w1.thr_bytes_completed)) ∧
    (∃ r, dto_memcmp hw wq fuel s1 s2 n w = some r ∧
      r.2.ndesc ≤ w.ndesc + ceil_div n wq.max_transfer_size ∧
      (r.2.result = SUCCESS → r.2.ndesc ≤ w.ndesc + r.2.thr_bytes_completed)) ∧
    (∀ (h : Hw) (T m : Nat), 1 ≤ T → T < 2 ^ 32 → 1 ≤ m →
      1 ≤ chunk_len m T ∧
      ((dto_memset_chunk h s c T w.g.cpu_size_fraction m w).result = SUCCESS →
        (dto_memset_chunk h s c T w.g.cpu_size_fraction m w).thr_bytes_completed =
          w.thr_bytes_completed + chunk_len m T) ∧
      ((dto_memcpymove_chunk h dest src is_memcpy T m w).result = SUCCESS →
        (dto_memcpymove_chunk h dest src is_memcpy T m w).thr_bytes_completed =
          w.thr_bytes_completed + chunk_len m T)) ∧
    ∀ h : Hw, (dsa_execute h w).result = SUCCESS →
      (dsa_execute h w).thr_bytes_completed = w.thr_bytes_completed + w.thr_desc.xfer_size := by
  have hT2 : wq.max_transfer_size < 2 ^ 32 := by
    have := threshold_ge _ _ hf hT
    omega
  refine ⟨dto_memset_bound hw wq fuel s c n w hn hg hf hM hT hfuel,
    dto_memcpymove_bound hw wq fuel dest src n is_memcpy w hn hg hf hM hT hfuel,
    dto_memcmp_bound hw wq fuel s1 s2 n w hn hg hM hT2 hfuel, ?_,
    fun h hr => dsa_execute_progress h w hr⟩
  intro h T m h1 h2 hm
  have hl := chunk_len_le_threshold m T
  exact ⟨chunk_len_pos m T hm h1,
    (dto_memset_chunk_progress h s c T _ m w (le_of_lt hf) (by omega)).2.2,
    (dto_memcpymove_chunk_progress h dest src is_memcpy T m w (le_of_lt hf) (by omega)).2.2.2⟩

/-- C13, amended, at a concrete input: 200000 bytes with the default
configuration and a transfer limit of 131072. -/
theorem chunk_loops_progress_witness :
    1 ≤ (world_default id).g.dsa_min_size ∧ (world_default id).g.cpu_size_fraction < 100 ∧
    131072 * 100 / (100 - (world_default id).g.cpu_size_fraction) < 2 ^ 32 ∧
    ceil_div 200000 131072 ≤ 2 ∧
    ∃ w1, dto_memset hw_success ⟨131072⟩ 2 4096 97 200000 (world_default id) = some w1 ∧
      w1.ndesc ≤ (world_default id).ndesc + ceil_div 200000 131072 ∧
      (w1.result = SUCCESS → w1.ndesc ≤ (world_default id).ndesc + w1.thr_bytes_completed) :=
  ⟨by decide, by decide, by decide, by decide,
    (chunk_loops_progress hw_success ⟨131072⟩ 2 4096 4096 1048576 4096 1048576 97 200000 true
      (world_default id) (by decide) (by decide) (by decide) (by decide) (by decide)
      (by decide)).1⟩

/-! ## C14: chunking of a 256 KiB fill -/

set_option maxRecDepth 100000 in
/-- C14 fails as stated: for `memset` of 262144 bytes with
`cpu_size_fraction = 0.25`, `max_transfer_size = 131072` and
`dsa_min_size = 8192` the two descriptors carry 131072 and 65537 bytes, not
98304 and 93696, and the CPU prefixes are 43690 and 21845 bytes long, not 32768
and 31232. -/
theorem fill_chunks_not_as_claimed :
    ((init_dto (env_fraction 1 4) (World.static id)).g.cpu_size_fraction = 25 ∧
      (init_dto (env_fraction 1 4) (World.static id)).g.dsa_min_size = 8192) ∧
    (memset hw_success ⟨131072⟩ 2 4096 97 262144
        (init_dto (env_fraction 1 4) (World.static id))).map
        (fun p => submitted_sizes p.2.trace) ≠ some [98304, 93696] ∧
    (memset hw_success ⟨131072⟩ 2 4096 97 262144
        (init_dto (env_fraction 1 4) (World.static id))).map
        (fun p => (chunk_view p.2.trace).2.1) ≠ some [32768, 31232] := by
  decide

set_option maxRecDepth 100000 in
/-- C14, amended: for `memset` of 262144 bytes at address 4096 with
`cpu_size_fraction = 0.25`, `max_transfer_size = 131072` and
`dsa_min_size = 8192`, all descriptors succeeding, the splitter issues exactly
two chunks of the threshold length `131072 / 0.75 = 174762` and of the
remaining 87382 bytes: chunk 1 is a CPU prefix of 43690 bytes and a descriptor
of 131072 bytes, chunk 2 a CPU prefix of 21845 bytes and a descriptor of 65537
bytes; the four regions follow one another from the start of the buffer,
`thr_bytes_completed` is 262144 and no CPU tail is run. -/
theorem fill_chunks_256k :
    (memset hw_success ⟨131072⟩ 2 4096 97 262144
        (init_dto (env_fraction 1 4) (World.static id))).map
        (fun p => (p.1, p.2.ndesc, p.2.thr_bytes_completed)) = some (4096, 2, 262144) ∧
    (memset hw_success ⟨131072⟩ 2 4096 97 262144
        (init_dto (env_fraction 1 4) (World.static id))).map
        (fun p => chunk_view p.2.trace) =
      some ([131072, 65537], [43690, 21845],
        [(4096, 43690), (4096 + 43690, 131072), (4096 + 174762, 21845),
          (4096 + 174762 + 21845, 65537)]) ∧
    131072 * 100 / (100 - 25) = 174762 ∧ 43690 + 131072 = 174762 ∧ 21845 + 65537 = 87382 ∧
    174762 + 87382 = 262144 := by
  decide

/-! ## C15: one byte more than the transfer limit -/

theorem chunk_result_ok (h : Hw) (w : World) (d : Desc) (cpu : Nat) (m1 : Mem)
    (ev : List Event) (hacc : h.retry 0 = false) (hst : h.status = DSA_COMP_SUCCESS) :
    (chunk_result h w d cpu m1 ev).result = SUCCESS ∧
    (chunk_result h w d cpu m1 ev).trace =
      w.trace ++ ([Event.enqcmd d false] ++ ev ++
        [Event.completed d d.xfer_size (deviceComp h d m1).result]) ∧
    (chunk_result h w d cpu m1 ev).thr_comp = deviceComp h d m1 ∧
    (chunk_result h w d cpu m1 ev).g = tune h.waits w.g := by
  have hS : enq_result h 0 ENQCMD_MAX_RETRIES = SUCCESS := by
    simp [ENQCMD_MAX_RETRIES, enq_result, hacc]
  unfold chunk_result
  rw [if_pos hS]
  simp [wait_result, wait_credit, hst, enq_events, ENQCMD_MAX_RETRIES, hacc]

theorem dsa_wait_and_adjust_min_size_two (waits : Nat) (g : Knobs)
    (hg : 2 ≤ g.dsa_min_size) : 2 ≤ (dsa_wait_and_adjust waits g).dsa_min_size := by
  unfold dsa_wait_and_adjust
  dsimp only
  unfold MAX_DSA_MIN_SIZE MIN_DSA_MIN_SIZE DMS_STEP_INCREMENT DMS_STEP_DECREMENT
  split_ifs <;> simp only [] <;> omega

theorem tune_min_size_two (waits : Nat) (g : Knobs) (hg : 2 ≤ g.dsa_min_size) :
    2 ≤ (tune waits g).dsa_min_size := by
  unfold tune
  split_ifs
  · exact dsa_wait_and_adjust_min_size_two waits g hg
  · exact hg

theorem deviceComp_result_ok (h : Hw) (d : Desc) (m : Mem) (hst : h.status = DSA_COMP_SUCCESS)
    (hop : d.opcode = .MEMFILL ∨ d.opcode = .MEMMOVE) : (deviceComp h d m).result = 0 := by
  unfold deviceComp
  rcases hop with hop | hop
  · rw [hop]
  · rw [hop]
    simp [hst]

theorem submitted_sizes_chunk (d : Desc) (ev : List Event) (res : Nat)
    (hev : submitted_sizes ev = []) :
    (submitted_sizes ([Event.enqcmd d false] ++ ev ++
      [Event.completed d d.xfer_size res])).length = 1 := by
  rw [submitted_sizes_append, submitted_sizes_append, hev]
  rfl

/-- The common part of the four code sites: a chunk of length `len` whose
descriptor succeeds. -/
theorem chunk_one_descriptor (h : Hw) (w0 w : World) (d : Desc) (cpu len M : Nat) (m1 : Mem)
    (ev : List Event) (hacc : h.retry 0 = false) (hst : h.status = DSA_COMP_SUCCESS)
    (hop : d.opcode = .MEMFILL ∨ d.opcode = .MEMMOVE) (hev : submitted_sizes ev = [])
    (hnd : w.ndesc = w0.ndesc) (htr : ∃ e, w.trace = w0.trace ++ [e] ∧ submitted_sizes [e] = [])
    (hb : w.thr_bytes_completed = 0) (hx : cpu + d.xfer_size = len) (h1 : M ≤ len)
    (h2 : len ≤ M + 1) :
    OneDescriptor M w0 (chunk_result h w d cpu m1 ev) := by
  obtain ⟨r1, r2, r3, _⟩ := chunk_result_ok h w d cpu m1 ev hacc hst
  have hbytes := chunk_result_bytes h w d cpu m1 ev r1
  obtain ⟨e, he, hes⟩ := htr
  refine ⟨?_, r1, ?_, ?_, ?_, ?_⟩
  · rw [chunk_result_ndesc, hnd]
  · rw [r3]; exact deviceComp_result_ok h d m1 hst hop
  · rw [hbytes, hb]; omega
  · rw [hbytes, hb]; omega
  · refine ⟨[e] ++ ([Event.enqcmd d false] ++ ev ++
      [Event.completed d d.xfer_size (deviceComp h d m1).result]), ?_, ?_⟩
    · rw [r2, he, List.append_assoc]
    · rw [submitted_sizes_append, hes, List.nil_append]
      exact submitted_sizes_chunk d ev _ hev

theorem dto_memset_above_limit (hw : Nat → Hw) (wq : dto_wq) (fuel : Nat) (s : Nat) (c : Int)
    (w : World) (hf : w.g.cpu_size_fraction < 100) (hmin : 2 ≤ w.g.dsa_min_size)
    (hT : wq.max_transfer_size * 100 / (100 - w.g.cpu_size_fraction) < 2 ^ 32)
    (hok : ∀ i, (hw i).retry 0 = false ∧ (hw i).status = DSA_COMP_SUCCESS) (hfuel : 1 ≤ fuel) :
    ∃ w1, dto_memset hw wq fuel s c (wq.max_transfer_size + 1) w = some w1 ∧
      OneDescriptor wq.max_transfer_size w w1 := by
  obtain ⟨t1, t2⟩ := threshold_ge _ _ hf hT
  obtain ⟨hacc, hst⟩ := hok w.ndesc
  rw [dto_memset_eq]
  by_cases hb : wq.max_transfer_size + 1 -
      (wq.max_transfer_size + 1) * w.g.cpu_size_fraction / 100 ≤ wq.max_transfer_size
  · rw [if_pos hb]
    refine ⟨_, rfl, ?_⟩
    rw [dto_memset_chunk_eq]
    simp only [le_refl, if_true]
    have hc := cpu_share_le (wq.max_transfer_size + 1) w.g.cpu_size_fraction (le_of_lt hf)
    refine chunk_one_descriptor (hw w.ndesc) w (memset_start s c w) _ _
      (wq.max_transfer_size + 1) wq.max_transfer_size _ _ hacc hst (Or.inl rfl) ?_ rfl
      ⟨Event.get_wq s, rfl, rfl⟩ rfl ?_ (by omega) (le_refl _)
    · split_ifs <;> rfl
    · show _ + (_ - _) % 2 ^ 32 = _
      rw [Nat.mod_eq_of_lt (by omega)]
      omega
  · rw [if_neg hb]
    obtain ⟨k, rfl⟩ : ∃ k, fuel = k + 1 := ⟨fuel - 1, by omega⟩
    generalize hTd : (wq.max_transfer_size * 100 / (100 - w.g.cpu_size_fraction)) % 2 ^ 32 = T
      at t1 t2 ⊢
    have hl1 : wq.max_transfer_size ≤ chunk_len (wq.max_transfer_size + 1) T := by
      unfold chunk_len; split_ifs <;> omega
    have hl2 := chunk_len_le (wq.max_transfer_size + 1) T
    have hl3 := chunk_len_le_threshold (wq.max_transfer_size + 1) T
    have hc := cpu_share_le (chunk_len (wq.max_transfer_size + 1) T) w.g.cpu_size_fraction
      (le_of_lt hf)
    have hone : OneDescriptor wq.max_transfer_size w
        (dto_memset_chunk (hw w.ndesc) s c T w.g.cpu_size_fraction (wq.max_transfer_size + 1)
          (memset_start s c w)) := by
      rw [dto_memset_chunk_eq]
      refine chunk_one_descriptor (hw w.ndesc) w (memset_start s c w) _ _
        (chunk_len (wq.max_transfer_size + 1) T) wq.max_transfer_size _ _ hacc hst (Or.inl rfl)
        ?_ rfl ⟨Event.get_wq s, rfl, rfl⟩ rfl ?_ hl1 hl2
      · split_ifs <;> rfl
      · show chunk_len (wq.max_transfer_size + 1) T * w.g.cpu_size_fraction / 100 +
          (chunk_len (wq.max_transfer_size + 1) T -
            chunk_len (wq.max_transfer_size + 1) T * w.g.cpu_size_fraction / 100) % 2 ^ 32 = _
        rw [Nat.mod_eq_of_lt (by omega)]
        omega
    have hg : 2 ≤ (dto_memset_chunk (hw w.ndesc) s c T w.g.cpu_size_fraction
        (wq.max_transfer_size + 1) (memset_start s c w)).g.dsa_min_size := by
      rw [dto_memset_chunk_eq, (chunk_result_ok _ _ _ _ _ _ hacc hst).2.2.2]
      exact tune_min_size_two _ _ hmin
    refine ⟨_, ?_, hone⟩
    unfold dto_memset_loop
    dsimp only
    unfold chunk_len at hl1
    rw [if_neg (by rw [show (memset_start s c w).ndesc = w.ndesc from rfl]
                   exact not_not.2 hone.2.1),
      if_neg (by rw [show (memset_start s c w).ndesc = w.ndesc from rfl]; omega)]
    rfl

theorem submitted_sizes_copy_events (is_memcpy : Bool) (d s k : Nat) :
    submitted_sizes (copy_events is_memcpy d s k) = [] := by
  unfold copy_events
  cases is_memcpy <;> split_ifs <;> rfl

theorem dto_memcpymove_above_limit (hw : Nat → Hw) (wq : dto_wq) (fuel dest src : Nat)
    (is_memcpy : Bool) (w : World) (hf : w.g.cpu_size_fraction < 100)
    (hmin : 2 ≤ w.g.dsa_min_size)
    (hT : wq.max_transfer_size * 100 / (100 - w.g.cpu_size_fraction) < 2 ^ 32)
    (hok : ∀ i, (hw i).retry 0 = false ∧ (hw i).status = DSA_COMP_SUCCESS) (hfuel : 1 ≤ fuel) :
    ∃ w1, dto_memcpymove hw wq fuel dest src (wq.max_transfer_size + 1) is_memcpy w = some w1 ∧
      OneDescriptor wq.max_transfer_size w w1 := by
  obtain ⟨t1, t2⟩ := threshold_ge _ _ hf hT
  obtain ⟨hacc, hst⟩ := hok w.ndesc
  rw [dto_memcpymove_eq]
  by_cases hb : wq.max_transfer_size + 1 -
      copy_cpu_size is_memcpy dest src (wq.max_transfer_size + 1) w.g.cpu_size_fraction ≤
        wq.max_transfer_size
  · rw [if_pos hb]
    refine ⟨_, rfl, ?_⟩
    rw [dto_memcpymove_chunk_eq]
    simp only [le_refl, if_true]
    have hc := copy_cpu_size_le is_memcpy dest src (wq.max_transfer_size + 1)
      w.g.cpu_size_fraction (le_of_lt hf)
    refine chunk_one_descriptor (hw w.ndesc) w (copy_start dest w) _ _
      (wq.max_transfer_size + 1) wq.max_transfer_size _ _ hacc hst (Or.inr rfl)
      (submitted_sizes_copy_events _ _ _ _) rfl
      ⟨Event.get_wq dest, rfl, rfl⟩ rfl ?_ (by omega) (le_refl _)
    show copy_cpu_size is_memcpy dest src (wq.max_transfer_size + 1) w.g.cpu_size_fraction +
      (wq.max_transfer_size + 1 -
        copy_cpu_size is_memcpy dest src (wq.max_transfer_size + 1) w.g.cpu_size_fraction) %
          2 ^ 32 = _
    rw [Nat.mod_eq_of_lt (by omega)]
    omega
  · rw [if_neg hb]
    obtain ⟨k, rfl⟩ : ∃ k, fuel = k + 1 := ⟨fuel - 1, by omega⟩
    generalize hTd : (wq.max_transfer_size * 100 / (100 - w.g.cpu_size_fraction)) % 2 ^ 32 = T
      at t1 t2 ⊢
    have hl1 : wq.max_transfer_size ≤ chunk_len (wq.max_transfer_size + 1) T := by
      unfold chunk_len; split_ifs <;> omega
    have hl2 := chunk_len_le (wq.max_transfer_size + 1) T
    have hl3 := chunk_len_le_threshold (wq.max_transfer_size + 1) T
    have hc := copy_cpu_size_le is_memcpy dest src (chunk_len (wq.max_transfer_size + 1) T)
      w.g.cpu_size_fraction (le_of_lt hf)
    have hone : OneDescriptor wq.max_transfer_size w
        (dto_memcpymove_chunk (hw w.ndesc) dest src is_memcpy T (wq.max_transfer_size + 1)
          (copy_start dest w)) := by
      rw [dto_memcpymove_chunk_eq]
      refine chunk_one_descriptor (hw w.ndesc) w (copy_start dest w) _ _
        (chunk_len (wq.max_transfer_size + 1) T) wq.max_transfer_size _ _ hacc hst (Or.inr rfl)
        (submitted_sizes_copy_events _ _ _ _) rfl ⟨Event.get_wq dest, rfl, rfl⟩ rfl ?_ hl1 hl2
      show copy_cpu_size is_memcpy dest src (chunk_len (wq.max_transfer_size + 1) T)
          w.g.cpu_size_fraction +
        (chunk_len (wq.max_transfer_size + 1) T -
          copy_cpu_size is_memcpy dest src (chunk_len (wq.max_transfer_size + 1) T)
            w.g.cpu_size_fraction) % 2 ^ 32 = _
      rw [Nat.mod_eq_of_lt (by omega)]
      omega
    have hg : 2 ≤ (dto_memcpymove_chunk (hw w.ndesc) dest src is_memcpy T
        (wq.max_transfer_size + 1) (copy_start dest w)).g.dsa_min_size := by
      rw [dto_memcpymove_chunk_eq, (chunk_result_ok _ _ _ _ _ _ hacc hst).2.2.2]
      exact tune_min_size_two _ _ hmin
    refine ⟨_, ?_, hone⟩
    unfold dto_memcpymove_loop
    dsimp only
    unfold chunk_len at hl1
    rw [if_neg (by rw [show (copy_start dest w).ndesc = w.ndesc from rfl]
                   exact not_not.2 hone.2.1),
      if_neg (by rw [show (copy_start dest w).ndesc = w.ndesc from rfl]; omega)]
    rfl

theorem run_of_splitter (hw : Nat → Hw) (wq : dto_wq) (fuel : Nat) (call : Call) (w w1 : World)
    (hinit : w.dto_initialized ≠ 0) (hpath : USE_ORIG_FUNC w call.size = false)
    (hs : call.splitter hw wq fuel w = some w1) :
    ∃ ret w', call.run hw wq fuel w = some (ret, w') ∧ w'.ndesc = w1.ndesc ∧
      w'.trace = w1.trace ++ call.tail w1 := by
  cases call with
  | memset s c n =>
    simp only [Call.size] at hpath
    simp only [Call.splitter] at hs
    simp only [Call.run, memset, hinit, if_false, hpath, if_true, hs, Call.tail]
    split_ifs with hb
    · exact ⟨_, _, rfl, rfl, rfl⟩
    · exact ⟨_, _, rfl, rfl, (List.append_nil _).symm⟩
  | memcpy d s n =>
    simp only [Call.size] at hpath
    simp only [Call.splitter] at hs
    simp only [Call.run, memcpy, hinit, if_false, hpath, if_true, hs, Call.tail]
    refine ⟨_, _, rfl, ?_, ?_⟩
    · unfold finish_copy
      split_ifs <;> rfl
    · unfold finish_copy
      split_ifs <;> simp [orig_copy, orig_memcpy, World.log]
  | memmove d s n =>
    simp only [Call.size] at hpath
    simp only [Call.splitter] at hs
    simp only [Call.run, memmove, hinit, if_false, hpath, if_true, hs, Call.tail]
    refine ⟨_, _, rfl, ?_, ?_⟩
    · unfold finish_copy
      split_ifs <;> rfl
    · unfold finish_copy
      split_ifs <;> simp [orig_copy, orig_memmove, World.log]

theorem submitted_sizes_tail (call : Call) (w1 : World) : submitted_sizes (call.tail w1) = [] := by
  cases call <;> simp only [Call.tail] <;> split_ifs <;> rfl

set_option maxRecDepth 100000 in
/-- C15 fails as stated: with the default configuration and a transfer limit of
131072, `memset`, `memcpy` and `memmove` of 131073 bytes each submit one
descriptor, of 131072 bytes, and finish the last byte with the original
routine at `base + 131072`; with `cpu_size_fraction = 0.25` the one descriptor
of `memset` carries 98305 bytes after a CPU prefix of 32768 bytes. -/
theorem one_byte_over_is_one_descriptor :
    ((memset hw_success ⟨131072⟩ 2 4096 97 131073 (world_default id)).map
        (fun p => (submitted_sizes p.2.trace).length) ≠ some 2 ∧
      (memset hw_success ⟨131072⟩ 2 4096 97 131073 (world_default id)).map
        (fun p => chunk_view p.2.trace) =
      some ([131072], [1], [(4096, 131072), (4096 + 131072, 1)])) ∧
    ((memcpy hw_success ⟨131072⟩ 2 4096 1048576 131073 (world_default id)).map
        (fun p => (submitted_sizes p.2.trace).length) ≠ some 2 ∧
      (memcpy hw_success ⟨131072⟩ 2 4096 1048576 131073 (world_default id)).map
        (fun p => chunk_view p.2.trace) =
      some ([131072], [1], [(4096, 131072), (4096 + 131072, 1)])) ∧
    ((memmove hw_success ⟨131072⟩ 2 4097 4096 131073 (world_default id)).map
        (fun p => (submitted_sizes p.2.trace).length) ≠ some 2 ∧
      (memmove hw_success ⟨131072⟩ 2 4097 4096 131073 (world_default id)).map
        (fun p => chunk_view p.2.trace) =
      some ([131072], [1], [(4097, 131072), (4097 + 131072, 1)])) ∧
    (memset hw_success ⟨131072⟩ 2 4096 97 131073
        (init_dto (env_fraction 1 4) (World.static id))).map
        (fun p => chunk_view p.2.trace) =
      some ([98305], [32768], [(4096, 32768), (4096 + 32768, 98305)]) :=
  ⟨⟨by decide, by decide⟩, ⟨by decide, by decide⟩, ⟨by decide, by decide⟩, by decide⟩

/-- C15, amended: for a fill, copy or move of `n = max_transfer_size + 1` bytes
on the accelerator path, for every `cpu_size_fraction` in `[0, 1)` with
`max_transfer_size / (1 - cpu_size_fraction)` below `2 ^ 32`, the default
`dsa_min_size = 8192` and descriptors that are accepted at once and succeed,
the splitter returns after exactly one descriptor: its actions contain one
`enqcmd`, `thr_bytes_completed` is `max_transfer_size` or `max_transfer_size + 1`
and the result byte is zero; the entry point submits no further descriptor and
runs the original routine on what is left, at most one byte, at
`base + thr_bytes_completed` (`Call.tail`). -/
theorem one_descriptor_above_limit (hw : Nat → Hw) (wq : dto_wq) (fuel : Nat) (call : Call)
    (w : World) (hinit : w.dto_initialized ≠ 0) (hstd : w.use_std_lib_calls ≠ 1)
    (hmin : w.g.dsa_min_size = DTO_DEFAULT_MIN_SIZE) (hf : w.g.cpu_size_fraction < 100)
    (hsz : call.size = wq.max_transfer_size + 1) (hacc : DTO_DEFAULT_MIN_SIZE ≤ call.size)
    (hT : wq.max_transfer_size * 100 / (100 - w.g.cpu_size_fraction) < 2 ^ 32)
    (hok : ∀ i, (hw i).retry 0 = false ∧ (hw i).status = DSA_COMP_SUCCESS)
    (hfuel : 1 ≤ fuel) :
    ∃ w1 ret w', call.splitter hw wq fuel w = some w1 ∧
      call.run hw wq fuel w = some (ret, w') ∧
      w1.ndesc = w.ndesc + 1 ∧ w1.result = SUCCESS ∧ w1.thr_comp.result = 0 ∧
      wq.max_transfer_size ≤ w1.thr_bytes_completed ∧
      w1.thr_bytes_completed ≤ wq.max_transfer_size + 1 ∧
      (∃ t, w1.trace = w.trace ++ t ∧ (submitted_sizes t).length = 1) ∧
      w'.ndesc = w.ndesc + 1 ∧ w'.trace = w1.trace ++ call.tail w1 ∧
      submitted_sizes (call.tail w1) = [] := by
  have hpath : USE_ORIG_FUNC w call.size = false := by
    unfold USE_ORIG_FUNC
    simp only [Bool.or_eq_false_iff, decide_eq_false_iff_not]
    exact ⟨hstd, by rw [hmin]; omega⟩
  have hmin2 : 2 ≤ w.g.dsa_min_size := by rw [hmin]; decide
  have hsp : ∃ w1, call.splitter hw wq fuel w = some w1 ∧
      OneDescriptor wq.max_transfer_size w w1 := by
    cases call with
    | memset s c n =>
      simp only [Call.size] at hsz
      subst hsz
      exact dto_memset_above_limit hw wq fuel s c { w with result := 0 } hf hmin2 hT hok hfuel
    | memcpy d s n =>
      simp only [Call.size] at hsz
      subst hsz
      exact dto_memcpymove_above_limit hw wq fuel d s true { w with result := 0 } hf hmin2 hT
        hok hfuel
    | memmove d s n =>
      simp only [Call.size] at hsz
      subst hsz
      exact dto_memcpymove_above_limit hw wq fuel d s false { w with result := 0 } hf hmin2 hT
        hok hfuel
  obtain ⟨w1, hs, o1, o2, o3, o4, o5, o6⟩ := hsp
  obtain ⟨ret, w', hr, hnd, htr⟩ := run_of_splitter hw wq fuel call w w1 hinit hpath hs
  exact ⟨w1, ret, w', hs, hr, o1, o2, o3, o4, o5, o6, by rw [hnd, o1], htr,
    submitted_sizes_tail call w1⟩

/-- C15, amended, at a concrete input: a fill of 131073 bytes with the default
configuration and a transfer limit of 131072. -/
theorem one_descriptor_above_limit_witness :
    (world_default id).dto_initialized ≠ 0 ∧ (world_default id).use_std_lib_calls ≠ 1 ∧
    (world_default id).g.dsa_min_size = DTO_DEFAULT_MIN_SIZE ∧
    (world_default id).g.cpu_size_fraction < 100 ∧
    ∃ w1 ret w', (Call.memset 4096 97 131073).splitter hw_success ⟨131072⟩ 1 (world_default id) =
        some w1 ∧
      (Call.memset 4096 97 131073).run hw_success ⟨131072⟩ 1 (world_default id) =
        some (ret, w') ∧
      w1.ndesc = (world_default id).ndesc + 1 ∧ w1.result = SUCCESS ∧ w1.thr_comp.result = 0 ∧
      131072 ≤ w1.thr_bytes_completed ∧ w1.thr_bytes_completed ≤ 131072 + 1 ∧
      (∃ t, w1.trace = (world_default id).trace ++ t ∧ (submitted_sizes t).length = 1) ∧
      w'.ndesc = (world_default id).ndesc + 1 ∧
      w'.trace = w1.trace ++ (Call.memset 4096 97 131073).tail w1 ∧
      submitted_sizes ((Call.memset 4096 97 131073).tail w1) = [] :=
  ⟨by decide, by decide, by decide, by decide,
    one_descriptor_above_limit hw_success ⟨131072⟩ 1 (Call.memset 4096 97 131073)
      (world_default id) (by decide) (by decide) (by decide) (by decide) rfl (by decide)
      (by decide) (fun _ => ⟨rfl, rfl⟩) (by decide)⟩

/-! ## C20: the forward fill of the device table -/

theorem correct_devices_list_loop_spec (d0 : Nat → Option Nat) : ∀ (k i : Nat) (dev : Option Nat)
    (devices : Nat → Option Nat),
    (∀ j, j < i → devices j = last_populated d0 j) → (∀ j, i ≤ j → devices j = d0 j) →
    (dev = match i with | 0 => none | i1 + 1 => last_populated d0 i1) →
    ∀ j, correct_devices_list_loop i k dev devices j =
      if j < i + k then last_populated d0 j else d0 j := by
  intro k
  induction k with
  | zero =>
    intro i dev devices h1 h2 _ j
    simp only [correct_devices_list_loop, Nat.add_zero]
    split_ifs with hj
    · exact h1 j hj
    · exact h2 j (by omega)
  | succ k ih =>
    intro i dev devices h1 h2 hdev j
    unfold correct_devices_list_loop
    have hlp : last_populated d0 i = match d0 i with | some p => some p | none => dev := by
      cases i with
      | zero =>
        simp only [last_populated]
        cases d0 0 <;> simp [hdev]
      | succ i1 =>
        simp only [last_populated]
        cases d0 (i1 + 1) <;> simp [hdev]
    have hdi := h2 i (le_refl i)
    cases hd : devices i with
    | some p =>
      rw [hd] at hdi
      rw [← hdi] at hlp
      simp only at hlp
      dsimp only
      rw [ih (i + 1) (some p) devices ?_ ?_ ?_ j]
      · rw [show i + 1 + k = i + (k + 1) by omega]
      · intro j1 hj1
        rcases Nat.lt_succ_iff_lt_or_eq.1 hj1 with h | h
        · exact h1 j1 h
        · subst h; rw [hd, hlp]
      · intro j1 hj1
        exact h2 j1 (by omega)
      · exact hlp.symm
    | none =>
      rw [hd] at hdi
      rw [← hdi] at hlp
      simp only at hlp
      dsimp only
      rw [ih (i + 1) dev (upd devices i dev) ?_ ?_ ?_ j]
      · rw [show i + 1 + k = i + (k + 1) by omega]
      · intro j1 hj1
        rcases Nat.lt_succ_iff_lt_or_eq.1 hj1 with h | h
        · unfold upd
          rw [if_neg (by omega)]
          exact h1 j1 h
        · subst h
          unfold upd
          rw [if_pos rfl, hlp]
      · intro j1 hj1
        unfold upd
        rw [if_neg (by omega)]
        exact h2 j1 (by omega)
      · exact hlp.symm

theorem last_populated_none (d : Nat → Option Nat) : ∀ i,
    (∀ j, j ≤ i → d j = none) → last_populated d i = none := by
  intro i
  induction i with
  | zero => intro h; exact h 0 (le_refl 0)
  | succ i ih =>
    intro h
    simp only [last_populated, h (i + 1) (le_refl _)]
    exact ih (fun j hj => h j (by omega))

theorem last_populated_some (d : Nat → Option Nat) (j : Nat) (hj : d j ≠ none) : ∀ i, j ≤ i →
    ∃ j1 p, j ≤ j1 ∧ j1 ≤ i ∧ d j1 = some p ∧ last_populated d i = some p ∧
      ∀ j2, j1 < j2 → j2 ≤ i → d j2 = none := by
  intro i
  induction i with
  | zero =>
    intro h0
    have : j = 0 := by omega
    subst this
    cases hd : d 0 with
    | none => exact absurd hd hj
    | some p => exact ⟨0, p, le_refl 0, le_refl 0, hd, by simp [last_populated, hd], by
        intro j2 h1 h2; omega⟩
  | succ i ih =>
    intro hji
    cases hd : d (i + 1) with
    | some p =>
      exact ⟨i + 1, p, hji, le_refl _, hd, by simp [last_populated, hd], by
        intro j2 h1 h2; omega⟩
    | none =>
      have hne : j ≠ i + 1 := by
        intro e; subst e; exact hj hd
      obtain ⟨j1, p, h1, h2, h3, h4, h5⟩ := ih (by omega)
      refine ⟨j1, p, h1, by omega, h3, by simp [last_populated, hd, h4], ?_⟩
      intro j2 a b
      rcases Nat.lt_or_ge j2 (i + 1) with c | c
      · exact h5 j2 a (by omega)
      · have : j2 = i + 1 := by omega
        subst this
        exact hd

theorem correct_devices_list_eq (r : Registry) (j : Nat) :
    (correct_devices_list r).devices j =
      if j < MAX_NUMA_NODES then last_populated r.devices j else r.devices j := by
  have := correct_devices_list_loop_spec r.devices MAX_NUMA_NODES 0 none r.devices
    (fun j hj => absurd hj (Nat.not_lt_zero j)) (fun _ _ => rfl) rfl j
  simpa [correct_devices_list] using this

/-- C20 fails as stated.  On a platform with `dsa0` on NUMA node 1 (one usable
work queue) and `dsa2` on node 4 (no usable work queue), probing with NUMA
awareness on returns 0 and leaves slot 0 of the device table empty and slots 4
and 5 referring to a group with no work queue, although the highest populated
index before the fill was 4; `correct_devices_list` alone does the same to a
table with these two groups. -/
theorem forward_fill_leaves_gaps :
    (dsa_init_from_accfg accfg_sparse { Registry.static with is_numa_aware := 1 }).1 = 0 ∧
    (List.range 6).map (slot_num_wqs
        (dsa_init_from_accfg accfg_sparse { Registry.static with is_numa_aware := 1 }).2) =
      [none, some 1, some 1, some 1, some 0, some 0] ∧
    (List.range 6).map (slot_num_wqs registry_sparse) =
      [none, some 1, none, none, some 0, none] ∧
    (List.range 6).map (slot_num_wqs (correct_devices_list registry_sparse)) =
      [none, some 1, some 1, some 1, some 0, some 0] := by
  decide

/-- C20, amended: after `correct_devices_list` every slot `i < 32` of the device
table holds the entry that the nearest populated slot at or below `i` held
before (`last_populated`): a populated slot keeps its group, a slot at or above
a populated one refers to the group of the nearest populated slot below it,
and a slot below the lowest populated index stays empty.  The groups themselves
are not touched, so a slot refers to a group that holds a work queue exactly
when that nearest populated slot did; nothing outside the 32 slots changes. -/
theorem forward_fill (r : Registry) (i : Nat) (hi : i < MAX_NUMA_NODES) :
    (correct_devices_list r).devices i = last_populated r.devices i ∧
    (∀ p, r.devices i = some p → (correct_devices_list r).devices i = some p) ∧
    (∀ j, j ≤ i → r.devices j ≠ none →
      ∃ j1 p, j ≤ j1 ∧ j1 ≤ i ∧ r.devices j1 = some p ∧
        (∀ j2, j1 < j2 → j2 ≤ i → r.devices j2 = none) ∧
        (correct_devices_list r).devices i = some p ∧
        slot_num_wqs (correct_devices_list r) i = slot_num_wqs r j1) ∧
    ((∀ j, j ≤ i → r.devices j = none) → (correct_devices_list r).devices i = none) ∧
    (correct_devices_list r).heap = r.heap ∧
    (correct_devices_list r).num_wqs = r.num_wqs ∧
    (∀ j, MAX_NUMA_NODES ≤ j → (correct_devices_list r).devices j = r.devices j) := by
  have e : (correct_devices_list r).devices i = last_populated r.devices i := by
    rw [correct_devices_list_eq, if_pos hi]
  refine ⟨e, ?_, ?_, ?_, rfl, rfl, ?_⟩
  · intro p hp
    rw [e]
    cases i with
    | zero => simp [last_populated, hp]
    | succ i1 => simp [last_populated, hp]
  · intro j hj hne
    obtain ⟨j1, p, h1, h2, h3, h4, h5⟩ := last_populated_some r.devices j hne i hj
    refine ⟨j1, p, h1, h2, h3, h5, by rw [e, h4], ?_⟩
    unfold slot_num_wqs
    rw [e, h4, h3]
    rfl
  · intro hnone
    rw [e]
    exact last_populated_none r.devices i hnone
  · intro j hj
    rw [correct_devices_list_eq, if_neg (by omega)]

/-- C20, amended, at a concrete table: slot 1 refers to a group with one work
queue, slot 4 to a group with none; slot 3 is filled from slot 1. -/
theorem forward_fill_witness :
    3 < MAX_NUMA_NODES ∧
    (correct_devices_list registry_sparse).devices 3 = last_populated registry_sparse.devices 3 ∧
    last_populated registry_sparse.devices 3 = some 0 ∧
    last_populated registry_sparse.devices 0 = none :=
  ⟨by decide, (forward_fill registry_sparse 3 (by decide)).1, by decide, by decide⟩

/-! ## C11: probing an explicit list -/

theorem cleanup_devices_loop_num_wqs : ∀ (k i : Nat) (dev : Option Nat) (r : Registry),
    (cleanup_devices_loop i k dev r).num_wqs = r.num_wqs := by
  intro k
  induction k with
  | zero => intro i dev r; rfl
  | succ k ih =>
    intro i dev r
    unfold cleanup_devices_loop
    dsimp only
    rw [ih]
    split_ifs
    · cases r.devices i <;> rfl
    · rfl

theorem cleanup_devices_num_wqs (r : Registry) : (cleanup_devices r).num_wqs = r.num_wqs :=
  cleanup_devices_loop_num_wqs _ _ _ _

/-- At the dedicated entry an iteration ends at the `continue` or at
`goto fail_wq`, and `num_wqs` is unchanged. -/
theorem wq_list_entry_dedicated (limit : Nat) (r : Registry) :
    ((wq_list_entry (sysfs_dedicated_first limit) ['w', 'q', '0', '.', '0'] r).1 = Step.again ∨
      ∃ rc, rc ≠ 0 ∧
        (wq_list_entry (sysfs_dedicated_first limit) ['w', 'q', '0', '.', '0'] r).1 =
          Step.fail rc) ∧
    (wq_list_entry (sysfs_dedicated_first limit) ['w', 'q', '0', '.', '0'] r).2.num_wqs =
      r.num_wqs := by
  have hs : scan_wq ['w', 'q', '0', '.', '0'] = some (0, 0) := by decide
  unfold wq_list_entry
  rw [hs]
  simp only [sysfs_dedicated_first, dto_get_param_ullong, dto_get_param_string]
  by_cases h1 : r.open_fds < limit
  · by_cases h2 : r.open_fds + 1 < limit
    · simp [h1, h2, ENOTSUP]
    · simp [h1, h2, ENOTSUP]
  · simp [h1]

theorem wq_list_loop_dedicated (limit : Nat) (rest : List Char) : ∀ (fuel : Nat) (r : Registry),
    r.num_wqs = 0 →
    match dsa_init_from_wq_list_loop (sysfs_dedicated_first limit) fuel
        (some ['w', 'q', '0', '.', '0']) rest r with
    | none => True
    | some (none, _) => False
    | some (some rc, _) => rc ≠ 0 := by
  intro fuel
  induction fuel with
  | zero => intro r _; simp [dsa_init_from_wq_list_loop]
  | succ fuel ih =>
    intro r hr
    obtain ⟨h1, h2⟩ := wq_list_entry_dedicated limit r
    unfold dsa_init_from_wq_list_loop
    rcases h1 with h1 | ⟨rc, hrc, h1⟩
    · generalize wq_list_entry (sysfs_dedicated_first limit) ['w', 'q', '0', '.', '0'] r = o
        at h1 h2
      obtain ⟨st, r1⟩ := o
      simp only at h1 h2
      subst h1
      simp only
      exact ih r1 (by rw [h2, hr])
    · generalize wq_list_entry (sysfs_dedicated_first limit) ['w', 'q', '0', '.', '0'] r = o
        at h1 h2
      obtain ⟨st, _⟩ := o
      simp only at h1 h2
      subst h1
      simpa using hrc

set_option maxRecDepth 100000 in
/-- C11 fails on the code.  With `DTO_WQ_LIST=wq0.0;wq0.1`, `wq0.0` dedicated and
`wq0.1` shared, the `continue` taken for `wq0.0` returns to the loop test
without calling `strtok(NULL, ";")`, so `wq0.0` is probed again, each time with
one more directory descriptor left open.  With a limit of 8 descriptors the
eighth iteration fails to open a file and the function returns `-EMFILE` with
no work queue registered and 7 descriptors leaked; 7 iterations do not end the
loop.  For every descriptor limit and every number of iterations the function,
if it returns, returns an error with `num_wqs = 0`: `wq0.1`, which alone in the
list is registered, is never reached. -/
theorem wq_list_continue_reprobes :
    (dsa_init_from_wq_list (sysfs_dedicated_first 8) 2 ['w', 'q', '0', '.', '1']
        Registry.static).map (fun p => (p.1, registered_paths p.2)) =
      some (0, [['/', 'd', 'e', 'v', '/', 'd', 's', 'a', '/', 'w', 'q', '0', '.', '1']]) ∧
    (dsa_init_from_wq_list (sysfs_dedicated_first 8) 100 wq_list_two Registry.static).map
        (fun p => (p.1, p.2.num_wqs, p.2.open_fds)) = some (-24, 0, 7) ∧
    (dsa_init_from_wq_list (sysfs_dedicated_first 8) 7 wq_list_two Registry.static).isSome =
      false ∧
    ∀ limit fuel,
      match dsa_init_from_wq_list (sysfs_dedicated_first limit) fuel wq_list_two
          Registry.static with
      | none => True
      | some (rc, r) => rc ≠ 0 ∧ r.num_wqs = 0 := by
  refine ⟨by decide, by decide, by decide, ?_⟩
  intro limit fuel
  have hs : strtok wq_list_two = (some ['w', 'q', '0', '.', '0'], ['w', 'q', '0', '.', '1']) := by
    decide
  have key := wq_list_loop_dedicated limit ['w', 'q', '0', '.', '1'] fuel
    { Registry.static with num_wqs := 0 } rfl
  unfold dsa_init_from_wq_list
  simp only [hs]
  generalize dsa_init_from_wq_list_loop (sysfs_dedicated_first limit) fuel
    (some ['w', 'q', '0', '.', '0']) ['w', 'q', '0', '.', '1']
    { Registry.static with num_wqs := 0 } = o at key ⊢
  match o, key with
  | none, _ => trivial
  | some (some rc, r1), hk => exact ⟨hk, cleanup_devices_num_wqs _⟩

/-! ## C12: the capacity of the registry -/

set_option maxRecDepth 100000 in
/-- C12 fails on the code.  On a platform with five enabled devices that have
seven usable work queues each, `dsa_init_from_accfg` registers all seven of
every device: the test `num_wqs == MAX_WQS` is made only between devices, where
`num_wqs` is 7, 14, 21, 28 and 35, so the routine returns 0 with
`num_wqs = 35` after writing the elements 32, 33 and 34 of the 32-element
array `wqs[]` (and of `used_devids[]`).  The writes into the group's `wqs[]`
stay below 32. -/
theorem accfg_registers_past_capacity :
    (dsa_init_from_accfg accfg_five Registry.static).1 = 0 ∧
    (dsa_init_from_accfg accfg_five Registry.static).2.num_wqs = 35 ∧
    (dsa_init_from_accfg accfg_five Registry.static).2.wqs_writes = List.range 35 ∧
    ((dsa_init_from_accfg accfg_five Registry.static).2.wqs 34).acc_wq =
      some ⟨4, 6, wq_usable⟩ ∧
    ¬ (∀ i ∈ (dsa_init_from_accfg accfg_five Registry.static).2.wqs_writes, i < MAX_WQS) ∧
    (dsa_init_from_accfg accfg_five { Registry.static with is_numa_aware := 1 }).2.num_wqs =
      35 ∧
    (∀ i ∈ (dsa_init_from_accfg accfg_five
        { Registry.static with is_numa_aware := 1 }).2.group_writes, i < MAX_WQS) := by
  decide

/-! ## C19: registry and device groups -/

set_option maxRecDepth 100000 in
/-- C19 fails on the code.  With `DTO_IS_NUMA_AWARE=1` and one usable work queue
on one device, initialization leaves `num_wqs = 1` and one device group with
the slot `&wqs[0]`.  The reinitialization that `child` runs after `fork` starts
from this state: `dsa_init_from_accfg` resets `num_wqs` but `devices[]` still
refers to the parent's group, so `get_dto_device` returns it and the work queue
is appended a second time.  In the child `num_wqs` is 1 while the group holds 2
slots, both `&wqs[0]`. -/
theorem child_reinit_duplicates_group_slots :
    ((registry_after platform_one 1 false).map
        (fun p => (p.1, p.2.is_numa_aware, p.2.num_wqs)) = some (0, 1, 1) ∧
      (registry_after platform_one 1 false).map
        (fun p => (distinct_groups p.2, group_total p.2, group_slots p.2 0)) =
          some ([0], 1, [some 0])) ∧
    ((registry_after platform_one 1 true).map
        (fun p => (p.1, p.2.is_numa_aware, p.2.num_wqs)) = some (0, 1, 1) ∧
      (registry_after platform_one 1 true).map
        (fun p => (distinct_groups p.2, group_total p.2, group_slots p.2 0)) =
          some ([0], 2, [some 0, some 0])) :=
  ⟨⟨by decide, by decide⟩, ⟨by decide, by decide⟩⟩

/-! ## C24: round-robin selection -/

theorem get_wq_flat (numa_node : Int) (r : Registry) (hna : r.is_numa_aware = 0)
    (hn : 1 ≤ r.num_wqs) :
    Registry.get_wq numa_node r =
      (some (r.next_wq % r.num_wqs), { r with next_wq := (r.next_wq + 1) % 256 }) := by
  unfold Registry.get_wq
  simp only [hna, ne_eq, not_true_eq_false, if_false]
  rw [if_neg (by omega)]

theorem after_get_wq_flat (numa : Nat → Int) (r : Registry) (hna : r.is_numa_aware = 0)
    (hn : 1 ≤ r.num_wqs) : ∀ k,
    after_get_wq numa k r = { r with next_wq := (r.next_wq + k) % 256 } ∨
      (k = 0 ∧ after_get_wq numa k r = r) := by
  intro k
  induction k with
  | zero => right; exact ⟨rfl, rfl⟩
  | succ k ih =>
    left
    unfold after_get_wq
    rcases ih with ih | ⟨hk, ih⟩
    · rw [ih, get_wq_flat (numa k) { r with next_wq := (r.next_wq + k) % 256 } hna hn]
      show { r with next_wq := ((r.next_wq + k) % 256 + 1) % 256 } = _
      congr 1
      omega
    · subst hk
      rw [ih, get_wq_flat _ _ hna hn]

theorem nth_get_wq_flat (numa : Nat → Int) (r : Registry) (hna : r.is_numa_aware = 0)
    (hn : 1 ≤ r.num_wqs) (k : Nat) :
    nth_get_wq numa k r = some ((r.next_wq + k) % 256 % r.num_wqs) ∨
      (k = 0 ∧ nth_get_wq numa k r = some (r.next_wq % r.num_wqs)) := by
  unfold nth_get_wq
  rcases after_get_wq_flat numa r hna hn k with h | ⟨hk, h⟩
  · left
    rw [h, get_wq_flat (numa k) { r with next_wq := (r.next_wq + k) % 256 } hna hn]
  · right
    rw [h, get_wq_flat _ _ hna hn]
    exact ⟨hk, rfl⟩

/-- C24 fails as stated: with three registered work queues and NUMA awareness
off, call number 256 of `get_wq` returns `wqs[0]`, as call number 255 did
(`255 mod 3 = 0`), while `256 mod 3 = 1`: the cursor `next_wq` is an
`atomic_uchar` and is back at 0 after 256 calls. -/
theorem round_robin_wraps_at_256 :
    nth_get_wq (fun _ => 0) 255 (registry_flat 3) = some 0 ∧
    nth_get_wq (fun _ => 0) 256 (registry_flat 3) = some 0 ∧
    nth_get_wq (fun _ => 0) 256 (registry_flat 3) ≠ some (256 % 3) ∧
    (after_get_wq (fun _ => 0) 256 (registry_flat 3)).next_wq = 0 := by
  have h255 : nth_get_wq (fun _ => 0) 255 (registry_flat 3) = some 0 := by
    rcases nth_get_wq_flat (fun _ => 0) (registry_flat 3) rfl (by decide) 255 with h | ⟨hk, _⟩
    · rw [h]; rfl
    · exact absurd hk (by decide)
  have h256 : nth_get_wq (fun _ => 0) 256 (registry_flat 3) = some 0 := by
    rcases nth_get_wq_flat (fun _ => 0) (registry_flat 3) rfl (by decide) 256 with h | ⟨hk, _⟩
    · rw [h]; rfl
    · exact absurd hk (by decide)
  refine ⟨h255, h256, ?_, ?_⟩
  · rw [h256]; decide
  · rcases after_get_wq_flat (fun _ => 0) (registry_flat 3) rfl (by decide) 256 with h | ⟨hk, _⟩
    · rw [h]; rfl
    · exact absurd hk (by decide)

/-- C24, amended: with NUMA awareness off, `num_wqs ≥ 1` and the cursor at 0,
call number `k` of `get_wq` in a single thread returns
`wqs[(k mod 256) mod num_wqs]`, the cursor being an 8-bit counter; this is
`wqs[k mod num_wqs]` for `k < 256` and, for every `k`, when `num_wqs` divides
256; the returned work queue is always one of the `num_wqs` registered ones. -/
theorem round_robin (numa : Nat → Int) (r : Registry) (k : Nat)
    (hna : r.is_numa_aware = 0) (hn : 1 ≤ r.num_wqs) (hc : r.next_wq = 0) :
    nth_get_wq numa k r = some (k % 256 % r.num_wqs) ∧
    (k < 256 → nth_get_wq numa k r = some (k % r.num_wqs)) ∧
    (r.num_wqs ∣ 256 → nth_get_wq numa k r = some (k % r.num_wqs)) ∧
    (∃ i, nth_get_wq numa k r = some i ∧ i < r.num_wqs) ∧
    (after_get_wq numa k r).next_wq = k % 256 := by
  have h1 : nth_get_wq numa k r = some (k % 256 % r.num_wqs) := by
    rcases nth_get_wq_flat numa r hna hn k with h | ⟨hk, h⟩
    · rw [h, hc, Nat.zero_add]
    · subst hk
      rw [h, hc]
  refine ⟨h1, ?_, ?_, ?_, ?_⟩
  · intro hk
    rw [h1, Nat.mod_eq_of_lt hk]
  · intro hd
    rw [h1, Nat.mod_mod_of_dvd k hd]
  · exact ⟨_, h1, Nat.mod_lt _ (by omega)⟩
  · rcases after_get_wq_flat numa r hna hn k with h | ⟨hk, h⟩
    · rw [h, hc, Nat.zero_add]
    · subst hk
      rw [h, hc]

/-- C24, amended, at a concrete input: three work queues, call number 300. -/
theorem round_robin_witness :
    (registry_flat 3).is_numa_aware = 0 ∧ 1 ≤ (registry_flat 3).num_wqs ∧
    (registry_flat 3).next_wq = 0 ∧
    nth_get_wq (fun _ => 0) 300 (registry_flat 3) = some (300 % 256 % (registry_flat 3).num_wqs) :=
  ⟨rfl, by decide, rfl, (round_robin (fun _ => 0) (registry_flat 3) 300 rfl (by decide) rfl).1⟩

/-! ## C21: one work queue per device -/

set_option maxRecDepth 100000 in
/-- C21 fails on the code.  On a platform with one enabled device `dsa0` that
has seven usable work queues and a dedicated one, `dsa_init_from_accfg`
registers all seven usable work queues of the device: after a registration the
loop over the work queues goes on to the next one, and `used_devids[]` is
consulted only when the next device is reached.  The dedicated work queue is
not registered, and every registered one is enabled, of user type and shared. -/
theorem accfg_registers_all_wqs_of_a_device :
    (dsa_init_from_accfg ⟨0, 24, [device_seven 0]⟩ Registry.static).1 = 0 ∧
    (dsa_init_from_accfg ⟨0, 24, [device_seven 0]⟩ Registry.static).2.num_wqs = 7 ∧
    registered_devices (dsa_init_from_accfg ⟨0, 24, [device_seven 0]⟩ Registry.static).2 =
      [some 0, some 0, some 0, some 0, some 0, some 0, some 0] ∧
    ¬ (registered_devices
        (dsa_init_from_accfg ⟨0, 24, [device_seven 0]⟩ Registry.static).2).Nodup ∧
    registered_usable (dsa_init_from_accfg ⟨0, 24, [device_seven 0]⟩ Registry.static).2 =
      true ∧
    (dsa_init_from_accfg accfg_five Registry.static).2.num_wqs = 35 ∧
    registered_usable (dsa_init_from_accfg accfg_five Registry.static).2 = true := by
  decide

/-! ## C22: the tuner step, in binary64 arithmetic -/

theorem round_half_even_error (q : ℚ) :
    |(Binary64.round_half_even q : ℚ) - q| ≤ 1 / 2 := by
  have h1 := Int.floor_le q
  have h2 := Int.lt_floor_add_one q
  unfold Binary64.round_half_even
  split_ifs with a b c
  · rw [abs_le]; constructor <;> linarith
  · push_cast; rw [abs_le]; constructor <;> linarith
  · rw [abs_le]; constructor <;> linarith
  · push_cast; rw [abs_le]; constructor <;> linarith

theorem round_half_even_near (q : ℚ) (n : ℤ) (h : |q - n| < 1 / 2) :
    Binary64.round_half_even q = n := by
  rw [abs_lt] at h
  have hf : ⌊q⌋ = n ∨ ⌊q⌋ = n - 1 := by
    by_cases hq : (n : ℚ) ≤ q
    · left; rw [Int.floor_eq_iff]; constructor <;> linarith
    · right; rw [Int.floor_eq_iff]; push_cast; constructor <;> linarith
  unfold Binary64.round_half_even
  rcases hf with hf | hf
  · rw [hf, if_pos (by linarith)]
  · rw [hf]
    push_cast
    rw [if_neg (by linarith), if_pos (by linarith)]
    ring

theorem round_half_even_intCast (n : ℤ) : Binary64.round_half_even (n : ℚ) = n :=
  round_half_even_near _ n (by simp)

theorem round_half_even_tie (n : ℤ) :
    Binary64.round_half_even ((n : ℚ) + 1 / 2) = if n % 2 = 0 then n else n + 1 := by
  have hf : ⌊(n : ℚ) + 1 / 2⌋ = n := by
    rw [Int.floor_eq_iff]; constructor <;> linarith
  unfold Binary64.round_half_even
  rw [hf, if_neg (by linarith), if_neg (by linarith)]

theorem nearest_of_exponent (x : ℚ) (e n : ℤ) (he : -1074 ≤ e)
    (hlo : (2 : ℚ) ^ (e + 52) ≤ |x|) (hhi : |x| < (2 : ℚ) ^ (e + 53))
    (hr : Binary64.round_half_even (x / 2 ^ e) = n) :
    Binary64.nearest x = n * 2 ^ e := by
  have hpos : (0 : ℚ) < |x| := lt_of_lt_of_le (by positivity) hlo
  have hx : x ≠ 0 := abs_pos.mp hpos
  have hlog : Int.log 2 |x| = e + 52 := by
    apply le_antisymm
    · have := (Int.lt_zpow_iff_log_lt (by norm_num : 1 < 2) hpos).mp
        (by push_cast; exact hhi : |x| < ((2 : ℕ) : ℚ) ^ (e + 53))
      omega
    · exact (Int.zpow_le_iff_le_log (by norm_num : 1 < 2) hpos).mp (by push_cast; exact hlo)
  unfold Binary64.nearest
  rw [if_neg hx, hlog, show e + 52 - 52 = e by ring, max_eq_left he, hr]

theorem nearest_exponent_le (x : ℚ) (k : ℤ) (hk : -1074 ≤ k) (h0 : x ≠ 0)
    (hx : |x| < (2 : ℚ) ^ (k + 53)) :
    max (Int.log 2 |x| - 52) (-1074) ≤ k := by
  have hpos : (0 : ℚ) < |x| := abs_pos.mpr h0
  have := (Int.lt_zpow_iff_log_lt (by norm_num : 1 < 2) hpos).mp
    (by push_cast; exact hx : |x| < ((2 : ℕ) : ℚ) ^ (k + 53))
  omega

theorem nearest_error (x : ℚ) (k : ℤ) (hk : -1074 ≤ k) (hx : |x| < (2 : ℚ) ^ (k + 53)) :
    |Binary64.nearest x - x| ≤ 2 ^ k / 2 := by
  unfold Binary64.nearest
  split_ifs with h0
  · subst h0
    simp only [sub_self, abs_zero]
    positivity
  · have hle := nearest_exponent_le x k hk h0 hx
    generalize max (Int.log 2 |x| - 52) (-1074) = e at hle
    have hp : (0 : ℚ) < 2 ^ e := by positivity
    have h1 := round_half_even_error (x / 2 ^ e)
    have h2 : (Binary64.round_half_even (x / 2 ^ e) : ℚ) * 2 ^ e - x =
        ((Binary64.round_half_even (x / 2 ^ e) : ℚ) - x / 2 ^ e) * 2 ^ e := by
      field_simp
    rw [h2, abs_mul, abs_of_pos hp]
    have h3 : (2 : ℚ) ^ e ≤ 2 ^ k := zpow_le_zpow_right₀ (by norm_num) hle
    calc |(Binary64.round_half_even (x / 2 ^ e) : ℚ) - x / 2 ^ e| * 2 ^ e
        ≤ 1 / 2 * 2 ^ e := by gcongr
      _ ≤ 1 / 2 * 2 ^ k := by gcongr
      _ = 2 ^ k / 2 := by ring

theorem nearest_dyadic (n k : ℤ) (hn : |n| < 2 ^ 53) (hk : -1074 ≤ k) :
    Binary64.nearest ((n : ℚ) * 2 ^ k) = n * 2 ^ k := by
  have hx : |(n : ℚ) * 2 ^ k| < (2 : ℚ) ^ (k + 53) := by
    rw [abs_mul, abs_of_pos (by positivity : (0 : ℚ) < 2 ^ k), zpow_add₀ (by norm_num), mul_comm]
    have : |(n : ℚ)| < 2 ^ (53 : ℤ) := by
      have h : ((|n| : ℤ) : ℚ) < ((2 ^ 53 : ℤ) : ℚ) := by exact_mod_cast hn
      rw [Int.cast_abs] at h
      exact_mod_cast h
    gcongr
  unfold Binary64.nearest
  split_ifs with h0
  · rw [h0]
  · have hle := nearest_exponent_le _ k hk h0 hx
    generalize max (Int.log 2 |(n : ℚ) * 2 ^ k| - 52) (-1074) = e at hle
    obtain ⟨j, hj⟩ := Int.eq_ofNat_of_zero_le (by omega : 0 ≤ k - e)
    have hk2 : k = e + j := by omega
    have h1 : (n : ℚ) * 2 ^ k / 2 ^ e = ((n * 2 ^ j : ℤ) : ℚ) := by
      rw [hk2, zpow_add₀ (by norm_num), zpow_natCast]
      push_cast
      field_simp
      ring
    rw [h1, round_half_even_intCast, hk2, zpow_add₀ (by norm_num), zpow_natCast]
    push_cast
    ring

theorem nearest_grid (x : ℚ) (k : ℤ) (hrep : Binary64.nearest x = x)
    (hx : (2 : ℚ) ^ k ≤ |x|) : ∃ n : ℤ, x = n * 2 ^ (k - 52) := by
  have hpos : (0 : ℚ) < |x| := lt_of_lt_of_le (by positivity) hx
  have h0 : x ≠ 0 := abs_pos.mp hpos
  have hlog : k ≤ Int.log 2 |x| :=
    (Int.zpow_le_iff_le_log (by norm_num : 1 < 2) hpos).mp (by push_cast; exact hx)
  unfold Binary64.nearest at hrep
  rw [if_neg h0] at hrep
  have hle : k - 52 ≤ max (Int.log 2 |x| - 52) (-1074) := by omega
  generalize max (Int.log 2 |x| - 52) (-1074) = e at hle hrep
  obtain ⟨j, hj⟩ := Int.eq_ofNat_of_zero_le (by omega : 0 ≤ e - (k - 52))
  have he : e = k - 52 + j := by omega
  refine ⟨Binary64.round_half_even (x / 2 ^ e) * 2 ^ j, ?_⟩
  rw [he, zpow_add₀ (by norm_num), zpow_natCast] at hrep
  push_cast
  rw [he, zpow_add₀ (by norm_num), zpow_natCast]
  linarith

theorem nearest_zero : Binary64.nearest 0 = 0 := if_pos rfl

theorem nearest_one_hundredth :
    Binary64.nearest (1 / 100) = 5764607523034235 / 2 ^ 59 := by
  rw [nearest_of_exponent (1 / 100) (-59) 5764607523034235 (by norm_num)
    (by rw [abs_of_pos (by norm_num)]; norm_num [zpow_neg])
    (by rw [abs_of_pos (by norm_num)]; norm_num [zpow_neg])
    (round_half_even_near _ _ (by rw [abs_lt]; norm_num [zpow_neg]))]
  norm_num [zpow_neg]

theorem nearest_nine_tenths :
    Binary64.nearest (9 / 10) = 8106479329266893 / 2 ^ 53 := by
  rw [nearest_of_exponent (9 / 10) (-53) 8106479329266893 (by norm_num)
    (by rw [abs_of_pos (by norm_num)]; norm_num [zpow_neg])
    (by rw [abs_of_pos (by norm_num)]; norm_num [zpow_neg])
    (round_half_even_near _ _ (by rw [abs_lt]; norm_num [zpow_neg]))]
  norm_num [zpow_neg]

theorem lt_nine_tenths_iff (f : ℚ) (hrep : Binary64.nearest f = f) :
    f < Binary64.MAX_CPU_SIZE_FRACTION ↔ f < 9 / 10 := by
  unfold Binary64.MAX_CPU_SIZE_FRACTION
  rw [nearest_nine_tenths]
  constructor
  · intro h
    by_contra hge
    rw [not_lt] at hge
    obtain ⟨n, hn⟩ := nearest_grid f (-1) hrep
      (by rw [abs_of_pos (by linarith)]; norm_num [zpow_neg]; linarith)
    rw [hn] at h hge
    norm_num [zpow_neg] at h hge
    have h1 : (n : ℚ) < 8106479329266893 := by linarith
    have h2 : (8106479329266892 : ℚ) < n := by linarith
    have h3 : n < 8106479329266893 := by exact_mod_cast h1
    have h4 : 8106479329266892 < n := by exact_mod_cast h2
    omega
  · intro h
    have : (9 : ℚ) / 10 < 8106479329266893 / 2 ^ 53 := by norm_num
    linarith

theorem one_hundredth_le_iff (f : ℚ) (hrep : Binary64.nearest f = f) :
    Binary64.CSF_STEP_DECREMENT ≤ f ↔ 1 / 100 ≤ f := by
  unfold Binary64.CSF_STEP_DECREMENT
  rw [nearest_one_hundredth]
  constructor
  · intro h
    have : (1 : ℚ) / 100 < 5764607523034235 / 2 ^ 59 := by norm_num
    linarith
  · intro h
    obtain ⟨n, hn⟩ := nearest_grid f (-7) hrep
      (by rw [abs_of_pos (by linarith)]; norm_num [zpow_neg]; linarith)
    rw [hn] at h ⊢
    norm_num [zpow_neg] at h ⊢
    have h2 : (5764607523034234 : ℚ) < n := by linarith
    have h4 : 5764607523034234 < n := by exact_mod_cast h2
    have h5 : (5764607523034235 : ℤ) ≤ n := by omega
    have h6 : (5764607523034235 : ℚ) ≤ n := by exact_mod_cast h5
    linarith

theorem binary64_tuner_fires (waits : Nat) (g : Binary64.Knobs)
    (hs : ((g.num_descs + 1) % 2 ^ 64) &&& DESCS_PER_RUN = DESCS_PER_RUN)
    (hfire : NUM_DESCS ≤ (g.adjust_num_descs + 1) % 2 ^ 64) :
    Binary64.dsa_wait_and_adjust waits g =
      if g.max_avg_waits < Binary64.avg_num_waits waits g then
        if g.cpu_size_fraction < Binary64.MAX_CPU_SIZE_FRACTION then
          { g with num_descs := (g.num_descs + 1) % 2 ^ 64, adjust_num_descs := 0,
                   adjust_num_waits := 0,
                   cpu_size_fraction :=
                     Binary64.nearest (g.cpu_size_fraction + Binary64.CSF_STEP_INCREMENT) }
        else if g.dsa_min_size < MAX_DSA_MIN_SIZE then
          { g with num_descs := (g.num_descs + 1) % 2 ^ 64, adjust_num_descs := 0,
                   adjust_num_waits := 0, dsa_min_size := g.dsa_min_size + DMS_STEP_INCREMENT }
        else
          { g with num_descs := (g.num_descs + 1) % 2 ^ 64, adjust_num_descs := 0,
                   adjust_num_waits := 0 }
      else if Binary64.avg_num_waits waits g < g.min_avg_waits then
        if Binary64.CSF_STEP_DECREMENT ≤ g.cpu_size_fraction then
          { g with num_descs := (g.num_descs + 1) % 2 ^ 64, adjust_num_descs := 0,
                   adjust_num_waits := 0,
                   cpu_size_fraction :=
                     Binary64.nearest (g.cpu_size_fraction - Binary64.CSF_STEP_DECREMENT) }
        else if MIN_DSA_MIN_SIZE < g.dsa_min_size then
          { g with num_descs := (g.num_descs + 1) % 2 ^ 64, adjust_num_descs := 0,
                   adjust_num_waits := 0, dsa_min_size := g.dsa_min_size - DMS_STEP_DECREMENT }
        else
          { g with num_descs := (g.num_descs + 1) % 2 ^ 64, adjust_num_descs := 0,
                   adjust_num_waits := 0 }
      else
        { g with num_descs := (g.num_descs + 1) % 2 ^ 64, adjust_num_descs := 0,
                 adjust_num_waits := 0 } := by
  have hne : (g.adjust_num_descs + 1) % 2 ^ 64 ≠ 0 := by
    unfold NUM_DESCS at hfire
    omega
  unfold Binary64.dsa_wait_and_adjust Binary64.avg_num_waits
  simp only [hs, ne_eq, not_true_eq_false, if_false, hfire, if_true, hne, not_false_eq_true]

theorem nearest_step_error (f : ℚ) (h0 : 0 ≤ f) (h1 : f ≤ 1) :
    |Binary64.nearest (f + Binary64.nearest (1 / 100)) - (f + 1 / 100)| ≤ 1 / 2 ^ 52 ∧
    |Binary64.nearest (f - Binary64.nearest (1 / 100)) - (f - 1 / 100)| ≤ 1 / 2 ^ 52 := by
  rw [nearest_one_hundredth]
  have e1 := nearest_error (f + 5764607523034235 / 2 ^ 59) (-52) (by norm_num)
    (by rw [abs_lt]; norm_num; constructor <;> linarith)
  have e2 := nearest_error (f - 5764607523034235 / 2 ^ 59) (-52) (by norm_num)
    (by rw [abs_lt]; norm_num; constructor <;> linarith)
  norm_num [zpow_neg] at e1 e2
  rw [abs_le] at e1 e2 ⊢
  rw [abs_le]
  norm_num at e1 e2 ⊢
  refine ⟨⟨?_, ?_⟩, ?_, ?_⟩ <;> linarith [e1.1, e1.2, e2.1, e2.2]

theorem avg_num_waits_exact (waits : Nat) (g : Binary64.Knobs)
    (ht : (g.adjust_num_descs + 1) % 2 ^ 64 = 16)
    (hw : (g.adjust_num_waits + waits) % 2 ^ 64 < 2 ^ 53) :
    Binary64.avg_num_waits waits g =
      (((g.adjust_num_waits + waits) % 2 ^ 64 : Nat) : ℚ) / 16 := by
  unfold Binary64.avg_num_waits
  rw [ht]
  generalize (g.adjust_num_waits + waits) % 2 ^ 64 = total at hw
  have a1 : Binary64.nearest ((total : Nat) : ℚ) = total := by
    have := nearest_dyadic (total : ℤ) 0 (by rw [abs_of_nonneg (by positivity)]; exact_mod_cast hw)
      (by norm_num)
    simpa using this
  have a2 : Binary64.nearest (((16 : Nat) : ℚ)) = 16 := by
    have := nearest_dyadic 16 0 (by norm_num) (by norm_num)
    simpa using this
  have a3 : Binary64.nearest ((total : ℚ) / 16) = total / 16 := by
    have := nearest_dyadic (total : ℤ) (-4)
      (by rw [abs_of_nonneg (by positivity)]; exact_mod_cast hw) (by norm_num)
    have e : ((total : ℤ) : ℚ) * 2 ^ (-4 : ℤ) = (total : ℚ) / 16 := by
      norm_num [zpow_neg]
      ring
    rw [e] at this
    exact this
  rw [a1, a2, a3]

theorem nearest_one : Binary64.nearest 1 = 1 := by
  have := nearest_dyadic 1 0 (by norm_num) (by norm_num)
  simpa using this

theorem nearest_two : Binary64.nearest 2 = 2 := by
  have := nearest_dyadic 2 0 (by norm_num) (by norm_num)
  simpa using this

/-- From the binary64 value of 0.03 two decrements of the fraction lead to
`5764607523034233 / 2 ^ 59`, which is below 0.01. -/
theorem two_decrements_from_three_hundredths :
    Binary64.nearest (Binary64.nearest (Binary64.nearest (3 / 100) -
      Binary64.CSF_STEP_DECREMENT) - Binary64.CSF_STEP_DECREMENT) =
      5764607523034233 / 2 ^ 59 ∧
    (5764607523034233 : ℚ) / 2 ^ 59 < 1 / 100 := by
  have h3 : Binary64.nearest (3 / 100) = 8646911284551352 / 2 ^ 58 := by
    rw [nearest_of_exponent (3 / 100) (-58) 8646911284551352 (by norm_num)
      (by rw [abs_of_pos (by norm_num)]; norm_num [zpow_neg])
      (by rw [abs_of_pos (by norm_num)]; norm_num [zpow_neg])
      (round_half_even_near _ _ (by rw [abs_lt]; norm_num [zpow_neg]))]
    norm_num [zpow_neg]
  have h2 : Binary64.nearest ((8646911284551352 : ℚ) / 2 ^ 58 - 5764607523034235 / 2 ^ 59) =
      5764607523034234 / 2 ^ 58 := by
    have ht := round_half_even_tie 5764607523034234
    rw [if_pos (by decide)] at ht
    rw [nearest_of_exponent _ (-58) 5764607523034234 (by norm_num)
      (by rw [abs_of_pos (by norm_num)]; norm_num [zpow_neg])
      (by rw [abs_of_pos (by norm_num)]; norm_num [zpow_neg])
      (by rw [← ht]; congr 1; norm_num [zpow_neg])]
    norm_num [zpow_neg]
  have h1 : Binary64.nearest ((5764607523034234 : ℚ) / 2 ^ 58 - 5764607523034235 / 2 ^ 59) =
      5764607523034233 / 2 ^ 59 := by
    have := nearest_dyadic 5764607523034233 (-59) (by norm_num) (by norm_num)
    have e : ((5764607523034233 : ℤ) : ℚ) * 2 ^ (-59 : ℤ) =
        (5764607523034234 : ℚ) / 2 ^ 58 - 5764607523034235 / 2 ^ 59 := by
      norm_num [zpow_neg]
    rw [e] at this
    rw [this]
    norm_num [zpow_neg]
  unfold Binary64.CSF_STEP_DECREMENT
  rw [nearest_one_hundredth, h3, h2, h1]
  exact ⟨rfl, by norm_num⟩

/-- C22: when the tuner fires, that is on a sampled descriptor with which the
number of accumulated samples reaches `NUM_DESCS = 16`, with `cpu_size_fraction`
a binary64 value and `min_avg_waits ≤ max_avg_waits`: both accumulators are
reset to 0 and, besides the descriptor counter that every wait increments,
nothing but the knobs changes.  With `avg` the average as the code computes it:
if `avg > max_avg_waits`, the fraction becomes the binary64 sum of itself and
the constant `0.01` when it is below 0.9, otherwise `dsa_min_size` grows by 1024
when it is below 65536; if `avg < min_avg_waits`, the fraction becomes the
binary64 difference of itself and the constant `0.01` when it is at least 0.01,
otherwise `dsa_min_size` shrinks by 1024 when it is above 6144; in between both
knobs are unchanged; at most one knob changes.  For a fraction in `[0, 1]` the
binary64 sum and difference are within `2 ^ -52` of the fraction plus and minus
one hundredth, and when sixteen samples with fewer than `2 ^ 53` waits are
accumulated `avg` is exactly their average. -/
theorem tuner_step (waits : Nat) (g : Binary64.Knobs)
    (hs : ((g.num_descs + 1) % 2 ^ 64) &&& DESCS_PER_RUN = DESCS_PER_RUN)
    (hfire : NUM_DESCS ≤ (g.adjust_num_descs + 1) % 2 ^ 64)
    (hmm : g.min_avg_waits ≤ g.max_avg_waits)
    (hrep : Binary64.nearest g.cpu_size_fraction = g.cpu_size_fraction) :
    ((Binary64.dsa_wait_and_adjust waits g).adjust_num_descs = 0 ∧
      (Binary64.dsa_wait_and_adjust waits g).adjust_num_waits = 0) ∧
    ((Binary64.dsa_wait_and_adjust waits g).num_descs = (g.num_descs + 1) % 2 ^ 64 ∧
      (Binary64.dsa_wait_and_adjust waits g).min_avg_waits = g.min_avg_waits ∧
      (Binary64.dsa_wait_and_adjust waits g).max_avg_waits = g.max_avg_waits) ∧
    (g.max_avg_waits < Binary64.avg_num_waits waits g →
      (g.cpu_size_fraction < 9 / 10 →
        (Binary64.dsa_wait_and_adjust waits g).cpu_size_fraction =
          Binary64.nearest (g.cpu_size_fraction + Binary64.nearest (1 / 100)) ∧
        (Binary64.dsa_wait_and_adjust waits g).dsa_min_size = g.dsa_min_size) ∧
      (¬ g.cpu_size_fraction < 9 / 10 →
        (Binary64.dsa_wait_and_adjust waits g).cpu_size_fraction = g.cpu_size_fraction ∧
        (g.dsa_min_size < 65536 →
          (Binary64.dsa_wait_and_adjust waits g).dsa_min_size = g.dsa_min_size + 1024) ∧
        (¬ g.dsa_min_size < 65536 →
          (Binary64.dsa_wait_and_adjust waits g).dsa_min_size = g.dsa_min_size))) ∧
    (Binary64.avg_num_waits waits g < g.min_avg_waits →
      (1 / 100 ≤ g.cpu_size_fraction →
        (Binary64.dsa_wait_and_adjust waits g).cpu_size_fraction =
          Binary64.nearest (g.cpu_size_fraction - Binary64.nearest (1 / 100)) ∧
        (Binary64.dsa_wait_and_adjust waits g).dsa_min_size = g.dsa_min_size) ∧
      (g.cpu_size_fraction < 1 / 100 →
        (Binary64.dsa_wait_and_adjust waits g).cpu_size_fraction = g.cpu_size_fraction ∧
        (6144 < g.dsa_min_size →
          (Binary64.dsa_wait_and_adjust waits g).dsa_min_size = g.dsa_min_size - 1024) ∧
        (¬ 6144 < g.dsa_min_size →
          (Binary64.dsa_wait_and_adjust waits g).dsa_min_size = g.dsa_min_size))) ∧
    (g.min_avg_waits ≤ Binary64.avg_num_waits waits g →
      Binary64.avg_num_waits waits g ≤ g.max_avg_waits →
      (Binary64.dsa_wait_and_adjust waits g).cpu_size_fraction = g.cpu_size_fraction ∧
      (Binary64.dsa_wait_and_adjust waits g).dsa_min_size = g.dsa_min_size) ∧
    ((Binary64.dsa_wait_and_adjust waits g).cpu_size_fraction = g.cpu_size_fraction ∨
      (Binary64.dsa_wait_and_adjust waits g).dsa_min_size = g.dsa_min_size) ∧
    (0 ≤ g.cpu_size_fraction → g.cpu_size_fraction ≤ 1 →
      |Binary64.nearest (g.cpu_size_fraction + Binary64.nearest (1 / 100)) -
        (g.cpu_size_fraction + 1 / 100)| ≤ 1 / 2 ^ 52 ∧
      |Binary64.nearest (g.cpu_size_fraction - Binary64.nearest (1 / 100)) -
        (g.cpu_size_fraction - 1 / 100)| ≤ 1 / 2 ^ 52) ∧
    ((g.adjust_num_descs + 1) % 2 ^ 64 = 16 → (g.adjust_num_waits + waits) % 2 ^ 64 < 2 ^ 53 →
      Binary64.avg_num_waits waits g =
        (((g.adjust_num_waits + waits) % 2 ^ 64 : Nat) : ℚ) / 16) := by
  have hq := binary64_tuner_fires waits g hs hfire
  have h9 := lt_nine_tenths_iff g.cpu_size_fraction hrep
  have h1 := one_hundredth_le_iff g.cpu_size_fraction hrep
  have hinc : Binary64.CSF_STEP_INCREMENT = Binary64.nearest (1 / 100) := rfl
  have hdec : Binary64.CSF_STEP_DECREMENT = Binary64.nearest (1 / 100) := rfl
  rw [hinc] at hq
  rw [hdec] at hq h1
  simp only [h9, h1] at hq
  unfold MAX_DSA_MIN_SIZE MIN_DSA_MIN_SIZE DMS_STEP_INCREMENT DMS_STEP_DECREMENT at hq
  refine ⟨?_, ?_, ?_, ?_, ?_, ?_, fun h0 h1 => nearest_step_error _ h0 h1,
    fun ht hw => avg_num_waits_exact waits g ht hw⟩
  all_goals
    generalize Binary64.avg_num_waits waits g = avg at hq ⊢
    by_cases c1 : g.max_avg_waits < avg
    · have n2 : ¬ avg < g.min_avg_waits := not_lt.mpr (le_trans hmm (le_of_lt c1))
      rw [if_pos c1] at hq
      by_cases c2 : g.cpu_size_fraction < 9 / 10
      · rw [if_pos c2] at hq
        rw [hq]
        first
        | exact ⟨rfl, rfl⟩
        | exact ⟨rfl, rfl, rfl⟩
        | exact fun _ => ⟨fun _ => ⟨rfl, rfl⟩, fun h => absurd c2 h⟩
        | exact fun h => absurd h n2
        | exact fun _ h => absurd c1 (not_lt.mpr h)
        | exact Or.inr rfl
      · rw [if_neg c2] at hq
        by_cases c3 : g.dsa_min_size < 65536
        · rw [if_pos c3] at hq
          rw [hq]
          first
          | exact ⟨rfl, rfl⟩
          | exact ⟨rfl, rfl, rfl⟩
          | exact fun _ => ⟨fun h => absurd h c2, fun _ => ⟨rfl, fun _ => rfl, fun h => absurd c3 h⟩⟩
          | exact fun h => absurd h n2
          | exact fun _ h => absurd c1 (not_lt.mpr h)
          | exact Or.inl rfl
        · rw [if_neg c3] at hq
          rw [hq]
          first
          | exact ⟨rfl, rfl⟩
          | exact ⟨rfl, rfl, rfl⟩
          | exact fun _ => ⟨fun h => absurd h c2, fun _ => ⟨rfl, fun h => absurd h c3, fun _ => rfl⟩⟩
          | exact fun h => absurd h n2
          | exact fun _ h => absurd c1 (not_lt.mpr h)
          | exact Or.inl rfl
    · rw [if_neg c1] at hq
      by_cases c4 : avg < g.min_avg_waits
      · rw [if_pos c4] at hq
        by_cases c5 : 1 / 100 ≤ g.cpu_size_fraction
        · rw [if_pos c5] at hq
          rw [hq]
          first
          | exact ⟨rfl, rfl⟩
          | exact ⟨rfl, rfl, rfl⟩
          | exact fun h => absurd h c1
          | exact fun _ => ⟨fun _ => ⟨rfl, rfl⟩, fun h => absurd c5 (not_le.mpr h)⟩
          | exact fun h _ => absurd c4 (not_lt.mpr h)
          | exact Or.inr rfl
        · rw [if_neg c5] at hq
          by_cases c6 : 6144 < g.dsa_min_size
          · rw [if_pos c6] at hq
            rw [hq]
            first
            | exact ⟨rfl, rfl⟩
            | exact ⟨rfl, rfl, rfl⟩
            | exact fun h => absurd h c1
            | exact fun _ => ⟨fun h => absurd h c5,
                fun _ => ⟨rfl, fun _ => rfl, fun h => absurd c6 h⟩⟩
            | exact fun h _ => absurd c4 (not_lt.mpr h)
            | exact Or.inl rfl
          · rw [if_neg c6] at hq
            rw [hq]
            first
            | exact ⟨rfl, rfl⟩
            | exact ⟨rfl, rfl, rfl⟩
            | exact fun h => absurd h c1
            | exact fun _ => ⟨fun h => absurd h c5,
                fun _ => ⟨rfl, fun h => absurd h c6, fun _ => rfl⟩⟩
            | exact fun h _ => absurd c4 (not_lt.mpr h)
            | exact Or.inl rfl
      · rw [if_neg c4] at hq
        rw [hq]
        first
        | exact ⟨rfl, rfl⟩
        | exact ⟨rfl, rfl, rfl⟩
        | exact fun h => absurd h c1
        | exact fun h => absurd h c4
        | exact fun _ _ => ⟨rfl, rfl⟩
        | exact Or.inl rfl

/-- C22 at a concrete input: the fraction is the value that two decrements leave
of 0.03, which is below 0.01; the sixteenth sample arrives with no waits
accumulated, an average below 1, and the tuner lowers `dsa_min_size` from 8192
to 7168 and leaves the fraction. -/
theorem tuner_step_witness :
    (((Binary64.knobs_at (5764607523034233 / 2 ^ 59) 254 15 0).num_descs + 1) % 2 ^ 64) &&&
      DESCS_PER_RUN = DESCS_PER_RUN ∧
    NUM_DESCS ≤ ((Binary64.knobs_at (5764607523034233 / 2 ^ 59) 254 15 0).adjust_num_descs + 1) %
      2 ^ 64 ∧
    (Binary64.knobs_at (5764607523034233 / 2 ^ 59) 254 15 0).min_avg_waits ≤
      (Binary64.knobs_at (5764607523034233 / 2 ^ 59) 254 15 0).max_avg_waits ∧
    Binary64.nearest (Binary64.knobs_at (5764607523034233 / 2 ^ 59) 254 15 0).cpu_size_fraction =
      (Binary64.knobs_at (5764607523034233 / 2 ^ 59) 254 15 0).cpu_size_fraction ∧
    (Binary64.dsa_wait_and_adjust 0
      (Binary64.knobs_at (5764607523034233 / 2 ^ 59) 254 15 0)).cpu_size_fraction =
      5764607523034233 / 2 ^ 59 ∧
    (Binary64.dsa_wait_and_adjust 0
      (Binary64.knobs_at (5764607523034233 / 2 ^ 59) 254 15 0)).dsa_min_size = 8192 - 1024 := by
  have hmm : (Binary64.knobs_at (5764607523034233 / 2 ^ 59) 254 15 0).min_avg_waits ≤
      (Binary64.knobs_at (5764607523034233 / 2 ^ 59) 254 15 0).max_avg_waits := by
    show Binary64.nearest 1 ≤ Binary64.nearest 2
    rw [nearest_one, nearest_two]
    norm_num
  have hrep : Binary64.nearest
      (Binary64.knobs_at (5764607523034233 / 2 ^ 59) 254 15 0).cpu_size_fraction =
      (Binary64.knobs_at (5764607523034233 / 2 ^ 59) 254 15 0).cpu_size_fraction := by
    show Binary64.nearest (5764607523034233 / 2 ^ 59) = 5764607523034233 / 2 ^ 59
    have := nearest_dyadic 5764607523034233 (-59) (by norm_num) (by norm_num)
    have e : ((5764607523034233 : ℤ) : ℚ) * 2 ^ (-59 : ℤ) = 5764607523034233 / 2 ^ 59 := by
      norm_num [zpow_neg]
    rw [e] at this
    exact this
  have havg : Binary64.avg_num_waits 0 (Binary64.knobs_at (5764607523034233 / 2 ^ 59) 254 15 0) <
      (Binary64.knobs_at (5764607523034233 / 2 ^ 59) 254 15 0).min_avg_waits := by
    rw [avg_num_waits_exact 0 _ (by decide) (by decide)]
    show _ < Binary64.nearest 1
    rw [nearest_one]
    norm_num [Binary64.knobs_at]
  have hlow : (Binary64.knobs_at (5764607523034233 / 2 ^ 59) 254 15 0).cpu_size_fraction <
      1 / 100 := by
    show (5764607523034233 : ℚ) / 2 ^ 59 < 1 / 100
    norm_num
  exact ⟨by decide, by decide, hmm, hrep,
    (((tuner_step 0 (Binary64.knobs_at (5764607523034233 / 2 ^ 59) 254 15 0) (by decide)
      (by decide) hmm hrep).2.2.2.1 havg).2 hlow).1,
    (((tuner_step 0 (Binary64.knobs_at (5764607523034233 / 2 ^ 59) 254 15 0) (by decide)
      (by decide) hmm hrep).2.2.2.1 havg).2 hlow).2.1 (by decide)⟩

/-! ## C23: the sampling mark of the tuner -/

set_option maxRecDepth 100000 in
theorem sampled_iff (c : Nat) : sampled c = true ↔ 240 ≤ c % 256 := by
  have h1 : c &&& 240 = c % 256 &&& 240 := by
    have e : (240 : Nat) = (2 ^ 8 - 1) &&& 240 := by decide
    rw [show c % 256 = c % 2 ^ 8 from rfl, ← Nat.and_pow_two_sub_one_eq_mod, Nat.and_assoc, ← e]
  have h2 : ∀ m, m < 256 → (m &&& 240 = 240 ↔ 240 ≤ m) := by decide
  unfold sampled DESCS_PER_RUN
  rw [decide_eq_true_iff, h1]
  exact h2 _ (Nat.mod_lt _ (by decide))

theorem sampled_periodic : Function.Periodic (fun c => sampled (c % 2 ^ 64) = true) 256 := by
  intro c
  have e1 : (c + 256) % 2 ^ 64 % 256 = c % 2 ^ 64 % 256 := by
    rw [Nat.mod_mod_of_dvd _ (by decide : 256 ∣ 2 ^ 64),
      Nat.mod_mod_of_dvd _ (by decide : 256 ∣ 2 ^ 64), Nat.add_mod_right]
  simp only [sampled_iff, e1]

set_option maxRecDepth 100000 in
/-- C23 fails as stated: the descriptors that bring the counter to 241 and to
255, whose low 8 bits are not `0xF0`, are sampled like the one that brings it to
240, and among the counter values 0 to 255 sixteen are sampled, not one. -/
theorem sampling_is_a_mask_test :
    ((dsa_wait_and_adjust 3 (knobs_at 239 0 0)).num_descs = 240 ∧
      (dsa_wait_and_adjust 3 (knobs_at 239 0 0)).adjust_num_descs = 1 ∧
      (dsa_wait_and_adjust 3 (knobs_at 239 0 0)).adjust_num_waits = 3) ∧
    ((dsa_wait_and_adjust 3 (knobs_at 240 1 3)).num_descs = 241 ∧ 241 % 256 ≠ 0xF0 ∧
      (dsa_wait_and_adjust 3 (knobs_at 240 1 3)).adjust_num_descs = 2 ∧
      (dsa_wait_and_adjust 3 (knobs_at 240 1 3)).adjust_num_waits = 6) ∧
    ((dsa_wait_and_adjust 3 (knobs_at 254 2 6)).num_descs = 255 ∧
      (dsa_wait_and_adjust 3 (knobs_at 254 2 6)).adjust_num_descs = 3) ∧
    ((List.range 256).filter sampled).length = 16 :=
  ⟨by decide, by decide, by decide, by decide⟩

set_option maxRecDepth 100000 in
/-- C23, amended: `dsa_wait_and_adjust` adds a descriptor's wait count to the
tuner sample exactly when the bits 4 to 7 of the global descriptor counter,
taken after its increment, are all set (`(counter & 0xF0) == 0xF0`), that is
when its low 8 bits lie in `0xF0 .. 0xFF`; 16 of every 256 consecutive
descriptors are sampled, and all other descriptors leave `adjust_num_descs`,
`adjust_num_waits` and both knobs unchanged.  A sampled descriptor adds one to
`adjust_num_descs` and its waits to `adjust_num_waits`, unless the tuner fires
and resets both. -/
theorem sampling_mark (waits : Nat) (g : Knobs) (start : Nat) :
    (sampled ((g.num_descs + 1) % 2 ^ 64) = true ↔ 240 ≤ (g.num_descs + 1) % 2 ^ 64 % 256) ∧
    (sampled ((g.num_descs + 1) % 2 ^ 64) = false →
      (dsa_wait_and_adjust waits g).adjust_num_descs = g.adjust_num_descs ∧
      (dsa_wait_and_adjust waits g).adjust_num_waits = g.adjust_num_waits ∧
      (dsa_wait_and_adjust waits g).cpu_size_fraction = g.cpu_size_fraction ∧
      (dsa_wait_and_adjust waits g).dsa_min_size = g.dsa_min_size) ∧
    (sampled ((g.num_descs + 1) % 2 ^ 64) = true →
      ((dsa_wait_and_adjust waits g).adjust_num_descs = (g.adjust_num_descs + 1) % 2 ^ 64 ∧
        (dsa_wait_and_adjust waits g).adjust_num_waits = (g.adjust_num_waits + waits) % 2 ^ 64) ∨
      (NUM_DESCS ≤ (g.adjust_num_descs + 1) % 2 ^ 64 ∧
        (dsa_wait_and_adjust waits g).adjust_num_descs = 0 ∧
        (dsa_wait_and_adjust waits g).adjust_num_waits = 0)) ∧
    (dsa_wait_and_adjust waits g).num_descs = (g.num_descs + 1) % 2 ^ 64 ∧
    ((Finset.Ico start (start + 256)).filter (fun c => sampled (c % 2 ^ 64) = true)).card = 16 := by
  refine ⟨sampled_iff _, ?_, ?_, ?_, ?_⟩
  · intro hs
    have hs1 : (g.num_descs + 1) % 2 ^ 64 &&& DESCS_PER_RUN ≠ DESCS_PER_RUN := by
      unfold sampled at hs
      simpa using hs
    unfold dsa_wait_and_adjust
    simp only [hs1, ne_eq, not_false_eq_true, if_true, and_self]
  · intro hs
    have hs1 : (g.num_descs + 1) % 2 ^ 64 &&& DESCS_PER_RUN = DESCS_PER_RUN := by
      unfold sampled at hs
      simpa using hs
    unfold dsa_wait_and_adjust
    simp only [hs1, ne_eq, not_true_eq_false, if_false]
    by_cases hf : NUM_DESCS ≤ (g.adjust_num_descs + 1) % 2 ^ 64
    · right
      have hne : (g.adjust_num_descs + 1) % 2 ^ 64 ≠ 0 := by
        unfold NUM_DESCS at hf
        omega
      simp only [hf, if_true, hne, not_false_eq_true]
      refine ⟨trivial, ?_⟩
      split_ifs <;> exact ⟨rfl, rfl⟩
    · left
      simp only [hf, if_false, and_self]
  · unfold dsa_wait_and_adjust
    dsimp only
    split_ifs <;> rfl
  · rw [Nat.filter_Ico_card_eq_of_periodic start 256 _ sampled_periodic]
    decide

/-- C23, amended, at concrete inputs: the descriptor that brings the counter
to 241 is sampled, the one that brings it to 16 is not. -/
theorem sampling_mark_witness :
    (sampled (((knobs_at 240 1 3).num_descs + 1) % 2 ^ 64) = true ↔
      240 ≤ ((knobs_at 240 1 3).num_descs + 1) % 2 ^ 64 % 256) ∧
    (dsa_wait_and_adjust 3 (knobs_at 15 1 3)).adjust_num_descs =
      (knobs_at 15 1 3).adjust_num_descs ∧
    ((Finset.Ico 1000 (1000 + 256)).filter (fun c => sampled (c % 2 ^ 64) = true)).card = 16 :=
  ⟨(sampling_mark 3 (knobs_at 240 1 3) 1000).1,
    ((sampling_mark 3 (knobs_at 15 1 3) 1000).2.1 (by decide)).1,
    (sampling_mark 3 (knobs_at 240 1 3) 1000).2.2.2.2⟩

end DTO
